import Mathlib

set_option linter.unusedVariables false

namespace Lodestone

/-- Character strings are modelled as lists of characters (JS strings by code unit). -/
abbrev Str := List Char

/-- Attributes carried by an entity-reference mark (`mark.attrs` in the source).
Each field is optional because the source accesses them with `?.` / truthiness checks. -/
structure MarkAttrs where
  id : Option Str
  labelType : Option Str
  type : Option Str
  deriving DecidableEq

/-- An inline mark on a text node (`{type, attrs}` in the source). -/
structure Mark where
  type : Str
  attrs : Option MarkAttrs
  deriving DecidableEq

/-- A Remirror document node: `{type, text?, marks?, content?}`. -/
inductive RNode where
  | mk (type : Str) (text : Option Str) (marks : Option (List Mark))
       (content : Option (List RNode))

mutual

def decEqRNode : (a b : RNode) → Decidable (a = b)
  | .mk t1 x1 m1 c1, .mk t2 x2 m2 c2 =>
    if h1 : t1 = t2 then
      if h2 : x1 = x2 then
        if h3 : m1 = m2 then
          match decEqOptListRNode c1 c2 with
          | isTrue h4 => isTrue (by rw [h1, h2, h3, h4])
          | isFalse h4 => isFalse (fun e => by injection e with e1 e2 e3 e4; exact h4 e4)
        else isFalse (fun e => by injection e with e1 e2 e3 e4; exact h3 e3)
      else isFalse (fun e => by injection e with e1 e2 e3 e4; exact h2 e2)
    else isFalse (fun e => by injection e with e1 e2 e3 e4; exact h1 e1)

def decEqOptListRNode : (a b : Option (List RNode)) → Decidable (a = b)
  | none, none => isTrue rfl
  | none, some _ => isFalse (fun e => by injection e)
  | some _, none => isFalse (fun e => by injection e)
  | some l1, some l2 =>
    match decEqListRNode l1 l2 with
    | isTrue h => isTrue (by rw [h])
    | isFalse h => isFalse (fun e => by injection e with e1; exact h e1)

def decEqListRNode : (a b : List RNode) → Decidable (a = b)
  | [], [] => isTrue rfl
  | [], _ :: _ => isFalse (fun e => by injection e)
  | _ :: _, [] => isFalse (fun e => by injection e)
  | a :: as, b :: bs =>
    match decEqRNode a b, decEqListRNode as bs with
    | isTrue h1, isTrue h2 => isTrue (by rw [h1, h2])
    | isFalse h1, _ => isFalse (fun e => by injection e with e1 e2; exact h1 e1)
    | _, isFalse h2 => isFalse (fun e => by injection e with e1 e2; exact h2 e2)

end

instance : DecidableEq RNode := decEqRNode

def RNode.type : RNode → Str
  | .mk t _ _ _ => t

def RNode.text : RNode → Option Str
  | .mk _ tx _ _ => tx

def RNode.marks : RNode → Option (List Mark)
  | .mk _ _ m _ => m

def RNode.content : RNode → Option (List RNode)
  | .mk _ _ _ c => c

/-- The document root (`RemirrorJSON`): only its `content` field is consulted
by the functions under study. -/
structure RemirrorDoc where
  content : Option (List RNode)
  deriving DecidableEq

/-- `HighlightWithText` from `services/models/openai.ts`. The optional `attrs`
field is never read by the functions under study and is omitted. -/
structure HighlightWithText where
  id : Str
  labelType : Str
  text : Str
  startIndex : Option Nat
  endIndex : Option Nat
  deriving DecidableEq

/-- `Relationship` from `utils/relationshipTypes.ts`. -/
structure Relationship where
  sourceHighlightId : Str
  targetHighlightId : Str
  deriving DecidableEq

/-- Shorthand for string literals in concrete statements. -/
def str (s : String) : Str := s.toList

/-- JS truthiness of an optional string: present and non-empty. -/
def truthy : Option Str → Bool
  | some s => !s.isEmpty
  | none => false

/-- `a?.toString() || b`: JS `||` falls through on the empty string as well as
on `undefined`. -/
def jsOr (a : Option Str) (b : Str) : Str :=
  match a with
  | some s => if s.isEmpty then b else s
  | none => b

/-- `haystack.indexOf(needle)`: position of the first occurrence, `none` when
absent (the source compares the JS result with `>= 0`). -/
def idxOf? (needle hay : Str) : Option Nat :=
  if needle.isPrefixOf hay then some 0
  else
    match hay with
    | [] => none
    | _ :: rest => (idxOf? needle rest).map (· + 1)

/-- `haystack.includes(needle)`. -/
def includesStr (hay needle : Str) : Bool :=
  (idxOf? needle hay).isSome

/-- The global highlight map (`utils/highlightMap.ts`), a JS `Map` in insertion
order with in-place value replacement. -/
abbrev HMap := List (Str × Str)

def hmGet (m : HMap) (k : Str) : Option Str :=
  (m.find? (fun p => p.1 == k)).map (fun p => p.2)

def hmSet (m : HMap) (k v : Str) : HMap :=
  if m.any (fun p => p.1 == k) then m.map (fun p => if p.1 == k then (k, v) else p)
  else m ++ [(k, v)]

def hmDelete (m : HMap) (k : Str) : HMap :=
  m.filter (fun p => p.1 != k)

/-- `setHighlight` from `utils/highlightMap.ts`: a no-op on empty id or label. -/
def setHighlight (m : HMap) (id labelType : Str) : HMap :=
  if id.isEmpty then m
  else if labelType.isEmpty then m
  else hmSet m id labelType

/-- `getHighlight` from `utils/highlightMap.ts`. -/
def getHighlight (m : HMap) (id : Str) : Option Str :=
  if id.isEmpty then none else hmGet m id

/-- A highlight attached to a rebuilt segment (`{id, labelType}` in the source). -/
structure SegHL where
  id : Str
  labelType : Str
  deriving DecidableEq

/-- `TextSegment` from `createDocumentWithMarks`. -/
structure TextSegment where
  text : Str
  highlights : List SegHL
  startPos : Nat
  deriving DecidableEq

/-- A located per-paragraph highlight entry
(`{id, labelType, text, startIndex, endIndex}` in `createDocumentWithMarks`). -/
structure LocatedHL where
  id : Str
  labelType : Str
  text : Str
  startIndex : Nat
  endIndex : Nat
  deriving DecidableEq

/-- Concatenated text of a node list: `nodes.map((node) => node.text || "").join("")`. -/
def textOfNodes (nodes : List RNode) : Str :=
  (nodes.map (fun n => n.text.getD [])).flatten

/-- `paragraph.content?.map((node) => node.text || "").join("") || ""`. -/
def paragraphText (p : RNode) : Str :=
  textOfNodes (p.content.getD [])

/-- `node.marks.filter((m) => typeof m === "object" && m.type === "entity-reference" && m.attrs)`. -/
def entityMarksOf (marks : List Mark) : List Mark :=
  marks.filter (fun m => m.type == str "entity-reference" && m.attrs.isSome)

/-- One node's contribution to `existingHighlights` at running offset `pos`
(only nodes with both `marks` and non-empty `text` contribute). -/
def existingOfNode (pos : Nat) (n : RNode) : List LocatedHL :=
  match n.marks, n.text with
  | some marks, some t =>
    if t.isEmpty then []
    else
      (entityMarksOf marks).filterMap (fun m =>
        match m.attrs with
        | some attrs =>
          let id := jsOr attrs.id []
          let labelType := jsOr attrs.labelType (jsOr attrs.type [])
          if !id.isEmpty && !labelType.isEmpty then
            some ⟨id, labelType, t, pos, pos + t.length⟩
          else none
        | none => none)
  | _, _ => []

/-- The `existingHighlights` accumulation over a paragraph's nodes: the running
offset advances by `node.text?.length || 0` for every node. -/
def existingHighlights (nodes : List RNode) : List LocatedHL :=
  (nodes.foldl (fun acc n =>
      (acc.1 ++ existingOfNode acc.2 n, acc.2 + (n.text.getD []).length))
    (([] : List LocatedHL), 0)).1

/-- The `paragraphAnnotations.forEach` loop: add each grouped highlight whose id
is not already present, located by `indexOf` in the paragraph text. -/
def addNewHLs (pText : Str) (acc : List LocatedHL) (anns : List HighlightWithText) :
    List LocatedHL :=
  anns.foldl (fun all a =>
    if all.any (fun h => h.id == a.id) then all
    else
      match idxOf? a.text pText with
      | some i => all ++ [⟨a.id, a.labelType, a.text, i, i + a.text.length⟩]
      | none => all) acc

/-- Stable insertion before entries with equal `startIndex`. -/
def insertHL (x : LocatedHL) : List LocatedHL → List LocatedHL
  | [] => [x]
  | y :: ys => if y.startIndex < x.startIndex then y :: insertHL x ys else x :: y :: ys

/-- `allHighlights.sort((a, b) => a.startIndex - b.startIndex)`: JS sort is
stable, modelled by stable insertion sort. -/
def sortHLs : List LocatedHL → List LocatedHL
  | [] => []
  | x :: xs => insertHL x (sortHLs xs)

/-- The replacement pieces for the segment containing a highlight's start:
optional text before, the marked piece (clipped to the segment), optional text
after. -/
def segPieces (seg : TextSegment) (hl : LocatedHL) : List TextSegment :=
  (if 0 < hl.startIndex - seg.startPos then
    [⟨seg.text.take (hl.startIndex - seg.startPos), seg.highlights, seg.startPos⟩]
   else []) ++
  [⟨(seg.text.take (min (hl.endIndex - seg.startPos) seg.text.length)).drop
      (hl.startIndex - seg.startPos),
    seg.highlights ++ [⟨hl.id, hl.labelType⟩],
    seg.startPos + (hl.startIndex - seg.startPos)⟩] ++
  (if hl.endIndex - seg.startPos < seg.text.length then
    [⟨seg.text.drop (hl.endIndex - seg.startPos), seg.highlights,
      seg.startPos + (hl.endIndex - seg.startPos)⟩]
   else [])

/-- The loop's containment test: `highlightRelativeStart >= 0 &&
highlightRelativeStart < segment.text.length`. -/
def segContains (seg : TextSegment) (i : Nat) : Prop :=
  seg.startPos ≤ i ∧ i - seg.startPos < seg.text.length

instance (seg : TextSegment) (i : Nat) : Decidable (segContains seg i) := by
  unfold segContains
  infer_instance

/-- Replace the first segment containing `hl.startIndex` by its pieces (the
inner `for` loop with `break` in the source); all later segments are untouched,
so a highlight reaching past its containing segment is silently clipped. -/
def splitSegs (hl : LocatedHL) : List TextSegment → List TextSegment
  | [] => []
  | seg :: rest =>
    if segContains seg hl.startIndex then segPieces seg hl ++ rest
    else seg :: splitSegs hl rest

/-- The outer `for (const highlight of allHighlights)` loop. -/
def applySplits (hls : List LocatedHL) (segs : List TextSegment) : List TextSegment :=
  hls.foldl (fun s h => splitSegs h s) segs

/-- Rebuild a text node from a segment (`marks` only when highlighted;
`attrs = {id, labelType, type: labelType}`). -/
def segToNode (seg : TextSegment) : RNode :=
  .mk (str "text") (some seg.text)
    (if seg.highlights.isEmpty then none
     else some (seg.highlights.map (fun h =>
       ⟨str "entity-reference", some ⟨some h.id, some h.labelType, some h.labelType⟩⟩)))
    none

/-- First-pass grouping predicate: annotations with non-empty text contained in
the paragraph's text. -/
def paraAnns (pText : Str) (anns : List HighlightWithText) : List HighlightWithText :=
  anns.filter (fun a => !a.text.isEmpty && includesStr pText a.text)

/-- Second-pass processing of one paragraph's content. -/
def processParagraph (nodes : List RNode) (pAnns : List HighlightWithText) : List RNode :=
  (applySplits
    (sortHLs (addNewHLs (textOfNodes nodes) (existingHighlights nodes) pAnns))
    [⟨textOfNodes nodes, [], 0⟩]).map segToNode

/-- Behaviour of `createDocumentWithMarks` on one top-level node (the grouping
map is keyed by paragraph index, so paragraphs are processed independently). -/
def processPara (anns : List HighlightWithText) (p : RNode) : RNode :=
  if p.type ≠ str "paragraph" then p
  else
    let pAnns := paraAnns (paragraphText p) anns
    if pAnns.isEmpty then p
    else
      match p.content with
      | none => p
      | some nodes => .mk p.type p.text p.marks (some (processParagraph nodes pAnns))

/-- `createDocumentWithMarks` from `services/annotation/documentUtils.ts`. -/
def createDocumentWithMarks (originalContent : RemirrorDoc)
    (anns : List HighlightWithText) : RemirrorDoc :=
  if anns.isEmpty then originalContent
  else
    match originalContent.content with
    | none => originalContent
    | some paragraphs => ⟨some (paragraphs.map (processPara anns))⟩

/-- State threaded through `extractHighlightsFromContentMarks`: the collected
highlights, the `seenIds` set and the global highlight map. -/
structure EState where
  highlights : List HighlightWithText
  seenIds : List Str
  hmap : HMap
  deriving DecidableEq

/-- Label resolution for one mark: the mark's `labelType` if non-empty, else the
mark's `type` if non-empty, else a truthy highlight-map entry, else `"claim"`. -/
def resolveLabel (attrs : MarkAttrs) (id : Str) (m : HMap) : Str :=
  if truthy attrs.labelType then attrs.labelType.getD []
  else if truthy attrs.type then attrs.type.getD []
  else
    match getHighlight m id with
    | some saved => if saved.isEmpty then str "claim" else saved
    | none => str "claim"

/-- Processing of one entity-reference mark on a text node (the inner loop of
`processNode`): skip on missing/seen/recently-removed id, otherwise resolve the
label, sync the highlight map, and append the highlight. -/
def processMark (removed : List Str) (t : Str) (pos : Nat) (st : EState) (m : Mark) :
    EState :=
  match m.attrs with
  | none => st
  | some attrs =>
    if !truthy attrs.id || st.seenIds.contains (attrs.id.getD [])
        || removed.contains (attrs.id.getD []) then st
    else
      let id := attrs.id.getD []
      let labelType := resolveLabel attrs id st.hmap
      { highlights := st.highlights ++ [⟨id, labelType, t, some pos, some (pos + t.length)⟩]
        seenIds := st.seenIds ++ [id]
        hmap := setHighlight st.hmap id labelType }

mutual

/-- `processNode` from `extractHighlightsFromContentMarks`: a text node with
`marks` reports its text length; otherwise a node with `content` recurses into
its children (block nodes add 1 for the implicit newline); any other node —
including a plain unmarked text node — reports length 0. -/
def processNode (removed : List Str) (node : RNode) (pos : Nat) (st : EState) :
    Nat × EState :=
  match node with
  | .mk ntype ntext nmarks ncontent =>
    if truthy ntext && nmarks.isSome then
      let t := ntext.getD []
      let entity := (nmarks.getD []).filter
        (fun m => m.type == str "entity-reference" && m.attrs.isSome)
      (t.length, entity.foldl (processMark removed t pos) st)
    else
      match ncontent with
      | some children =>
        let r := processChildren removed children pos st
        if !ntype.isEmpty && (ntype == str "paragraph" || ntype == str "heading") then
          (r.1 + 1, r.2)
        else r
      | none => (0, st)

/-- The `node.content.forEach` traversal with its running position. -/
def processChildren (removed : List Str) (children : List RNode) (pos : Nat) (st : EState) :
    Nat × EState :=
  match children with
  | [] => (0, st)
  | c :: cs =>
    let r := processNode removed c pos st
    let r' := processChildren removed cs (pos + r.1) r.2
    (r.1 + r'.1, r'.2)

end

/-- `SessionManager.extractHighlightsFromContentMarks`: every top-level node is
processed at position 0 (`forEach` discards the returned lengths). Returns the
highlight list and the updated global map. -/
def extractHighlightsFromContentMarks (removed : List Str) (hmap : HMap)
    (content : RemirrorDoc) : List HighlightWithText × HMap :=
  let st0 : EState := ⟨[], [], hmap⟩
  let stF :=
    match content.content with
    | some nodes => nodes.foldl (fun st n => (processNode removed n 0 st).2) st0
    | none => st0
  (stF.highlights, stF.hmap)

/-- `SessionManager.markHighlightAsRemoved`: adds the id to the recently-removed
set; a timer removes it again after the 500 ms grace window, so within the
window the set contains the id. -/
def markHighlightAsRemoved (removed : List Str) (id : Str) : List Str :=
  if removed.contains id then removed else removed ++ [id]

/-- The `EditorContent` record from `db.ts`, restricted to the fields
`deleteHighlight` reads or writes (the content field is spread through
unchanged). -/
structure EditorContent where
  id : Option Nat
  highlights : List HighlightWithText
  relationships : List Relationship
  deriving DecidableEq

/-- `deleteHighlight` from `utils/highlightOperations.ts`: throws without a
record id (JS also treats id 0 as missing), otherwise issues one update record
carrying both the filtered highlight list and the filtered relationship list,
and deletes the id from the global highlight map. -/
def deleteHighlight (highlightId : Str) (currentRecord : EditorContent)
    (hmap : HMap) : Except Str (EditorContent × HMap) :=
  match currentRecord.id with
  | none => .error (str "Cannot delete highlight: No record ID found")
  | some i =>
    if i == 0 then .error (str "Cannot delete highlight: No record ID found")
    else
      .ok ({ currentRecord with
             highlights := currentRecord.highlights.filter
               (fun h => h.id != highlightId)
             relationships := currentRecord.relationships.filter (fun r =>
               r.sourceHighlightId != highlightId && r.targetHighlightId != highlightId) },
           hmDelete hmap highlightId)

/-- The analysed-content slice of a session consulted by `handleEditorChange`. -/
structure AnalysedContent where
  highlights : List HighlightWithText
  relationships : List Relationship
  deriving DecidableEq

/-- The page mode of `EditorPage`. -/
inductive EditorMode where
  | input
  | analysis
  deriving DecidableEq

/-- The persistence action `handleEditorChange` ends in. -/
inductive EditorAction where
  | noop
  | updateInput (doc : RemirrorDoc)
  | updateAnalysed (doc : RemirrorDoc) (highlights : List HighlightWithText)
      (relationships : List Relationship)
  deriving DecidableEq

/-- The cursor-movement guard in `handleEditorChange`: no content, or an empty
first block. -/
def isEmptyUpdate (json : RemirrorDoc) : Bool :=
  match json.content with
  | none => true
  | some [] => true
  | some (n :: _) =>
    match n.content with
    | none => true
    | some [] => true
    | some _ => false

/-- `handleEditorChange` from `pages/EditorPage.tsx`: `jsonHighlights` models
`json.highlights`, `contentHighlights` the loaded record's highlights
(`content?.highlights`), `analysed` the session's analysed content. Returns the
chosen persistence action and the updated global map (extraction may write to
it). -/
def handleEditorChange (mode : EditorMode) (json : RemirrorDoc)
    (jsonHighlights : Option (List HighlightWithText))
    (contentHighlights : Option (List HighlightWithText))
    (analysed : Option AnalysedContent)
    (removed : List Str) (hmap : HMap) : EditorAction × HMap :=
  let highlights := jsonHighlights.getD []
  if isEmptyUpdate json && !(contentHighlights.getD []).isEmpty then (.noop, hmap)
  else
    match mode with
    | .input => (.updateInput json, hmap)
    | .analysis =>
      match analysed with
      | none => (.noop, hmap)
      | some ac =>
        if !highlights.isEmpty then (.updateAnalysed json highlights ac.relationships, hmap)
        else
          let ex := extractHighlightsFromContentMarks removed hmap json
          let highlightsToUse := if !ex.1.isEmpty then ex.1 else ac.highlights
          (.updateAnalysed json highlightsToUse ac.relationships, ex.2)

/-! ### Concrete document builders for the testable properties -/

/-- A plain text node. -/
def textNode (s : String) : RNode := .mk (str "text") (some (str s)) none none

/-- A text node carrying one entity-reference mark with full attributes. -/
def markedNode (s id lbl : String) : RNode :=
  .mk (str "text") (some (str s))
    (some [⟨str "entity-reference", some ⟨some (str id), some (str lbl), some (str lbl)⟩⟩])
    none

/-- A paragraph node. -/
def para (ns : List RNode) : RNode := .mk (str "paragraph") none none (some ns)

/-- A highlight record without positions. -/
def mkHL (id lbl tx : String) : HighlightWithText := ⟨str id, str lbl, str tx, none, none⟩

/-! ### Derived notions used by the invariant proofs -/

/-- Concatenated text of a segment list. -/
def textConcat (segs : List TextSegment) : Str :=
  (segs.map TextSegment.text).flatten

/-- Recursive reformulation of the `existingHighlights` accumulation, starting
at offset `pos`. -/
def existingFrom (pos : Nat) : List RNode → List LocatedHL
  | [] => []
  | n :: ns => existingOfNode pos n ++ existingFrom (pos + (n.text.getD []).length) ns

/-- Segments tile the text contiguously from offset `o` with non-empty pieces. -/
def contiguousFrom : Nat → List TextSegment → Prop
  | _, [] => True
  | o, s :: rest => s.startPos = o ∧ s.text ≠ [] ∧ contiguousFrom (o + s.text.length) rest

/-- No two adjacent segments are both unmarked. -/
def noAdjUnmarked : List TextSegment → Prop
  | [] => True
  | [_] => True
  | s1 :: s2 :: rest => ¬(s1.highlights = [] ∧ s2.highlights = []) ∧ noAdjUnmarked (s2 :: rest)

/-- The whole-segment located entries a marked segment gives rise to on
re-extraction by the annotator's `existingHighlights` pass. -/
def segEntries (seg : TextSegment) : List LocatedHL :=
  seg.highlights.map (fun h =>
    ⟨h.id, h.labelType, seg.text, seg.startPos, seg.startPos + seg.text.length⟩)

/-- All whole-segment entries of a segment list, in order. -/
def entriesOf (segs : List TextSegment) : List LocatedHL :=
  (segs.map segEntries).flatten

/-- Every segment highlight carries a non-empty id and label. -/
def segsIdsOK (segs : List TextSegment) : Prop :=
  ∀ seg ∈ segs, ∀ h ∈ seg.highlights, h.id ≠ [] ∧ h.labelType ≠ []

/-- Entry start indexes are non-decreasing, from a lower bound. -/
def startsFrom (lb : Nat) : List LocatedHL → Prop
  | [] => True
  | e :: rest => lb ≤ e.startIndex ∧ startsFrom e.startIndex rest

/-- A highlight's text is non-empty and contained in some paragraph of the
document (the code's notion of being locatable: `paragraphText.includes`). -/
def locatableIn (d : RemirrorDoc) (a : HighlightWithText) : Prop :=
  a.text ≠ [] ∧ ∃ p ∈ d.content.getD [],
    p.type = str "paragraph" ∧ includesStr (paragraphText p) a.text = true

/-- The identity-bearing triple (id, labelType, text) of a highlight record;
the round-trip property compares these, the position fields being recomputed. -/
def tripleOf (a : HighlightWithText) : Str × Str × Str := (a.id, a.labelType, a.text)

/-- The located entry the `paragraphAnnotations.forEach` loop builds for an
annotation whose text occurs in the paragraph text (`none` when it does not). -/
def locEntry (pText : Str) (a : HighlightWithText) : Option LocatedHL :=
  (idxOf? a.text pText).map (fun i => ⟨a.id, a.labelType, a.text, i, i + a.text.length⟩)

/-- Entry ranges are sorted left to right and pairwise disjoint, starting at or
after `cur`. -/
def disjChain : Nat → List LocatedHL → Prop
  | _, [] => True
  | cur, e :: rest => cur ≤ e.startIndex ∧ disjChain e.endIndex rest

/-- The located occurrences of two annotation texts in a paragraph text do not
overlap (trivially true when either text does not occur). -/
def annsDisjoint (pText : Str) (a b : HighlightWithText) : Bool :=
  match idxOf? a.text pText, idxOf? b.text pText with
  | some i, some j => decide (i + a.text.length ≤ j ∨ j + b.text.length ≤ i)
  | _, _ => true

/-- The annotations grouped to any one paragraph of the document occupy pairwise
disjoint ranges of its text (the claim's "non-overlapping highlights"). -/
def disjointIn (d : RemirrorDoc) (anns : List HighlightWithText) : Prop :=
  ∀ p ∈ d.content.getD [], p.type = str "paragraph" →
    (paraAnns (paragraphText p) anns).Pairwise
      (fun a b => annsDisjoint (paragraphText p) a b = true)

instance (d : RemirrorDoc) (anns : List HighlightWithText) :
    Decidable (disjointIn d anns) := by
  unfold disjointIn
  infer_instance

instance (d : RemirrorDoc) (anns : List HighlightWithText) :
    Decidable (disjointIn d anns) := by
  unfold disjointIn
  infer_instance

mutual

/-- No node in the tree carries a `marks` field (a clean, never-annotated
document). -/
def noMarksNode : RNode → Bool
  | .mk _ _ nmarks ncontent => nmarks.isNone && noMarksOpt ncontent

def noMarksOpt : Option (List RNode) → Bool
  | none => true
  | some l => noMarksList l

def noMarksList : List RNode → Bool
  | [] => true
  | n :: ns => noMarksNode n && noMarksList ns

end

mutual

/-- The extractor's traversal reaches a text node one of whose entity marks
carries the (truthy) id `x`. -/
def hasIdNode (x : Str) : RNode → Bool
  | .mk _ ntext nmarks ncontent =>
    if truthy ntext && nmarks.isSome then
      (nmarks.getD []).any (fun m =>
        (m.type == str "entity-reference" && m.attrs.isSome) &&
        (match m.attrs with
         | some attrs => truthy attrs.id && (attrs.id.getD [] == x)
         | none => false))
    else hasIdOpt x ncontent

def hasIdOpt (x : Str) : Option (List RNode) → Bool
  | none => false
  | some l => hasIdList x l

def hasIdList (x : Str) : List RNode → Bool
  | [] => false
  | n :: ns => hasIdNode x n || hasIdList x ns

end

mutual

/-- Every mark the extractor's traversal would report from the tree carries a
truthy `labelType` attribute and an (id, labelType, text) triple from `S`. -/
def goodNode (S : List (Str × Str × Str)) : RNode → Bool
  | .mk _ ntext nmarks ncontent =>
    if truthy ntext && nmarks.isSome then
      (nmarks.getD []).all (fun m =>
        !((m.type == str "entity-reference" && m.attrs.isSome) &&
          (match m.attrs with
           | some attrs => truthy attrs.id
           | none => false)) ||
        (match m.attrs with
         | some attrs => truthy attrs.labelType &&
             decide ((attrs.id.getD [], attrs.labelType.getD [], ntext.getD []) ∈ S)
         | none => false))
    else goodOpt S ncontent

def goodOpt (S : List (Str × Str × Str)) : Option (List RNode) → Bool
  | none => true
  | some l => goodList S l

def goodList (S : List (Str × Str × Str)) : List RNode → Bool
  | [] => true
  | n :: ns => goodNode S n && goodList S ns

end

/-- Extraction-state invariant: the seen-id set is exactly the id sequence of
the collected highlights, without duplicates. -/
def stInv (st : EState) : Prop :=
  st.seenIds = st.highlights.map (fun hh => hh.id) ∧ st.seenIds.Nodup

end Lodestone

namespace Lodestone

/-! ### Helper lemmas -/

theorem hmGet_cons_hit (k v : Str) (rest : HMap) : hmGet ((k, v) :: rest) k = some v := by
  simp [hmGet, List.find?]

theorem hmGet_cons_miss (k : Str) (p : Str × Str) (rest : HMap)
    (hp : (p.1 == k) = false) : hmGet (p :: rest) k = hmGet rest k := by
  simp [hmGet, List.find?, hp]

theorem hmGet_hmSet (k v : Str) : ∀ (m : HMap), hmGet (hmSet m k v) k = some v := by
  intro m
  induction m with
  | nil => simp [hmSet, hmGet, List.find?]
  | cons p ps ih =>
    by_cases hp : (p.1 == k) = true
    · have hany : ((p :: ps).any (fun q => q.1 == k)) = true := by
        simp [List.any_cons, hp]
      have hrw : hmSet (p :: ps) k v =
          (k, v) :: ps.map (fun q => if q.1 == k then (k, v) else q) := by
        unfold hmSet
        rw [if_pos hany, List.map_cons, if_pos hp]
      rw [hrw, hmGet_cons_hit]
    · have hp' : (p.1 == k) = false := by
        exact Bool.not_eq_true _ ▸ eq_false_of_ne_true hp
      by_cases ha : (ps.any (fun q => q.1 == k)) = true
      · have hany : ((p :: ps).any (fun q => q.1 == k)) = true := by
          simp [List.any_cons, ha]
        have hset : hmSet ps k v = ps.map (fun q => if q.1 == k then (k, v) else q) := by
          unfold hmSet
          rw [if_pos ha]
        have hrw : hmSet (p :: ps) k v =
            p :: ps.map (fun q => if q.1 == k then (k, v) else q) := by
          unfold hmSet
          rw [if_pos hany, List.map_cons, if_neg (by simp [hp'])]
        rw [hrw, hmGet_cons_miss _ _ _ hp', ← hset, ih]
      · have hany : ((p :: ps).any (fun q => q.1 == k)) = false := by
          simp only [List.any_cons, hp', Bool.false_or]
          exact eq_false_of_ne_true ha
        have hset : hmSet ps k v = ps ++ [(k, v)] := by
          unfold hmSet
          rw [if_neg (by simp [ha])]
        have hrw : hmSet (p :: ps) k v = p :: (ps ++ [(k, v)]) := by
          unfold hmSet
          rw [if_neg (by simp [hany]), List.cons_append]
        rw [hrw, hmGet_cons_miss _ _ _ hp', ← hset, ih]

theorem existingHighlights_eq (nodes : List RNode) :
    existingHighlights nodes = existingFrom 0 nodes := by
  have main : ∀ (ns : List RNode) (acc : List LocatedHL) (pos : Nat),
      (ns.foldl (fun acc n =>
        (acc.1 ++ existingOfNode acc.2 n, acc.2 + (n.text.getD []).length)) (acc, pos)).1 =
      acc ++ existingFrom pos ns := by
    intro ns
    induction ns with
    | nil => intro acc pos; simp [existingFrom]
    | cons n ns ih =>
      intro acc pos
      simp only [List.foldl_cons, existingFrom]
      rw [ih, List.append_assoc]
  simpa [existingHighlights] using main nodes [] 0

theorem existingOfNode_mem (pos : Nat) (n : RNode) (e : LocatedHL)
    (h : e ∈ existingOfNode pos n) :
    ∃ t, n.text = some t ∧ t ≠ [] ∧ e.text = t ∧ e.startIndex = pos ∧
      e.endIndex = pos + t.length ∧ e.id ≠ [] ∧ e.labelType ≠ [] := by
  unfold existingOfNode at h
  cases hm : n.marks with
  | none => rw [hm] at h; simp at h
  | some marks =>
    rw [hm] at h
    cases ht : n.text with
    | none => rw [ht] at h; simp at h
    | some t =>
      rw [ht] at h
      dsimp only [] at h
      by_cases hte : t.isEmpty
      · rw [if_pos hte] at h; simp at h
      · rw [if_neg hte] at h
        obtain ⟨m, hmm, hfm⟩ := List.mem_filterMap.mp h
        refine ⟨t, rfl, by simpa [List.isEmpty_iff] using hte, ?_⟩
        cases hma : m.attrs with
        | none => rw [hma] at hfm; simp at hfm
        | some attrs =>
          rw [hma] at hfm
          dsimp only [] at hfm
          by_cases hcond : (!(jsOr attrs.id []).isEmpty &&
              !(jsOr attrs.labelType (jsOr attrs.type [])).isEmpty) = true
          · rw [if_pos hcond] at hfm
            have he : e = ⟨jsOr attrs.id [], jsOr attrs.labelType (jsOr attrs.type []),
                t, pos, pos + t.length⟩ := by
              exact (Option.some.injEq _ _ ▸ hfm).symm
            subst he
            simp only [Bool.and_eq_true, Bool.not_eq_true'] at hcond
            refine ⟨rfl, rfl, rfl, ?_, ?_⟩
            · simpa [List.isEmpty_iff] using hcond.1
            · simpa [List.isEmpty_iff] using hcond.2
          · rw [if_neg hcond] at hfm
            simp at hfm

theorem existingFrom_wf : ∀ (nodes : List RNode) (pos : Nat) (e : LocatedHL),
    e ∈ existingFrom pos nodes →
    e.endIndex = e.startIndex + e.text.length ∧ e.text ≠ [] ∧ pos ≤ e.startIndex ∧
      e.endIndex ≤ pos + (textOfNodes nodes).length ∧ e.id ≠ [] ∧ e.labelType ≠ [] := by
  intro nodes
  induction nodes with
  | nil => intro pos e h; simp [existingFrom] at h
  | cons n ns ih =>
    intro pos e h
    rcases List.mem_append.mp h with h1 | h2
    · obtain ⟨t, hnt, htne, het, hes, hee, hid, hlbl⟩ := existingOfNode_mem pos n e h1
      refine ⟨by rw [hee, hes, het], by rw [het]; exact htne, by rw [hes], ?_, hid, hlbl⟩
      rw [hee]
      have : (textOfNodes (n :: ns)).length = t.length + (textOfNodes ns).length := by
        simp [textOfNodes, hnt]
      omega
    · obtain ⟨h1', h2', h3', h4', h5', h6'⟩ := ih _ e h2
      refine ⟨h1', h2', ?_, ?_, h5', h6'⟩
      · omega
      · have : (textOfNodes (n :: ns)).length =
            (n.text.getD []).length + (textOfNodes ns).length := by
          simp [textOfNodes]
        omega

theorem idxOf?_spec : ∀ (hay needle : Str) (i : Nat), idxOf? needle hay = some i →
    i + needle.length ≤ hay.length ∧ (hay.drop i).take needle.length = needle := by
  intro hay
  induction hay with
  | nil =>
    intro needle i h
    unfold idxOf? at h
    by_cases hp : needle.isPrefixOf [] = true
    · rw [if_pos hp] at h
      have hn : needle = [] := by
        simpa using List.isPrefixOf_iff_prefix.mp hp
      subst hn
      have hi : i = 0 := by simpa using h.symm
      subst hi
      simp
    · rw [if_neg hp] at h
      simp at h
  | cons c rest ih =>
    intro needle i h
    unfold idxOf? at h
    by_cases hp : needle.isPrefixOf (c :: rest) = true
    · rw [if_pos hp] at h
      have hi : i = 0 := by simpa using h.symm
      subst hi
      obtain ⟨s, hs⟩ := List.isPrefixOf_iff_prefix.mp hp
      constructor
      · rw [← hs]; simp
      · rw [← hs, List.drop_zero, List.take_left]
    · rw [if_neg hp] at h
      obtain ⟨j, hj, hji⟩ := Option.map_eq_some'.mp h
      obtain ⟨hle, hsl⟩ := ih needle j hj
      subst hji
      constructor
      · simpa [Nat.succ_add] using Nat.add_le_add_right hle 1
      · simpa using hsl

theorem includesStr_idx (hay needle : Str) (h : includesStr hay needle = true) :
    ∃ i, idxOf? needle hay = some i := by
  unfold includesStr at h
  exact Option.isSome_iff_exists.mp h

theorem addNewHLs_mem (pText : Str) : ∀ (anns : List HighlightWithText)
    (acc : List LocatedHL) (e : LocatedHL), e ∈ addNewHLs pText acc anns →
    e ∈ acc ∨ ∃ a ∈ anns, ∃ i, idxOf? a.text pText = some i ∧
      e = ⟨a.id, a.labelType, a.text, i, i + a.text.length⟩ := by
  intro anns
  induction anns with
  | nil => intro acc e h; exact Or.inl (by simpa [addNewHLs] using h)
  | cons a as ih =>
    intro acc e h
    unfold addNewHLs at h
    rw [List.foldl_cons] at h
    by_cases hdup : acc.any (fun hh => hh.id == a.id) = true
    · rw [if_pos hdup] at h
      rcases ih acc e h with h1 | ⟨a', ha', hi⟩
      · exact Or.inl h1
      · exact Or.inr ⟨a', List.mem_cons_of_mem _ ha', hi⟩
    · rw [if_neg hdup] at h
      cases hidx : idxOf? a.text pText with
      | none =>
        rw [hidx] at h
        rcases ih acc e h with h1 | ⟨a', ha', hi⟩
        · exact Or.inl h1
        · exact Or.inr ⟨a', List.mem_cons_of_mem _ ha', hi⟩
      | some i =>
        rw [hidx] at h
        rcases ih _ e h with h1 | ⟨a', ha', hi⟩
        · rcases List.mem_append.mp h1 with h2 | h3
          · exact Or.inl h2
          · exact Or.inr ⟨a, List.mem_cons_self a as, i, hidx, by simpa using h3⟩
        · exact Or.inr ⟨a', List.mem_cons_of_mem _ ha', hi⟩

theorem mem_insertHL (x y : LocatedHL) : ∀ (l : List LocatedHL),
    y ∈ insertHL x l ↔ y = x ∨ y ∈ l := by
  intro l
  induction l with
  | nil => simp [insertHL]
  | cons z zs ih =>
    unfold insertHL
    by_cases hc : z.startIndex < x.startIndex
    · rw [if_pos hc]
      simp only [List.mem_cons, ih]
      tauto
    · rw [if_neg hc]
      simp only [List.mem_cons]

theorem mem_sortHLs (x : LocatedHL) : ∀ (l : List LocatedHL),
    x ∈ sortHLs l ↔ x ∈ l := by
  intro l
  induction l with
  | nil => simp [sortHLs]
  | cons z zs ih =>
    unfold sortHLs
    rw [mem_insertHL, ih]
    simp

theorem paraAnns_mem (pText : Str) (anns : List HighlightWithText)
    (a : HighlightWithText) (h : a ∈ paraAnns pText anns) :
    a ∈ anns ∧ a.text ≠ [] ∧ includesStr pText a.text = true := by
  obtain ⟨h1, h2⟩ := List.mem_filter.mp h
  simp only [Bool.and_eq_true, Bool.not_eq_true'] at h2
  exact ⟨h1, by simpa [List.isEmpty_iff] using h2.1, h2.2⟩

theorem take_drop_glue (t : Str) (rs re : Nat) (h1 : rs ≤ re) :
    t.take rs ++ ((t.take (min re t.length)).drop rs ++ t.drop re) = t := by
  rcases le_or_lt re t.length with hle | hgt
  · rw [min_eq_left hle]
    have h3 : t.take rs = (t.take re).take rs := by
      rw [List.take_take, min_eq_left h1]
    rw [← List.append_assoc, h3, List.take_append_drop, List.take_append_drop]
  · rw [min_eq_right (le_of_lt hgt)]
    have hd : t.drop re = [] := List.drop_eq_nil_of_le (le_of_lt hgt)
    have h3 : t.take rs = (t.take t.length).take rs := by
      rw [List.take_length]
    rw [hd, List.append_nil, h3, List.take_append_drop, List.take_length]

theorem segPieces_concat (seg : TextSegment) (hl : LocatedHL)
    (hwf : hl.startIndex ≤ hl.endIndex) :
    textConcat (segPieces seg hl) = seg.text := by
  unfold segPieces textConcat
  have hrs : hl.startIndex - seg.startPos ≤ hl.endIndex - seg.startPos :=
    Nat.sub_le_sub_right hwf _
  by_cases h0 : 0 < hl.startIndex - seg.startPos
  · rw [if_pos h0]
    by_cases h2 : hl.endIndex - seg.startPos < seg.text.length
    · rw [if_pos h2]
      simpa using take_drop_glue seg.text _ _ hrs
    · rw [if_neg h2]
      have hg := take_drop_glue seg.text (hl.startIndex - seg.startPos)
        (hl.endIndex - seg.startPos) hrs
      have hd : seg.text.drop (hl.endIndex - seg.startPos) = [] :=
        List.drop_eq_nil_of_le (by omega)
      rw [hd, List.append_nil] at hg
      simpa using hg
  · rw [if_neg h0]
    have hz : hl.startIndex - seg.startPos = 0 := by omega
    by_cases h2 : hl.endIndex - seg.startPos < seg.text.length
    · rw [if_pos h2]
      have hg := take_drop_glue seg.text (hl.startIndex - seg.startPos)
        (hl.endIndex - seg.startPos) hrs
      rw [hz, List.take_zero, List.nil_append] at hg
      simpa [hz] using hg
    · rw [if_neg h2]
      have hg := take_drop_glue seg.text (hl.startIndex - seg.startPos)
        (hl.endIndex - seg.startPos) hrs
      have hd : seg.text.drop (hl.endIndex - seg.startPos) = [] :=
        List.drop_eq_nil_of_le (by omega)
      rw [hz, List.take_zero, List.nil_append, hd, List.append_nil] at hg
      simpa [hz] using hg

theorem splitSegs_concat (hl : LocatedHL) (hwf : hl.startIndex ≤ hl.endIndex) :
    ∀ (segs : List TextSegment), textConcat (splitSegs hl segs) = textConcat segs := by
  intro segs
  induction segs with
  | nil => rfl
  | cons seg rest ih =>
    unfold splitSegs
    by_cases hc : segContains seg hl.startIndex
    · rw [if_pos hc]
      show textConcat (segPieces seg hl ++ rest) = _
      unfold textConcat
      rw [List.map_append, List.flatten_append]
      show textConcat (segPieces seg hl) ++ _ = _
      rw [segPieces_concat seg hl hwf]
      rfl
    · rw [if_neg hc]
      show textConcat (seg :: splitSegs hl rest) = _
      unfold textConcat
      simp only [List.map_cons, List.flatten_cons]
      show _ ++ textConcat (splitSegs hl rest) = _
      rw [ih]
      rfl

theorem applySplits_concat : ∀ (hls : List LocatedHL) (segs : List TextSegment),
    (∀ e ∈ hls, e.startIndex ≤ e.endIndex) →
    textConcat (applySplits hls segs) = textConcat segs := by
  intro hls
  induction hls with
  | nil => intro segs h; rfl
  | cons hl rest ih =>
    intro segs h
    unfold applySplits
    rw [List.foldl_cons]
    have h1 := ih (splitSegs hl segs) (fun e he => h e (List.mem_cons_of_mem _ he))
    unfold applySplits at h1
    rw [h1, splitSegs_concat hl (h hl (List.mem_cons_self _ _))]

theorem textOfNodes_segToNode (segs : List TextSegment) :
    textOfNodes (segs.map segToNode) = textConcat segs := by
  unfold textOfNodes textConcat
  rw [List.map_map]
  congr 1

theorem allHL_wf (nodes : List RNode) (pAnns : List HighlightWithText)
    (hanns : ∀ a ∈ pAnns, a.text ≠ []) :
    ∀ e ∈ sortHLs (addNewHLs (textOfNodes nodes) (existingHighlights nodes) pAnns),
      e.endIndex = e.startIndex + e.text.length ∧ e.text ≠ [] ∧
        e.endIndex ≤ (textOfNodes nodes).length := by
  intro e he
  rw [mem_sortHLs] at he
  rcases addNewHLs_mem _ pAnns _ e he with h1 | ⟨a, ha, i, hidx, hei⟩
  · rw [existingHighlights_eq] at h1
    obtain ⟨w1, w2, _, w4, _, _⟩ := existingFrom_wf nodes 0 e h1
    exact ⟨w1, w2, by simpa using w4⟩
  · obtain ⟨hle, _⟩ := idxOf?_spec _ _ _ hidx
    subst hei
    exact ⟨rfl, hanns a ha, by simpa using hle⟩

theorem processParagraph_text (nodes : List RNode) (pAnns : List HighlightWithText)
    (hanns : ∀ a ∈ pAnns, a.text ≠ []) :
    textOfNodes (processParagraph nodes pAnns) = textOfNodes nodes := by
  unfold processParagraph
  rw [textOfNodes_segToNode]
  rw [applySplits_concat _ _ (fun e he => by
    obtain ⟨w1, _, _⟩ := allHL_wf nodes pAnns hanns e he
    omega)]
  simp [textConcat]

theorem processPara_text (anns : List HighlightWithText) (p : RNode) :
    paragraphText (processPara anns p) = paragraphText p ∧
    (processPara anns p).type = p.type := by
  unfold processPara
  by_cases h1 : p.type = str "paragraph"
  · rw [if_neg (by simpa using h1)]
    by_cases h2 : (paraAnns (paragraphText p) anns).isEmpty
    · rw [if_pos h2]
      exact ⟨rfl, rfl⟩
    · rw [if_neg h2]
      cases hc : p.content with
      | none => exact ⟨rfl, rfl⟩
      | some nodes =>
        constructor
        · show textOfNodes (processParagraph nodes (paraAnns (paragraphText p) anns)) =
            paragraphText p
          rw [processParagraph_text nodes _ (fun a ha =>
            (paraAnns_mem (paragraphText p) anns a ha).2.1)]
          unfold paragraphText
          rw [hc]
          rfl
        · rfl
  · rw [if_pos (by simpa using h1)]
    exact ⟨rfl, rfl⟩

theorem processMark_keeps (removed : List Str) (x : Str) (hx : x ∈ removed)
    (t : Str) (pos : Nat) (st : EState) (m : Mark)
    (h : ∀ hh ∈ st.highlights, hh.id ≠ x) :
    ∀ hh ∈ (processMark removed t pos st m).highlights, hh.id ≠ x := by
  intro hh hmem
  unfold processMark at hmem
  cases hma : m.attrs with
  | none => rw [hma] at hmem; exact h hh hmem
  | some attrs =>
    rw [hma] at hmem
    dsimp only [] at hmem
    by_cases hc : (!truthy attrs.id || st.seenIds.contains (attrs.id.getD [])
        || removed.contains (attrs.id.getD [])) = true
    · rw [if_pos hc] at hmem
      exact h hh hmem
    · rw [if_neg hc] at hmem
      simp only [Bool.or_eq_true, Bool.not_eq_true'] at hc
      push_neg at hc
      rcases List.mem_append.mp hmem with hl | hr
      · exact h hh hl
      · have hhid : hh.id = attrs.id.getD [] := by
          have he : hh = ⟨attrs.id.getD [], resolveLabel attrs (attrs.id.getD []) st.hmap,
              t, some pos, some (pos + t.length)⟩ := by simpa using hr
          rw [he]
        intro hcontra
        rw [hhid] at hcontra
        subst hcontra
        exact hc.2 (by simpa using hx)

theorem foldl_processMark_keeps (removed : List Str) (x : Str) (hx : x ∈ removed)
    (t : Str) (pos : Nat) :
    ∀ (marks : List Mark) (st : EState), (∀ hh ∈ st.highlights, hh.id ≠ x) →
      ∀ hh ∈ (marks.foldl (processMark removed t pos) st).highlights, hh.id ≠ x := by
  intro marks
  induction marks with
  | nil => intro st h; simpa using h
  | cons m ms ih =>
    intro st h
    exact ih _ (processMark_keeps removed x hx t pos st m h)

mutual

theorem processNode_keeps (removed : List Str) (x : Str) (node : RNode) :
    x ∈ removed → ∀ (pos : Nat) (st : EState),
      (∀ hh ∈ st.highlights, hh.id ≠ x) →
      ∀ hh ∈ (processNode removed node pos st).2.highlights, hh.id ≠ x := by
  intro hx pos st h
  cases node with
  | mk ntype ntext nmarks ncontent =>
    rw [processNode.eq_def]
    by_cases h1 : (truthy ntext && nmarks.isSome) = true
    · simp only [h1, if_true]
      exact foldl_processMark_keeps removed x hx _ pos _ st h
    · simp only [h1, Bool.false_eq_true, if_false]
      cases ncontent with
      | none => simpa using h
      | some children =>
        by_cases h2 : (!ntype.isEmpty &&
            (ntype == str "paragraph" || ntype == str "heading")) = true
        · simp only [h2, if_true]
          exact processChildren_keeps removed x children hx pos st h
        · simp only [h2, Bool.false_eq_true, if_false]
          exact processChildren_keeps removed x children hx pos st h

theorem processChildren_keeps (removed : List Str) (x : Str) (children : List RNode) :
    x ∈ removed → ∀ (pos : Nat) (st : EState),
      (∀ hh ∈ st.highlights, hh.id ≠ x) →
      ∀ hh ∈ (processChildren removed children pos st).2.highlights, hh.id ≠ x := by
  intro hx pos st h
  cases children with
  | nil => rw [processChildren.eq_def]; simpa using h
  | cons c cs =>
    rw [processChildren.eq_def]
    exact processChildren_keeps removed x cs hx _ _
      (processNode_keeps removed x c hx pos st h)

end

theorem not_segContains_of_left (seg : TextSegment) (i : Nat)
    (h : seg.startPos + seg.text.length ≤ i) : ¬segContains seg i := by
  unfold segContains
  omega

theorem splitSegs_append_left (hl : LocatedHL) : ∀ (done rest : List TextSegment),
    (∀ seg ∈ done, ¬segContains seg hl.startIndex) →
    splitSegs hl (done ++ rest) = done ++ splitSegs hl rest := by
  intro done
  induction done with
  | nil => intro rest h; simp
  | cons d ds ih =>
    intro rest h
    have step : splitSegs hl (d :: (ds ++ rest)) = d :: splitSegs hl (ds ++ rest) := by
      conv_lhs => unfold splitSegs
      rw [if_neg (h d (List.mem_cons_self _ _))]
    rw [List.cons_append, step,
      ih rest (fun seg hs => h seg (List.mem_cons_of_mem _ hs)), List.cons_append]

theorem noAdj_tail (s : TextSegment) (l : List TextSegment)
    (h : noAdjUnmarked (s :: l)) : noAdjUnmarked l := by
  cases l with
  | nil => trivial
  | cons b l' => exact h.2

theorem noAdj_head_pair (s : TextSegment) (l : List TextSegment) (b : TextSegment)
    (h : noAdjUnmarked (s :: l)) (hb : l.head? = some b) :
    ¬(s.highlights = [] ∧ b.highlights = []) := by
  cases l with
  | nil => simp at hb
  | cons c l' =>
    have : c = b := by simpa using hb
    subst this
    exact h.1

theorem noAdj_cons_of (a : TextSegment) (l : List TextSegment)
    (h1 : noAdjUnmarked l)
    (h2 : ∀ b, l.head? = some b → ¬(a.highlights = [] ∧ b.highlights = [])) :
    noAdjUnmarked (a :: l) := by
  cases l with
  | nil => trivial
  | cons b l' => exact ⟨h2 b rfl, h1⟩

theorem noAdj_cons_marked (a : TextSegment) (l : List TextSegment)
    (ha : a.highlights ≠ []) (h1 : noAdjUnmarked l) : noAdjUnmarked (a :: l) :=
  noAdj_cons_of a l h1 (fun b _ hc => ha hc.1)

theorem segPieces_ne_nil (seg : TextSegment) (hl : LocatedHL) :
    segPieces seg hl ≠ [] := by
  unfold segPieces
  by_cases h0 : 0 < hl.startIndex - seg.startPos
  · rw [if_pos h0]; simp
  · rw [if_neg h0]; simp

theorem splitSegs_ne_nil (hl : LocatedHL) : ∀ (segs : List TextSegment),
    segs ≠ [] → splitSegs hl segs ≠ [] := by
  intro segs hne
  cases segs with
  | nil => exact absurd rfl hne
  | cons seg rest =>
    unfold splitSegs
    by_cases hc : segContains seg hl.startIndex
    · rw [if_pos hc]
      intro hcontra
      rcases List.append_eq_nil.mp hcontra with ⟨h1, _⟩
      exact segPieces_ne_nil seg hl h1
    · rw [if_neg hc]
      simp



theorem contiguousFrom_cons {o : Nat} {s : TextSegment} {l : List TextSegment} :
    contiguousFrom o (s :: l) ↔
      (s.startPos = o ∧ s.text ≠ [] ∧ contiguousFrom (o + s.text.length) l) :=
  Iff.rfl

theorem contiguousFrom_congr {a b : Nat} (h : a = b) {l : List TextSegment} :
    contiguousFrom a l → contiguousFrom b l := by
  rw [h]
  exact id

theorem segPieces_contiguous (seg : TextSegment) (hl : LocatedHL)
    (rest : List TextSegment)
    (hcont : segContains seg hl.startIndex) (hlt : hl.startIndex < hl.endIndex)
    (hrest : contiguousFrom (seg.startPos + seg.text.length) rest) :
    contiguousFrom seg.startPos (segPieces seg hl ++ rest) := by
  obtain ⟨hc1, hc2⟩ := hcont
  have hrs_re : hl.startIndex - seg.startPos < hl.endIndex - seg.startPos := by omega
  unfold segPieces
  by_cases h0 : 0 < hl.startIndex - seg.startPos
  · rw [if_pos h0]
    by_cases h2 : hl.endIndex - seg.startPos < seg.text.length
    · rw [if_pos h2]
      simp only [List.cons_append, List.nil_append, List.append_assoc,
        List.singleton_append, contiguousFrom_cons, List.length_take,
        List.length_drop, ← List.length_pos]
      simp only [min_eq_left (le_of_lt hc2), min_eq_left (le_of_lt h2)]
      and_intros <;> first | trivial | omega | exact contiguousFrom_congr (by omega) hrest
    · rw [if_neg h2]
      simp only [List.cons_append, List.nil_append, List.append_assoc,
        List.singleton_append, contiguousFrom_cons, List.length_take,
        List.length_drop, ← List.length_pos]
      simp only [min_eq_left (le_of_lt hc2), min_eq_right (by omega :
        seg.text.length ≤ hl.endIndex - seg.startPos)]
      and_intros <;> first | trivial | omega | exact contiguousFrom_congr (by omega) hrest
  · rw [if_neg h0]
    by_cases h2 : hl.endIndex - seg.startPos < seg.text.length
    · rw [if_pos h2]
      simp only [List.cons_append, List.nil_append, List.append_assoc,
        List.singleton_append, contiguousFrom_cons, List.length_take,
        List.length_drop, ← List.length_pos]
      simp only [min_eq_left (le_of_lt hc2), min_eq_left (le_of_lt h2)]
      and_intros <;> first | trivial | omega | exact contiguousFrom_congr (by omega) hrest
    · rw [if_neg h2]
      simp only [List.cons_append, List.nil_append, List.append_assoc,
        List.singleton_append, contiguousFrom_cons, List.length_take,
        List.length_drop, ← List.length_pos]
      simp only [min_eq_left (le_of_lt hc2), min_eq_right (by omega :
        seg.text.length ≤ hl.endIndex - seg.startPos)]
      and_intros <;> first | trivial | omega | exact contiguousFrom_congr (by omega) hrest



theorem splitSegs_contiguous (hl : LocatedHL) (hlt : hl.startIndex < hl.endIndex) :
    ∀ (segs : List TextSegment) (o : Nat), contiguousFrom o segs →
      contiguousFrom o (splitSegs hl segs) := by
  intro segs
  induction segs with
  | nil => intro o h; exact h
  | cons seg rest ih =>
    intro o h
    obtain ⟨h1, h2, h3⟩ := contiguousFrom_cons.mp h
    unfold splitSegs
    by_cases hc : segContains seg hl.startIndex
    · rw [if_pos hc]
      subst h1
      exact segPieces_contiguous seg hl rest hc hlt h3
    · rw [if_neg hc]
      exact contiguousFrom_cons.mpr ⟨h1, h2, ih _ h3⟩

theorem noAdj_cons_cons_marked (a b : TextSegment) (l : List TextSegment)
    (hb : b.highlights ≠ []) (h : noAdjUnmarked (b :: l)) :
    noAdjUnmarked (a :: b :: l) :=
  ⟨fun hc => hb hc.2, h⟩

theorem segPieces_noAdj (seg : TextSegment) (hl : LocatedHL) (rest : List TextSegment)
    (hrest : noAdjUnmarked rest)
    (hpair : ∀ b, rest.head? = some b → ¬(seg.highlights = [] ∧ b.highlights = [])) :
    noAdjUnmarked (segPieces seg hl ++ rest) := by
  have hmarked : (seg.highlights ++ [(⟨hl.id, hl.labelType⟩ : SegHL)]) ≠ [] := by simp
  unfold segPieces
  by_cases h0 : 0 < hl.startIndex - seg.startPos
  · rw [if_pos h0]
    by_cases h2 : hl.endIndex - seg.startPos < seg.text.length
    · rw [if_pos h2]
      simp only [List.cons_append, List.nil_append, List.append_assoc,
        List.singleton_append]
      exact noAdj_cons_cons_marked _ _ _ hmarked
        (noAdj_cons_marked _ _ hmarked (noAdj_cons_of _ _ hrest hpair))
    · rw [if_neg h2]
      simp only [List.cons_append, List.nil_append, List.append_assoc,
        List.singleton_append]
      exact noAdj_cons_cons_marked _ _ _ hmarked (noAdj_cons_marked _ _ hmarked hrest)
  · rw [if_neg h0]
    by_cases h2 : hl.endIndex - seg.startPos < seg.text.length
    · rw [if_pos h2]
      simp only [List.cons_append, List.nil_append, List.append_assoc,
        List.singleton_append]
      exact noAdj_cons_marked _ _ hmarked (noAdj_cons_of _ _ hrest hpair)
    · rw [if_neg h2]
      simp only [List.cons_append, List.nil_append, List.append_assoc,
        List.singleton_append]
      exact noAdj_cons_marked _ _ hmarked hrest

theorem splitSegs_noAdj (hl : LocatedHL) : ∀ (segs : List TextSegment),
    noAdjUnmarked segs → noAdjUnmarked (splitSegs hl segs) := by
  intro segs
  induction segs with
  | nil => intro h; exact h
  | cons seg rest ih =>
    intro h
    unfold splitSegs
    by_cases hc : segContains seg hl.startIndex
    · rw [if_pos hc]
      exact segPieces_noAdj seg hl rest (noAdj_tail _ _ h)
        (fun b hb => noAdj_head_pair seg rest b h hb)
    · rw [if_neg hc]
      refine noAdj_cons_of _ _ (ih (noAdj_tail _ _ h)) ?_
      intro b hb
      cases rest with
      | nil =>
        exfalso
        have hnil : splitSegs hl [] = [] := rfl
        rw [hnil] at hb
        simp at hb
      | cons r rs =>
        have hr : ∃ b', (splitSegs hl (r :: rs)).head? = some b' ∧
            (b'.highlights = [] → r.highlights = []) := by
          unfold splitSegs
          by_cases hcr : segContains r hl.startIndex
          · rw [if_pos hcr]
            unfold segPieces
            by_cases h0 : 0 < hl.startIndex - r.startPos
            · rw [if_pos h0]
              exact ⟨⟨r.text.take (hl.startIndex - r.startPos), r.highlights,
                r.startPos⟩, by simp, fun hh => hh⟩
            · rw [if_neg h0]
              refine ⟨⟨(r.text.take (min (hl.endIndex - r.startPos) r.text.length)).drop
                  (hl.startIndex - r.startPos),
                r.highlights ++ [⟨hl.id, hl.labelType⟩],
                r.startPos + (hl.startIndex - r.startPos)⟩, by simp, fun hh => ?_⟩
              exact absurd hh (by simp)
          · rw [if_neg hcr]
            exact ⟨r, rfl, fun hh => hh⟩
        obtain ⟨b', hb', himp⟩ := hr
        rw [hb'] at hb
        have hbb : b' = b := by simpa using hb
        subst hbb
        intro hcontra
        exact noAdj_head_pair seg (r :: rs) r h rfl ⟨hcontra.1, himp hcontra.2⟩



theorem segPieces_mem_highlights (seg : TextSegment) (hl : LocatedHL) (piece : TextSegment)
    (hmem : piece ∈ segPieces seg hl) (sh : SegHL) (hsh : sh ∈ piece.highlights) :
    sh ∈ seg.highlights ∨ sh = ⟨hl.id, hl.labelType⟩ := by
  unfold segPieces at hmem
  by_cases h0 : 0 < hl.startIndex - seg.startPos
  · rw [if_pos h0] at hmem
    by_cases h2 : hl.endIndex - seg.startPos < seg.text.length
    · rw [if_pos h2] at hmem
      simp only [List.cons_append, List.nil_append, List.append_assoc,
        List.singleton_append, List.mem_cons, List.not_mem_nil, or_false] at hmem
      rcases hmem with h | h | h
      · subst h
        exact Or.inl hsh
      · subst h
        rcases List.mem_append.mp hsh with h' | h'
        · exact Or.inl h'
        · exact Or.inr (by simpa using h')
      · subst h
        exact Or.inl hsh
    · rw [if_neg h2] at hmem
      simp only [List.cons_append, List.nil_append, List.append_assoc,
        List.singleton_append, List.append_nil, List.mem_cons,
        List.not_mem_nil, or_false] at hmem
      rcases hmem with h | h
      all_goals subst h
      · exact Or.inl hsh
      · rcases List.mem_append.mp hsh with h' | h'
        · exact Or.inl h'
        · exact Or.inr (by simpa using h')
  · rw [if_neg h0] at hmem
    by_cases h2 : hl.endIndex - seg.startPos < seg.text.length
    · rw [if_pos h2] at hmem
      simp only [List.nil_append, List.cons_append, List.singleton_append,
        List.mem_cons, List.not_mem_nil, or_false] at hmem
      rcases hmem with h | h
      · subst h
        rcases List.mem_append.mp hsh with h' | h'
        · exact Or.inl h'
        · exact Or.inr (by simpa using h')
      · subst h
        exact Or.inl hsh
    · rw [if_neg h2] at hmem
      simp only [List.nil_append, List.append_nil, List.mem_cons,
        List.not_mem_nil, or_false] at hmem
      subst hmem
      rcases List.mem_append.mp hsh with h' | h'
      · exact Or.inl h'
      · exact Or.inr (by simpa using h')

theorem segPieces_marked_mem (seg : TextSegment) (hl : LocatedHL) :
    ∃ piece ∈ segPieces seg hl,
      (⟨hl.id, hl.labelType⟩ : SegHL) ∈ piece.highlights := by
  unfold segPieces
  by_cases h0 : 0 < hl.startIndex - seg.startPos
  · rw [if_pos h0]
    refine ⟨⟨(seg.text.take (min (hl.endIndex - seg.startPos) seg.text.length)).drop
        (hl.startIndex - seg.startPos),
      seg.highlights ++ [⟨hl.id, hl.labelType⟩],
      seg.startPos + (hl.startIndex - seg.startPos)⟩, by simp, by simp⟩
  · rw [if_neg h0]
    refine ⟨⟨(seg.text.take (min (hl.endIndex - seg.startPos) seg.text.length)).drop
        (hl.startIndex - seg.startPos),
      seg.highlights ++ [⟨hl.id, hl.labelType⟩],
      seg.startPos + (hl.startIndex - seg.startPos)⟩, by simp, by simp⟩

theorem splitSegs_idsOK (hl : LocatedHL) (hid : hl.id ≠ []) (hlbl : hl.labelType ≠ []) :
    ∀ (segs : List TextSegment), segsIdsOK segs → segsIdsOK (splitSegs hl segs) := by
  intro segs
  induction segs with
  | nil => intro h; exact h
  | cons seg rest ih =>
    intro h
    unfold splitSegs
    by_cases hc : segContains seg hl.startIndex
    · rw [if_pos hc]
      intro piece hpiece sh hsh
      rcases List.mem_append.mp hpiece with h1 | h1
      · rcases segPieces_mem_highlights seg hl piece h1 sh hsh with h2 | h2
        · exact h seg (List.mem_cons_self _ _) sh h2
        · subst h2
          exact ⟨hid, hlbl⟩
      · exact h piece (List.mem_cons_of_mem _ h1) sh hsh
    · rw [if_neg hc]
      intro piece hpiece sh hsh
      rcases List.mem_cons.mp hpiece with h1 | h1
      · subst h1
        exact h piece (List.mem_cons_self _ _) sh hsh
      · exact ih (fun s hs => h s (List.mem_cons_of_mem _ hs)) piece h1 sh hsh

theorem splitSegs_mem_mono (hl : LocatedHL) (sh : SegHL) : ∀ (segs : List TextSegment),
    (∃ seg ∈ segs, sh ∈ seg.highlights) →
    ∃ seg ∈ splitSegs hl segs, sh ∈ seg.highlights := by
  intro segs
  induction segs with
  | nil =>
    intro h
    simp at h
  | cons seg rest ih =>
    intro ⟨s, hs, hsh⟩
    unfold splitSegs
    by_cases hc : segContains seg hl.startIndex
    · rw [if_pos hc]
      rcases List.mem_cons.mp hs with h1 | h1
      · subst h1
        obtain ⟨piece, hp, hph⟩ := segPieces_marked_mem s hl
        refine ⟨⟨(s.text.take (min (hl.endIndex - s.startPos) s.text.length)).drop
            (hl.startIndex - s.startPos),
          s.highlights ++ [⟨hl.id, hl.labelType⟩],
          s.startPos + (hl.startIndex - s.startPos)⟩, ?_, ?_⟩
        · apply List.mem_append_left
          unfold segPieces
          by_cases h0 : 0 < hl.startIndex - s.startPos
          · rw [if_pos h0]; simp
          · rw [if_neg h0]; simp
        · simpa using Or.inl hsh
      · exact ⟨s, List.mem_append_right _ h1, hsh⟩
    · rw [if_neg hc]
      rcases List.mem_cons.mp hs with h1 | h1
      · subst h1
        exact ⟨s, List.mem_cons_self _ _, hsh⟩
      · obtain ⟨s', hs', hsh'⟩ := ih ⟨s, h1, hsh⟩
        exact ⟨s', List.mem_cons_of_mem _ hs', hsh'⟩

theorem splitSegs_hits (hl : LocatedHL) : ∀ (segs : List TextSegment) (o : Nat),
    contiguousFrom o segs → o ≤ hl.startIndex →
    hl.startIndex < o + (textConcat segs).length →
    ∃ seg ∈ splitSegs hl segs, (⟨hl.id, hl.labelType⟩ : SegHL) ∈ seg.highlights := by
  intro segs
  induction segs with
  | nil =>
    intro o _ h1 h2
    simp [textConcat] at h2
    omega
  | cons seg rest ih =>
    intro o hcont h1 h2
    obtain ⟨hsp, hne, hrest⟩ := contiguousFrom_cons.mp hcont
    unfold splitSegs
    by_cases hc : segContains seg hl.startIndex
    · rw [if_pos hc]
      obtain ⟨piece, hp, hph⟩ := segPieces_marked_mem seg hl
      exact ⟨piece, List.mem_append_left _ hp, hph⟩
    · rw [if_neg hc]
      have hge : seg.startPos + seg.text.length ≤ hl.startIndex := by
        unfold segContains at hc
        omega
      have hlen : (textConcat (seg :: rest)).length =
          seg.text.length + (textConcat rest).length := by
        simp [textConcat]
      obtain ⟨s', hs', hsh'⟩ := ih (o + seg.text.length) hrest (by omega) (by omega)
      exact ⟨s', List.mem_cons_of_mem _ hs', hsh'⟩



theorem applySplits_cons (hl : LocatedHL) (hls : List LocatedHL)
    (segs : List TextSegment) :
    applySplits (hl :: hls) segs = applySplits hls (splitSegs hl segs) := by
  unfold applySplits
  rw [List.foldl_cons]

theorem applySplits_append (hls1 hls2 : List LocatedHL) (segs : List TextSegment) :
    applySplits (hls1 ++ hls2) segs = applySplits hls2 (applySplits hls1 segs) := by
  unfold applySplits
  rw [List.foldl_append]

theorem applySplits_preserves : ∀ (hls : List LocatedHL) (segs : List TextSegment) (o : Nat),
    (∀ e ∈ hls, e.startIndex < e.endIndex ∧ e.id ≠ [] ∧ e.labelType ≠ []) →
    contiguousFrom o segs → noAdjUnmarked segs → segsIdsOK segs →
    contiguousFrom o (applySplits hls segs) ∧ noAdjUnmarked (applySplits hls segs) ∧
      segsIdsOK (applySplits hls segs) := by
  intro hls
  induction hls with
  | nil => intro segs o _ h1 h2 h3; exact ⟨h1, h2, h3⟩
  | cons hl rest ih =>
    intro segs o hwf h1 h2 h3
    rw [applySplits_cons]
    obtain ⟨w1, w2, w3⟩ := hwf hl (List.mem_cons_self _ _)
    exact ih _ o (fun e he => hwf e (List.mem_cons_of_mem _ he))
      (splitSegs_contiguous hl w1 segs o h1)
      (splitSegs_noAdj hl segs h2)
      (splitSegs_idsOK hl w2 w3 segs h3)

theorem applySplits_mem_mono (sh : SegHL) : ∀ (hls : List LocatedHL)
    (segs : List TextSegment),
    (∃ seg ∈ segs, sh ∈ seg.highlights) →
    ∃ seg ∈ applySplits hls segs, sh ∈ seg.highlights := by
  intro hls
  induction hls with
  | nil => intro segs h; exact h
  | cons hl rest ih =>
    intro segs h
    rw [applySplits_cons]
    exact ih _ (splitSegs_mem_mono hl sh segs h)

theorem applySplits_covers : ∀ (hls : List LocatedHL) (segs : List TextSegment),
    (∀ e ∈ hls, e.startIndex < e.endIndex ∧ e.id ≠ [] ∧ e.labelType ≠ []) →
    (∀ e ∈ hls, e.startIndex < (textConcat segs).length) →
    contiguousFrom 0 segs → noAdjUnmarked segs → segsIdsOK segs →
    ∀ e ∈ hls, ∃ seg ∈ applySplits hls segs,
      (⟨e.id, e.labelType⟩ : SegHL) ∈ seg.highlights := by
  intro hls
  induction hls with
  | nil => intro _ _ _ _ _ _ e he; exact absurd he (List.not_mem_nil e)
  | cons hl rest ih =>
    intro segs hwf hbound h1 h2 h3 e he
    rw [applySplits_cons]
    rcases List.mem_cons.mp he with h4 | h4
    · subst h4
      apply applySplits_mem_mono
      exact splitSegs_hits e segs 0 h1 (Nat.zero_le _)
        (by have := hbound e (List.mem_cons_self _ _); omega)
    · obtain ⟨w1, w2, w3⟩ := hwf hl (List.mem_cons_self _ _)
      refine ih (splitSegs hl segs)
        (fun e' he' => hwf e' (List.mem_cons_of_mem _ he'))
        (fun e' he' => ?_)
        (splitSegs_contiguous hl w1 segs 0 h1)
        (splitSegs_noAdj hl segs h2)
        (splitSegs_idsOK hl w2 w3 segs h3) e h4
      rw [splitSegs_concat hl (le_of_lt w1) segs]
      exact hbound e' (List.mem_cons_of_mem _ he')

theorem applySplits_ne_nil : ∀ (hls : List LocatedHL) (segs : List TextSegment),
    segs ≠ [] → applySplits hls segs ≠ [] := by
  intro hls
  induction hls with
  | nil => intro segs h; exact h
  | cons hl rest ih =>
    intro segs h
    rw [applySplits_cons]
    exact ih _ (splitSegs_ne_nil hl segs h)

theorem insertHL_eq_cons (x : LocatedHL) (l : List LocatedHL)
    (h : ∀ b, l.head? = some b → x.startIndex ≤ b.startIndex) :
    insertHL x l = x :: l := by
  cases l with
  | nil => rfl
  | cons y ys =>
    unfold insertHL
    rw [if_neg (by have := h y rfl; omega)]

theorem sortHLs_eq_self : ∀ (lb : Nat) (l : List LocatedHL), startsFrom lb l →
    sortHLs l = l := by
  intro lb l
  induction l generalizing lb with
  | nil => intro _; rfl
  | cons x xs ih =>
    intro h
    obtain ⟨h1, h2⟩ := h
    unfold sortHLs
    rw [ih x.startIndex h2]
    apply insertHL_eq_cons
    intro b hb
    cases xs with
    | nil => simp at hb
    | cons y ys =>
      have hby : y = b := by simpa using hb
      subst hby
      exact h2.1



theorem startsFrom_mono : ∀ (l : List LocatedHL) (lb lb' : Nat), lb' ≤ lb →
    startsFrom lb l → startsFrom lb' l := by
  intro l lb lb' hle h
  cases l with
  | nil => trivial
  | cons e rest => exact ⟨le_trans hle h.1, h.2⟩

theorem startsFrom_entries_append (sp len : Nat) (t : Str) :
    ∀ (hs : List SegHL) (tail : List LocatedHL) (lb : Nat), lb ≤ sp →
    startsFrom sp tail →
    startsFrom lb ((hs.map (fun h =>
      (⟨h.id, h.labelType, t, sp, sp + len⟩ : LocatedHL))) ++ tail) := by
  intro hs
  induction hs with
  | nil => intro tail lb hle htail; exact startsFrom_mono tail sp lb hle htail
  | cons h hs ih =>
    intro tail lb hle htail
    exact ⟨hle, ih tail sp (le_refl _) htail⟩

theorem entriesOf_cons (seg : TextSegment) (rest : List TextSegment) :
    entriesOf (seg :: rest) = segEntries seg ++ entriesOf rest := by
  unfold entriesOf
  simp

theorem entriesOf_startsFrom : ∀ (segs : List TextSegment) (o lb : Nat), lb ≤ o →
    contiguousFrom o segs → startsFrom lb (entriesOf segs) := by
  intro segs
  induction segs with
  | nil => intro o lb _ _; trivial
  | cons seg rest ih =>
    intro o lb hle hcont
    obtain ⟨hsp, hne, hrest⟩ := contiguousFrom_cons.mp hcont
    rw [entriesOf_cons]
    unfold segEntries
    rw [hsp]
    exact startsFrom_entries_append o seg.text.length seg.text seg.highlights
      (entriesOf rest) lb hle
      (ih (o + seg.text.length) o (by omega) hrest)

theorem entriesOf_wf : ∀ (segs : List TextSegment) (o : Nat),
    contiguousFrom o segs → segsIdsOK segs →
    ∀ e ∈ entriesOf segs, e.startIndex < e.endIndex ∧ e.id ≠ [] ∧ e.labelType ≠ [] := by
  intro segs
  induction segs with
  | nil => intro o _ _ e he; simp [entriesOf] at he
  | cons seg rest ih =>
    intro o hcont hids e he
    obtain ⟨hsp, hne, hrest⟩ := contiguousFrom_cons.mp hcont
    rw [entriesOf_cons] at he
    rcases List.mem_append.mp he with h1 | h1
    · unfold segEntries at h1
      obtain ⟨sh, hsh, hfe⟩ := List.mem_map.mp h1
      obtain ⟨hi, hl⟩ := hids seg (List.mem_cons_self _ _) sh hsh
      subst hfe
      refine ⟨?_, hi, hl⟩
      show seg.startPos < seg.startPos + seg.text.length
      have : 0 < seg.text.length := List.length_pos.mpr hne
      omega
    · exact ih (o + seg.text.length) hrest
        (fun s hs => hids s (List.mem_cons_of_mem _ hs)) e h1

theorem entriesOf_bound : ∀ (segs : List TextSegment) (o : Nat),
    contiguousFrom o segs →
    ∀ e ∈ entriesOf segs, o ≤ e.startIndex ∧
      e.startIndex + (e.endIndex - e.startIndex) ≤ o + (textConcat segs).length ∧
      e.endIndex = e.startIndex + e.text.length := by
  intro segs
  induction segs with
  | nil => intro o _ e he; simp [entriesOf] at he
  | cons seg rest ih =>
    intro o hcont e he
    obtain ⟨hsp, hne, hrest⟩ := contiguousFrom_cons.mp hcont
    have hlen : (textConcat (seg :: rest)).length =
        seg.text.length + (textConcat rest).length := by
      simp [textConcat]
    rw [entriesOf_cons] at he
    rcases List.mem_append.mp he with h1 | h1
    · unfold segEntries at h1
      obtain ⟨sh, hsh, hfe⟩ := List.mem_map.mp h1
      subst hfe
      refine ⟨by simp [hsp], ?_, by simp⟩
      show seg.startPos + (seg.startPos + seg.text.length - seg.startPos) ≤
        o + (textConcat (seg :: rest)).length
      omega
    · obtain ⟨w1, w2, w3⟩ := ih (o + seg.text.length) hrest e h1
      exact ⟨by omega, by omega, w3⟩



theorem existingOfNode_entity (ty : Str) (co : Option (List RNode)) (t : Str)
    (hne : t ≠ []) (p : Nat) : ∀ (hs : List SegHL),
    (∀ h ∈ hs, h.id ≠ [] ∧ h.labelType ≠ []) →
    existingOfNode p (RNode.mk ty (some t)
      (some (hs.map (fun h => (⟨str "entity-reference",
        some ⟨some h.id, some h.labelType, some h.labelType⟩⟩ : Mark)))) co) =
      hs.map (fun h => (⟨h.id, h.labelType, t, p, p + t.length⟩ : LocatedHL)) := by
  have htne : ¬(t.isEmpty = true) := by simpa [List.isEmpty_iff] using hne
  intro hs
  induction hs with
  | nil =>
    intro _
    unfold existingOfNode
    dsimp only [RNode.marks, RNode.text]
    rw [if_neg htne]
    rfl
  | cons sh shs ih =>
    intro hids
    obtain ⟨hid, hlbl⟩ := hids sh (List.mem_cons_self _ _)
    have ihx := ih (fun h hh => hids h (List.mem_cons_of_mem _ hh))
    unfold existingOfNode at ihx ⊢
    dsimp only [RNode.marks, RNode.text] at ihx ⊢
    rw [if_neg htne] at ihx ⊢
    unfold entityMarksOf at ihx ⊢
    rw [List.map_cons, List.filter_cons, if_pos (by simp), List.filterMap_cons]
    dsimp only []
    rw [show jsOr (some sh.id) [] = sh.id by
        simp [jsOr, List.isEmpty_iff, hid]]
    rw [show jsOr (some sh.labelType) (jsOr (some sh.labelType) []) = sh.labelType by
        simp [jsOr, List.isEmpty_iff, hlbl]]
    rw [if_pos (by
      simp only [Bool.and_eq_true, Bool.not_eq_true']
      constructor
      · simpa [List.isEmpty_iff] using hid
      · simpa [List.isEmpty_iff] using hlbl)]
    dsimp only []
    rw [List.map_cons]
    rw [ihx]



theorem segToNode_text_getD (seg : TextSegment) :
    ((segToNode seg).text.getD []) = seg.text := by
  unfold segToNode RNode.text
  by_cases h : seg.highlights.isEmpty
  · rw [if_pos h]
    rfl
  · rw [if_neg h]
    rfl

theorem existingOfNode_segToNode (seg : TextSegment) (p : Nat)
    (hne : seg.text ≠ [])
    (hids : ∀ h ∈ seg.highlights, h.id ≠ [] ∧ h.labelType ≠ []) :
    existingOfNode p (segToNode seg) =
      seg.highlights.map (fun h =>
        (⟨h.id, h.labelType, seg.text, p, p + seg.text.length⟩ : LocatedHL)) := by
  unfold segToNode
  by_cases hh : seg.highlights.isEmpty
  · rw [if_pos hh]
    have he : seg.highlights = [] := by simpa [List.isEmpty_iff] using hh
    rw [he]
    unfold existingOfNode
    rfl
  · rw [if_neg hh]
    exact existingOfNode_entity (str "text") none seg.text hne p seg.highlights hids

theorem existingFrom_segToNode : ∀ (segs : List TextSegment) (o : Nat),
    contiguousFrom o segs → segsIdsOK segs →
    existingFrom o (segs.map segToNode) = entriesOf segs := by
  intro segs
  induction segs with
  | nil => intro o _ _; rfl
  | cons seg rest ih =>
    intro o hcont hids
    obtain ⟨hsp, hne, hrest⟩ := contiguousFrom_cons.mp hcont
    rw [List.map_cons]
    unfold existingFrom
    rw [entriesOf_cons]
    rw [existingOfNode_segToNode seg o hne (hids seg (List.mem_cons_self _ _))]
    rw [segToNode_text_getD]
    rw [ih (o + seg.text.length) hrest (fun s hs => hids s (List.mem_cons_of_mem _ hs))]
    unfold segEntries
    rw [hsp]

theorem addNewHLs_noop (pText : Str) : ∀ (anns : List HighlightWithText)
    (acc : List LocatedHL),
    (∀ a ∈ anns, ∃ e ∈ acc, e.id = a.id) →
    addNewHLs pText acc anns = acc := by
  intro anns
  induction anns with
  | nil => intro acc _; rfl
  | cons a as ih =>
    intro acc h
    unfold addNewHLs
    rw [List.foldl_cons]
    obtain ⟨e, he, hei⟩ := h a (List.mem_cons_self _ _)
    rw [if_pos (List.any_eq_true.mpr ⟨e, he, by simp [hei]⟩)]
    exact ih acc (fun a' ha' => h a' (List.mem_cons_of_mem _ ha'))

theorem entriesOf_id_mem : ∀ (segs : List TextSegment) (seg : TextSegment)
    (sh : SegHL), seg ∈ segs → sh ∈ seg.highlights →
    ∃ e ∈ entriesOf segs, e.id = sh.id := by
  intro segs
  induction segs with
  | nil => intro seg sh h _; exact absurd h (List.not_mem_nil seg)
  | cons s rest ih =>
    intro seg sh hmem hsh
    rw [entriesOf_cons]
    rcases List.mem_cons.mp hmem with h1 | h1
    · subst h1
      exact ⟨⟨sh.id, sh.labelType, seg.text, seg.startPos,
        seg.startPos + seg.text.length⟩,
        List.mem_append_left _ (List.mem_map.mpr ⟨sh, hsh, rfl⟩), rfl⟩
    · obtain ⟨e, he, hei⟩ := ih seg sh h1 hsh
      exact ⟨e, List.mem_append_right _ he, hei⟩



theorem textConcat_cons (seg : TextSegment) (rest : List TextSegment) :
    textConcat (seg :: rest) = seg.text ++ textConcat rest := by
  unfold textConcat
  simp

theorem textConcat_ne_nil : ∀ (segs : List TextSegment) (o : Nat),
    contiguousFrom o segs → segs ≠ [] → textConcat segs ≠ [] := by
  intro segs o hcont hne
  cases segs with
  | nil => exact absurd rfl hne
  | cons seg rest =>
    obtain ⟨_, hs, _⟩ := contiguousFrom_cons.mp hcont
    rw [textConcat_cons]
    simp [hs]

theorem applySplits_wrap : ∀ (hs : List SegHL) (done tail : List TextSegment)
    (t : Str) (o : Nat) (acc : List SegHL), t ≠ [] →
    (∀ seg ∈ done, seg.startPos + seg.text.length ≤ o) →
    applySplits (hs.map (fun h => (⟨h.id, h.labelType, t, o, o + t.length⟩ : LocatedHL)))
      (done ++ ⟨t, acc, o⟩ :: tail) =
    done ++ ⟨t, acc ++ hs, o⟩ :: tail := by
  intro hs
  induction hs with
  | nil =>
    intro done tail t o acc _ _
    simp [applySplits]
  | cons h hs ih =>
    intro done tail t o acc ht hdone
    rw [List.map_cons, applySplits_cons]
    have hskip : splitSegs ⟨h.id, h.labelType, t, o, o + t.length⟩
        (done ++ (⟨t, acc, o⟩ : TextSegment) :: tail) =
        done ++ splitSegs ⟨h.id, h.labelType, t, o, o + t.length⟩
          ((⟨t, acc, o⟩ : TextSegment) :: tail) := by
      apply splitSegs_append_left
      intro seg hseg
      exact not_segContains_of_left seg _ (hdone seg hseg)
    rw [hskip]
    have hguard : segContains (⟨t, acc, o⟩ : TextSegment) o := by
      unfold segContains
      simp [List.length_pos.mpr ht]
    have hsplit : splitSegs ⟨h.id, h.labelType, t, o, o + t.length⟩
        ((⟨t, acc, o⟩ : TextSegment) :: tail) =
        segPieces ⟨t, acc, o⟩ ⟨h.id, h.labelType, t, o, o + t.length⟩ ++ tail := by
      unfold splitSegs
      rw [if_pos hguard]
    rw [hsplit]
    have hpieces : segPieces ⟨t, acc, o⟩ ⟨h.id, h.labelType, t, o, o + t.length⟩ =
        [⟨t, acc ++ [⟨h.id, h.labelType⟩], o⟩] := by
      unfold segPieces
      dsimp only
      rw [if_neg (by omega)]
      rw [if_neg (by omega)]
      simp
    rw [hpieces]
    rw [List.cons_append, List.nil_append]
    have := ih done tail t o (acc ++ [⟨h.id, h.labelType⟩]) ht hdone
    rw [this]
    simp



theorem splitSegs_first (done : List TextSegment) (g t rt : Str) (o : Nat)
    (id lbl : Str) (ht : t ≠ [])
    (hdone : ∀ seg ∈ done, seg.startPos + seg.text.length ≤ o) :
    splitSegs ⟨id, lbl, t, o + g.length, o + g.length + t.length⟩
        (done ++ [⟨g ++ (t ++ rt), [], o⟩]) =
      done ++ ((if g = [] then [] else [⟨g, [], o⟩]) ++
        ([⟨t, [⟨id, lbl⟩], o + g.length⟩] ++
        (if rt = [] then [] else [⟨rt, [], o + g.length + t.length⟩]))) := by
  have htl : 0 < t.length := List.length_pos.mpr ht
  have hskip : splitSegs ⟨id, lbl, t, o + g.length, o + g.length + t.length⟩
      (done ++ [⟨g ++ (t ++ rt), [], o⟩]) =
      done ++ splitSegs ⟨id, lbl, t, o + g.length, o + g.length + t.length⟩
        [⟨g ++ (t ++ rt), [], o⟩] := by
    apply splitSegs_append_left
    intro seg hseg
    exact not_segContains_of_left seg _
      (le_trans (hdone seg hseg) (Nat.le_add_right o g.length))
  rw [hskip]
  congr 1
  have hguard : segContains (⟨g ++ (t ++ rt), [], o⟩ : TextSegment) (o + g.length) := by
    unfold segContains
    dsimp only
    constructor
    · omega
    · simp only [List.length_append]
      omega
  have hsplit : splitSegs ⟨id, lbl, t, o + g.length, o + g.length + t.length⟩
      [(⟨g ++ (t ++ rt), [], o⟩ : TextSegment)] =
      segPieces ⟨g ++ (t ++ rt), [], o⟩ ⟨id, lbl, t, o + g.length, o + g.length + t.length⟩
        ++ [] := by
    unfold splitSegs
    rw [if_pos hguard]
  rw [hsplit, List.append_nil]
  unfold segPieces
  dsimp only
  have hrs : o + g.length - o = g.length := by omega
  have hre : o + g.length + t.length - o = g.length + t.length := by omega
  rw [hrs, hre]
  have htake : (g ++ (t ++ rt)).take g.length = g := List.take_left g (t ++ rt)
  have hmin : min (g.length + t.length) (g ++ (t ++ rt)).length = g.length + t.length := by
    simp only [List.length_append]
    omega
  have hmid : ((g ++ (t ++ rt)).take (g.length + t.length)).drop g.length = t := by
    rw [List.take_append, List.drop_left]
    exact List.take_left t rt
  have hpost : (g ++ (t ++ rt)).drop (g.length + t.length) = rt := by
    rw [← List.length_append g t, ← List.append_assoc, List.drop_left]
  rw [hmin, hmid, htake, hpost]
  have h1 : (if 0 < g.length then [(⟨g, [], o⟩ : TextSegment)] else []) =
      (if g = [] then [] else [(⟨g, [], o⟩ : TextSegment)]) := by
    by_cases hg : g = []
    · subst hg
      simp
    · rw [if_pos (List.length_pos.mpr hg), if_neg hg]
  have h2 : (if g.length + t.length < (g ++ (t ++ rt)).length then
        [(⟨rt, [], o + (g.length + t.length)⟩ : TextSegment)] else []) =
      (if rt = [] then [] else [(⟨rt, [], o + g.length + t.length⟩ : TextSegment)]) := by
    simp only [List.length_append]
    by_cases hrt : rt = []
    · subst hrt
      simp
    · rw [if_pos (by have := List.length_pos.mpr hrt; omega), if_neg hrt]
      rw [← Nat.add_assoc]
  rw [h1, h2]
  simp



theorem rebuild : ∀ (n : Nat) (segs : List TextSegment), segs.length = n →
    ∀ (o : Nat) (done : List TextSegment),
    contiguousFrom o segs → noAdjUnmarked segs → segs ≠ [] →
    (∀ seg ∈ done, seg.startPos + seg.text.length ≤ o) →
    applySplits (entriesOf segs) (done ++ [⟨textConcat segs, [], o⟩]) = done ++ segs := by
  intro n
  induction n using Nat.strong_induction_on with
  | _ n ih =>
    intro segs hlen o done hcont hadj hne hdone
    cases segs with
    | nil => exact absurd rfl hne
    | cons seg rest =>
      simp only [List.length_cons] at hlen
      obtain ⟨hsp, hsne, hrest⟩ := contiguousFrom_cons.mp hcont
      obtain ⟨stext, shls, ssp⟩ := seg
      dsimp only at hsp hsne hrest
      subst hsp
      cases shls with
      | cons h hs =>
        obtain ⟨hid, hlbl⟩ := h
        rw [entriesOf_cons]
        have hsege : segEntries ⟨stext, ⟨hid, hlbl⟩ :: hs, ssp⟩ =
            ⟨hid, hlbl, stext, ssp, ssp + stext.length⟩ ::
            hs.map (fun h => (⟨h.id, h.labelType, stext, ssp,
              ssp + stext.length⟩ : LocatedHL)) := by
          unfold segEntries
          simp
        rw [hsege, applySplits_append, applySplits_cons]
        have hfs := splitSegs_first done [] stext (textConcat rest) ssp hid hlbl
          hsne hdone
        simp only [List.length_nil, Nat.add_zero, List.nil_append,
          eq_self_iff_true, ite_true] at hfs
        rw [textConcat_cons]
        dsimp only
        rw [hfs, List.singleton_append]
        have hwrap := applySplits_wrap hs done
          (if textConcat rest = [] then []
           else [⟨textConcat rest, [], ssp + stext.length⟩])
          stext ssp [⟨hid, hlbl⟩] hsne hdone
        rw [hwrap, List.singleton_append]
        cases rest with
        | nil =>
          simp [entriesOf, applySplits, textConcat]
        | cons s2 rest2 =>
          have hrtne : textConcat (s2 :: rest2) ≠ [] :=
            textConcat_ne_nil (s2 :: rest2) (ssp + stext.length) hrest (by simp)
          rw [if_neg hrtne]
          have hdone' : ∀ s' ∈ done ++
              [(⟨stext, (⟨hid, hlbl⟩ : SegHL) :: hs, ssp⟩ : TextSegment)],
              s'.startPos + s'.text.length ≤ ssp + stext.length := by
            intro s' hs'
            rcases List.mem_append.mp hs' with h1 | h1
            · have := hdone s' h1
              omega
            · have he : s' = ⟨stext, ⟨hid, hlbl⟩ :: hs, ssp⟩ := by simpa using h1
              subst he
              simp
          simp only [List.length_cons] at hlen
          have hcall := ih (rest2.length + 1) (by omega) (s2 :: rest2) (by simp)
            (ssp + stext.length)
            (done ++ [⟨stext, ⟨hid, hlbl⟩ :: hs, ssp⟩]) hrest (noAdj_tail _ _ hadj)
            (by simp) hdone'
          rw [show done ++ (⟨stext, (⟨hid, hlbl⟩ : SegHL) :: hs, ssp⟩ : TextSegment) ::
              [(⟨textConcat (s2 :: rest2), [], ssp + stext.length⟩ : TextSegment)] =
              (done ++ [(⟨stext, (⟨hid, hlbl⟩ : SegHL) :: hs, ssp⟩ : TextSegment)]) ++
              [(⟨textConcat (s2 :: rest2), [], ssp + stext.length⟩ : TextSegment)] by
            simp]
          rw [hcall]
          simp
      | nil =>
        cases rest with
        | nil =>
          simp [entriesOf, segEntries, applySplits, textConcat]
        | cons s2 rest2 =>
          have hs2ne : s2.highlights ≠ [] := by
            intro hnil
            exact hadj.1 ⟨rfl, hnil⟩
          obtain ⟨hs2sp, hs2tne, hrest2⟩ := contiguousFrom_cons.mp hrest
          obtain ⟨s2text, s2hls, s2sp⟩ := s2
          dsimp only at hs2sp hs2tne hrest2 hs2ne
          subst hs2sp
          cases s2hls with
          | nil => exact absurd rfl hs2ne
          | cons h2 hs2tl =>
            obtain ⟨h2id, h2lbl⟩ := h2
            rw [entriesOf_cons]
            have hsege0 : segEntries ⟨stext, [], ssp⟩ = [] := by
              unfold segEntries
              simp
            rw [hsege0, List.nil_append, entriesOf_cons]
            have hsege2 : segEntries ⟨s2text, ⟨h2id, h2lbl⟩ :: hs2tl,
                ssp + stext.length⟩ =
                ⟨h2id, h2lbl, s2text, ssp + stext.length,
                  ssp + stext.length + s2text.length⟩ ::
                hs2tl.map (fun h => (⟨h.id, h.labelType, s2text, ssp + stext.length,
                  ssp + stext.length + s2text.length⟩ : LocatedHL)) := by
              unfold segEntries
              simp
            rw [hsege2, applySplits_append, applySplits_cons]
            have hfs := splitSegs_first done stext s2text (textConcat rest2) ssp
              h2id h2lbl hs2tne hdone
            rw [if_neg hsne] at hfs
            rw [textConcat_cons, textConcat_cons]
            dsimp only
            rw [hfs]
            rw [show ([(⟨stext, [], ssp⟩ : TextSegment)] ++
                ([(⟨s2text, [⟨h2id, h2lbl⟩], ssp + stext.length⟩ : TextSegment)] ++
                 (if textConcat rest2 = [] then []
                  else [(⟨textConcat rest2, [],
                    ssp + stext.length + s2text.length⟩ : TextSegment)]))) =
              ((⟨stext, [], ssp⟩ : TextSegment) ::
                (⟨s2text, [⟨h2id, h2lbl⟩], ssp + stext.length⟩ : TextSegment) ::
                 (if textConcat rest2 = [] then []
                  else [(⟨textConcat rest2, [],
                    ssp + stext.length + s2text.length⟩ : TextSegment)])) by simp]
            have hdoneg : ∀ s' ∈ done ++ [(⟨stext, [], ssp⟩ : TextSegment)],
                s'.startPos + s'.text.length ≤ ssp + stext.length := by
              intro s' hs'
              rcases List.mem_append.mp hs' with h1 | h1
              · have := hdone s' h1
                omega
              · have he : s' = ⟨stext, [], ssp⟩ := by simpa using h1
                subst he
                simp
            have hwrap := applySplits_wrap hs2tl (done ++ [⟨stext, [], ssp⟩])
              (if textConcat rest2 = [] then []
               else [⟨textConcat rest2, [], ssp + stext.length + s2text.length⟩])
              s2text (ssp + stext.length) [⟨h2id, h2lbl⟩] hs2tne hdoneg
            rw [show done ++ (⟨stext, [], ssp⟩ : TextSegment) ::
                (⟨s2text, [⟨h2id, h2lbl⟩], ssp + stext.length⟩ : TextSegment) ::
                (if textConcat rest2 = [] then []
                 else [(⟨textConcat rest2, [],
                   ssp + stext.length + s2text.length⟩ : TextSegment)]) =
                (done ++ [(⟨stext, [], ssp⟩ : TextSegment)]) ++
                (⟨s2text, [⟨h2id, h2lbl⟩], ssp + stext.length⟩ : TextSegment) ::
                (if textConcat rest2 = [] then []
                 else [(⟨textConcat rest2, [],
                   ssp + stext.length + s2text.length⟩ : TextSegment)]) by simp]
            rw [hwrap, List.singleton_append]
            cases rest2 with
            | nil =>
              simp [entriesOf, applySplits, textConcat]
            | cons s3 rest3 =>
              have hrtne : textConcat (s3 :: rest3) ≠ [] :=
                textConcat_ne_nil (s3 :: rest3)
                  (ssp + stext.length + s2text.length) hrest2 (by simp)
              rw [if_neg hrtne]
              have hdone2 : ∀ s' ∈ (done ++ [(⟨stext, [], ssp⟩ : TextSegment)]) ++
                  [(⟨s2text, (⟨h2id, h2lbl⟩ : SegHL) :: hs2tl,
                    ssp + stext.length⟩ : TextSegment)],
                  s'.startPos + s'.text.length ≤ ssp + stext.length + s2text.length := by
                intro s' hs'
                rcases List.mem_append.mp hs' with h1 | h1
                · have := hdoneg s' h1
                  omega
                · have he : s' = ⟨s2text, ⟨h2id, h2lbl⟩ :: hs2tl, ssp + stext.length⟩ := by
                    simpa using h1
                  subst he
                  simp
              simp only [List.length_cons] at hlen
              have hcall := ih (rest3.length + 1) (by omega) (s3 :: rest3) (by simp)
                (ssp + stext.length + s2text.length)
                ((done ++ [⟨stext, [], ssp⟩]) ++
                  [⟨s2text, ⟨h2id, h2lbl⟩ :: hs2tl, ssp + stext.length⟩])
                hrest2 (noAdj_tail _ _ (noAdj_tail _ _ hadj)) (by simp) hdone2
              rw [show (done ++ [(⟨stext, [], ssp⟩ : TextSegment)]) ++
                  (⟨s2text, (⟨h2id, h2lbl⟩ : SegHL) :: hs2tl,
                    ssp + stext.length⟩ : TextSegment) ::
                  [(⟨textConcat (s3 :: rest3), [],
                    ssp + stext.length + s2text.length⟩ : TextSegment)] =
                  ((done ++ [(⟨stext, [], ssp⟩ : TextSegment)]) ++
                    [(⟨s2text, (⟨h2id, h2lbl⟩ : SegHL) :: hs2tl,
                      ssp + stext.length⟩ : TextSegment)]) ++
                  [(⟨textConcat (s3 :: rest3), [],
                    ssp + stext.length + s2text.length⟩ : TextSegment)] by simp]
              rw [hcall]
              simp

theorem addNewHLs_subset (pText : Str) : ∀ (anns : List HighlightWithText)
    (acc : List LocatedHL) (e : LocatedHL), e ∈ acc → e ∈ addNewHLs pText acc anns := by
  intro anns
  induction anns with
  | nil => intro acc e h; exact h
  | cons a as ih =>
    intro acc e h
    unfold addNewHLs
    rw [List.foldl_cons]
    by_cases hdup : acc.any (fun hh => hh.id == a.id) = true
    · rw [if_pos hdup]
      exact ih acc e h
    · rw [if_neg hdup]
      cases hidx : idxOf? a.text pText with
      | none => exact ih acc e h
      | some i => exact ih _ e (List.mem_append_left _ h)

theorem addNewHLs_has (pText : Str) : ∀ (anns : List HighlightWithText)
    (acc : List LocatedHL) (a : HighlightWithText), a ∈ anns →
    includesStr pText a.text = true →
    ∃ e ∈ addNewHLs pText acc anns, e.id = a.id := by
  intro anns
  induction anns with
  | nil => intro acc a h _; exact absurd h (List.not_mem_nil a)
  | cons b bs ih =>
    intro acc a hmem hinc
    unfold addNewHLs
    rw [List.foldl_cons]
    rcases List.mem_cons.mp hmem with h1 | h1
    · subst h1
      by_cases hdup : acc.any (fun hh => hh.id == a.id) = true
      · rw [if_pos hdup]
        obtain ⟨e, he, hee⟩ := List.any_eq_true.mp hdup
        exact ⟨e, addNewHLs_subset pText bs acc e he, by simpa using hee⟩
      · rw [if_neg hdup]
        obtain ⟨i, hi⟩ := includesStr_idx pText a.text hinc
        rw [hi]
        exact ⟨⟨a.id, a.labelType, a.text, i, i + a.text.length⟩,
          addNewHLs_subset pText bs _ _ (List.mem_append_right _ (by simp)), rfl⟩
    · by_cases hdup : acc.any (fun hh => hh.id == b.id) = true
      · rw [if_pos hdup]
        exact ih acc a h1 hinc
      · rw [if_neg hdup]
        cases hidx : idxOf? b.text pText with
        | none => exact ih acc a h1 hinc
        | some i => exact ih _ a h1 hinc

theorem allHL_full_wf (nodes : List RNode) (pAnns : List HighlightWithText)
    (hanns : ∀ a ∈ pAnns, a.id ≠ [] ∧ a.labelType ≠ [] ∧ a.text ≠ []) :
    ∀ e ∈ sortHLs (addNewHLs (textOfNodes nodes) (existingHighlights nodes) pAnns),
      (e.startIndex < e.endIndex ∧ e.id ≠ [] ∧ e.labelType ≠ []) ∧
        e.startIndex < (textOfNodes nodes).length := by
  intro e he
  rw [mem_sortHLs] at he
  rcases addNewHLs_mem _ pAnns _ e he with h1 | ⟨a, ha, i, hidx, hei⟩
  · rw [existingHighlights_eq] at h1
    obtain ⟨w1, w2, _, w4, w5, w6⟩ := existingFrom_wf nodes 0 e h1
    have hpos : 0 < e.text.length := List.length_pos.mpr w2
    refine ⟨⟨by omega, w5, w6⟩, by omega⟩
  · obtain ⟨ha1, ha2, ha3⟩ := hanns a ha
    obtain ⟨hle, _⟩ := idxOf?_spec _ _ _ hidx
    subst hei
    have hpos : 0 < a.text.length := List.length_pos.mpr ha3
    exact ⟨⟨by show i < i + a.text.length; omega, ha1, ha2⟩,
      by show i < (textOfNodes nodes).length; omega⟩

theorem pass1_inv (nodes : List RNode) (pAnns : List HighlightWithText)
    (hanns : ∀ a ∈ pAnns, a.id ≠ [] ∧ a.labelType ≠ [] ∧ a.text ≠ [] ∧
      includesStr (textOfNodes nodes) a.text = true)
    (hptne : textOfNodes nodes ≠ []) :
    contiguousFrom 0 (applySplits
        (sortHLs (addNewHLs (textOfNodes nodes) (existingHighlights nodes) pAnns))
        [⟨textOfNodes nodes, [], 0⟩]) ∧
    noAdjUnmarked (applySplits
        (sortHLs (addNewHLs (textOfNodes nodes) (existingHighlights nodes) pAnns))
        [⟨textOfNodes nodes, [], 0⟩]) ∧
    segsIdsOK (applySplits
        (sortHLs (addNewHLs (textOfNodes nodes) (existingHighlights nodes) pAnns))
        [⟨textOfNodes nodes, [], 0⟩]) ∧
    applySplits
        (sortHLs (addNewHLs (textOfNodes nodes) (existingHighlights nodes) pAnns))
        [⟨textOfNodes nodes, [], 0⟩] ≠ [] ∧
    textConcat (applySplits
        (sortHLs (addNewHLs (textOfNodes nodes) (existingHighlights nodes) pAnns))
        [⟨textOfNodes nodes, [], 0⟩]) = textOfNodes nodes ∧
    (∀ a ∈ pAnns, ∃ seg ∈ applySplits
        (sortHLs (addNewHLs (textOfNodes nodes) (existingHighlights nodes) pAnns))
        [⟨textOfNodes nodes, [], 0⟩], ∃ sh ∈ seg.highlights, sh.id = a.id) := by
  have hwf := allHL_full_wf nodes pAnns (fun a ha =>
    ⟨(hanns a ha).1, (hanns a ha).2.1, (hanns a ha).2.2.1⟩)
  have hcont0 : contiguousFrom 0 [(⟨textOfNodes nodes, [], 0⟩ : TextSegment)] :=
    ⟨rfl, hptne, trivial⟩
  have hadj0 : noAdjUnmarked [(⟨textOfNodes nodes, [], 0⟩ : TextSegment)] := trivial
  have hids0 : segsIdsOK [(⟨textOfNodes nodes, [], 0⟩ : TextSegment)] := by
    intro seg hseg sh hsh
    have : seg = ⟨textOfNodes nodes, [], 0⟩ := by simpa using hseg
    subst this
    exact absurd hsh (List.not_mem_nil sh)
  obtain ⟨p1, p2, p3⟩ := applySplits_preserves _ _ 0 (fun e he => (hwf e he).1)
    hcont0 hadj0 hids0
  refine ⟨p1, p2, p3, applySplits_ne_nil _ _ (by simp), ?_, ?_⟩
  · rw [applySplits_concat _ _ (fun e he => le_of_lt (hwf e he).1.1)]
    simp [textConcat]
  · intro a ha
    obtain ⟨e, he, heid⟩ := addNewHLs_has (textOfNodes nodes) pAnns
      (existingHighlights nodes) a ha (hanns a ha).2.2.2
    have hes : e ∈ sortHLs (addNewHLs (textOfNodes nodes)
        (existingHighlights nodes) pAnns) := (mem_sortHLs e _).mpr he
    obtain ⟨seg, hseg, hsh⟩ := applySplits_covers
      (sortHLs (addNewHLs (textOfNodes nodes) (existingHighlights nodes) pAnns))
      [⟨textOfNodes nodes, [], 0⟩] (fun e' he' => (hwf e' he').1)
      (fun e' he' => by
        have := (hwf e' he').2
        simp only [textConcat, List.map_cons, List.map_nil, List.flatten_cons,
          List.flatten_nil, List.append_nil]
        exact this)
      hcont0 hadj0 hids0 e hes
    exact ⟨seg, hseg, ⟨e.id, e.labelType⟩, hsh, heid⟩



theorem processParagraph_idem (nodes : List RNode) (pAnns : List HighlightWithText)
    (hanns : ∀ a ∈ pAnns, a.id ≠ [] ∧ a.labelType ≠ [] ∧ a.text ≠ [] ∧
      includesStr (textOfNodes nodes) a.text = true)
    (hptne : textOfNodes nodes ≠ []) :
    processParagraph (processParagraph nodes pAnns) pAnns =
      processParagraph nodes pAnns := by
  obtain ⟨p1, p2, p3, p4, p5, p6⟩ := pass1_inv nodes pAnns hanns hptne
  have hdef : ∀ (ns : List RNode), processParagraph ns pAnns =
      (applySplits (sortHLs (addNewHLs (textOfNodes ns) (existingHighlights ns) pAnns))
        [⟨textOfNodes ns, [], 0⟩]).map segToNode := fun ns => rfl
  have htx : textOfNodes (processParagraph nodes pAnns) = textOfNodes nodes := by
    rw [hdef nodes, textOfNodes_segToNode]
    exact p5
  have hex : existingHighlights (processParagraph nodes pAnns) =
      entriesOf (applySplits
        (sortHLs (addNewHLs (textOfNodes nodes) (existingHighlights nodes) pAnns))
        [⟨textOfNodes nodes, [], 0⟩]) := by
    rw [hdef nodes, existingHighlights_eq]
    exact existingFrom_segToNode _ 0 p1 p3
  have hnoop : addNewHLs (textOfNodes nodes) (existingHighlights
      (processParagraph nodes pAnns)) pAnns =
      existingHighlights (processParagraph nodes pAnns) := by
    apply addNewHLs_noop
    intro a ha
    obtain ⟨seg, hseg, sh, hsh, hshid⟩ := p6 a ha
    rw [hex]
    obtain ⟨e2, he2, he2id⟩ := entriesOf_id_mem _ seg sh hseg hsh
    exact ⟨e2, he2, he2id.trans hshid⟩
  have hsorted : sortHLs (existingHighlights (processParagraph nodes pAnns)) =
      existingHighlights (processParagraph nodes pAnns) := by
    rw [hex]
    exact sortHLs_eq_self 0 _ (entriesOf_startsFrom _ 0 0 (le_refl 0) p1)
  rw [hdef (processParagraph nodes pAnns), htx, hnoop, hsorted, hex]
  have hrb := rebuild (applySplits
      (sortHLs (addNewHLs (textOfNodes nodes) (existingHighlights nodes) pAnns))
      [⟨textOfNodes nodes, [], 0⟩]).length _ rfl 0 [] p1 p2 p4 (by simp)
  simp only [List.nil_append] at hrb
  rw [p5] at hrb
  rw [hrb]
  exact (hdef nodes).symm

theorem paraAnns_pText_ne (pText : Str) (anns : List HighlightWithText)
    (h : paraAnns pText anns ≠ []) : pText ≠ [] := by
  obtain ⟨a, pAnns', heq⟩ := List.exists_cons_of_ne_nil h
  have ha : a ∈ paraAnns pText anns := by rw [heq]; exact List.mem_cons_self _ _
  obtain ⟨_, hane, hinc⟩ := paraAnns_mem pText anns a ha
  obtain ⟨i, hi⟩ := includesStr_idx pText a.text hinc
  obtain ⟨hle, _⟩ := idxOf?_spec _ _ _ hi
  have := List.length_pos.mpr hane
  intro hcontra
  rw [hcontra] at hle
  simp only [List.length_nil] at hle
  omega

theorem processPara_idem (anns : List HighlightWithText) (p : RNode)
    (hanns : ∀ a ∈ anns, a.id ≠ [] ∧ a.labelType ≠ []) :
    processPara anns (processPara anns p) = processPara anns p := by
  by_cases h1 : p.type = str "paragraph"
  · by_cases h2 : (paraAnns (paragraphText p) anns).isEmpty
    · have hfix : processPara anns p = p := by
        unfold processPara
        rw [if_neg (by simpa using h1), if_pos h2]
      rw [hfix, hfix]
    · cases hc : p.content with
      | none =>
        have hfix : processPara anns p = p := by
          unfold processPara
          rw [if_neg (by simpa using h1), if_neg h2, hc]
        rw [hfix, hfix]
      | some nodes =>
        have hone : processPara anns p = RNode.mk p.type p.text p.marks
            (some (processParagraph nodes (paraAnns (paragraphText p) anns))) := by
          unfold processPara
          rw [if_neg (by simpa using h1), if_neg h2, hc]
        have hptext : paragraphText p = textOfNodes nodes := by
          unfold paragraphText
          rw [hc]
          rfl
        have hptne : textOfNodes nodes ≠ [] := by
          rw [← hptext]
          exact hptext ▸ paraAnns_pText_ne (paragraphText p) anns
            (by simpa [List.isEmpty_iff] using h2)
        have hpanns : ∀ a ∈ paraAnns (paragraphText p) anns,
            a.id ≠ [] ∧ a.labelType ≠ [] ∧ a.text ≠ [] ∧
            includesStr (textOfNodes nodes) a.text = true := by
          intro a ha
          obtain ⟨hmem, hne, hinc⟩ := paraAnns_mem _ anns a ha
          obtain ⟨w1, w2⟩ := hanns a hmem
          exact ⟨w1, w2, hne, hptext ▸ hinc⟩
        have htx2 : paragraphText (processPara anns p) = paragraphText p :=
          (processPara_text anns p).1
        rw [hone]
        unfold processPara
        rw [if_neg (by simpa [RNode.type] using h1)]
        have hpt2 : paragraphText (RNode.mk p.type p.text p.marks
            (some (processParagraph nodes (paraAnns (paragraphText p) anns)))) =
            paragraphText p := by
          rw [← hone]
          exact htx2
        rw [hpt2]
        rw [if_neg h2]
        show RNode.mk p.type p.text p.marks (some (processParagraph
            (processParagraph nodes (paraAnns (paragraphText p) anns))
            (paraAnns (paragraphText p) anns))) = _
        rw [processParagraph_idem nodes (paraAnns (paragraphText p) anns)
          (fun a ha => hpanns a ha) hptne]
  · have hfix : processPara anns p = p := by
      unfold processPara
      rw [if_pos (by simpa using h1)]
    rw [hfix, hfix]

/-! ### Claim theorems -/

/-- Claim C1 (counterexample): `createDocumentWithMarks` is not idempotent as
claimed. With document text `"abcd"` and the locatable highlights
`x = {labelType: "", text: "abc"}` and `y = {labelType: "L", text: "ab"}`, the
first application yields nodes `"ab"[x,y] · "c"[x] · "d"`, but the second
yields `"ab"[y,x] · "cd"` — the empty-label mark `x` is dropped by the
existing-highlight scan of the second pass and re-added at the end of the
entry list, changing both the mark order and the segmentation. -/
theorem c1_counterexample :
    locatableIn ⟨some [para [textNode "abcd"]]⟩ (mkHL "x" "" "abc") ∧
    locatableIn ⟨some [para [textNode "abcd"]]⟩ (mkHL "y" "L" "ab") ∧
    createDocumentWithMarks (createDocumentWithMarks ⟨some [para [textNode "abcd"]]⟩
        [mkHL "x" "" "abc", mkHL "y" "L" "ab"])
        [mkHL "x" "" "abc", mkHL "y" "L" "ab"] ≠
      createDocumentWithMarks ⟨some [para [textNode "abcd"]]⟩
        [mkHL "x" "" "abc", mkHL "y" "L" "ab"] := by
  refine ⟨?_, ?_, ?_⟩
  · constructor
    · decide
    · exact ⟨para [textNode "abcd"], by decide, by decide, by decide⟩
  · constructor
    · decide
    · exact ⟨para [textNode "abcd"], by decide, by decide, by decide⟩
  · decide

/-- Claim C1 (amended): `createDocumentWithMarks` is idempotent for every
document and every highlight list whose texts are locatable, provided each
highlight carries a non-empty id and a non-empty labelType (the counterexample
shows an empty label breaks idempotence; an empty id breaks it the same way):
applying the function twice with the same highlight list yields a document
identical to applying it once. -/
theorem c1_idempotent (d : RemirrorDoc) (anns : List HighlightWithText)
    (hanns : ∀ a ∈ anns, a.id ≠ [] ∧ a.labelType ≠ [])
    (hloc : ∀ a ∈ anns, locatableIn d a) :
    createDocumentWithMarks (createDocumentWithMarks d anns) anns =
      createDocumentWithMarks d anns := by
  by_cases he : anns.isEmpty = true
  · have h1 : createDocumentWithMarks d anns = d := by
      unfold createDocumentWithMarks
      rw [if_pos he]
    rw [h1]
    exact h1
  · cases hdc : d.content with
    | none =>
      have h1 : createDocumentWithMarks d anns = d := by
        unfold createDocumentWithMarks
        rw [if_neg he, hdc]
      rw [h1]
      exact h1
    | some ps =>
      have h1 : createDocumentWithMarks d anns = ⟨some (ps.map (processPara anns))⟩ := by
        unfold createDocumentWithMarks
        rw [if_neg he, hdc]
      have h2 : createDocumentWithMarks
          (⟨some (ps.map (processPara anns))⟩ : RemirrorDoc) anns =
          ⟨some ((ps.map (processPara anns)).map (processPara anns))⟩ := by
        unfold createDocumentWithMarks
        rw [if_neg he]
      have h3 : (ps.map (processPara anns)).map (processPara anns) =
          ps.map (processPara anns) := by
        rw [List.map_map]
        apply List.map_congr_left
        intro p _
        exact processPara_idem anns p hanns
      rw [h1, h2, h3]

/-- Claim C1 witness: on the counterexample's document with both labels made
non-empty, a second application reproduces the first application exactly. -/
theorem c1_witness :
    (∀ a ∈ [mkHL "x" "M" "abc", mkHL "y" "L" "ab"], a.id ≠ [] ∧ a.labelType ≠ []) ∧
    createDocumentWithMarks (createDocumentWithMarks ⟨some [para [textNode "abcd"]]⟩
        [mkHL "x" "M" "abc", mkHL "y" "L" "ab"])
        [mkHL "x" "M" "abc", mkHL "y" "L" "ab"] =
      createDocumentWithMarks ⟨some [para [textNode "abcd"]]⟩
        [mkHL "x" "M" "abc", mkHL "y" "L" "ab"] :=
  ⟨by decide,
   c1_idempotent ⟨some [para [textNode "abcd"]]⟩
     [mkHL "x" "M" "abc", mkHL "y" "L" "ab"] (by decide)
     (by
       intro a ha
       rcases List.mem_cons.mp ha with h | h
       · subst h
         exact ⟨by decide, para [textNode "abcd"], by decide, by decide, by decide⟩
       · have : a = mkHL "y" "L" "ab" := by simpa using h
         subst this
         exact ⟨by decide, para [textNode "abcd"], by decide, by decide, by decide⟩)⟩

/-- Claim C10: `createDocumentWithMarks` never changes text. For every document
and every highlight list, the output has the same number of top-level nodes in
the same order, each with its original node type, and each paragraph's
concatenated text equals the corresponding input paragraph's concatenated text
— the rebuilt segments always partition the original paragraph text exactly. -/
theorem c10_text_preservation (d : RemirrorDoc) (anns : List HighlightWithText) :
    ((createDocumentWithMarks d anns).content.getD []).map paragraphText =
      (d.content.getD []).map paragraphText ∧
    ((createDocumentWithMarks d anns).content.getD []).map RNode.type =
      (d.content.getD []).map RNode.type := by
  unfold createDocumentWithMarks
  by_cases ha : anns.isEmpty
  · rw [if_pos ha]
    exact ⟨rfl, rfl⟩
  · rw [if_neg ha]
    cases hc : d.content with
    | none =>
      dsimp only []
      rw [hc]
      exact ⟨rfl, rfl⟩
    | some ps =>
      constructor
      · show (ps.map (processPara anns)).map paragraphText = ps.map paragraphText
        rw [List.map_map]
        apply List.map_congr_left
        intro p _
        exact (processPara_text anns p).1
      · show (ps.map (processPara anns)).map RNode.type = ps.map RNode.type
        rw [List.map_map]
        apply List.map_congr_left
        intro p _
        exact (processPara_text anns p).2

/-- Claim C2 (code bug): on the document `"Evidence supports claims."` with
highlights `a = "Evidence supports"` and `b = "supports claims"`, the code
produces `"Evidence "` carrying mark `a` and the overlap `"supports"` carrying
both marks, but the remainder `" claims."` carries no mark at all: the part of
highlight `b` that reaches past the segment containing its start is silently
clipped by the `break` in the splitting loop, contrary to the claim that
`" claims"` is a text node carrying exactly mark `b`. This theorem evaluates
the code at the failing input. -/
theorem c2_overlap_clipped :
    createDocumentWithMarks ⟨some [para [textNode "Evidence supports claims."]]⟩
      [mkHL "a" "evidence" "Evidence supports", mkHL "b" "claim" "supports claims"] =
    ⟨some [RNode.mk (str "paragraph") none none (some
      [ RNode.mk (str "text") (some (str "Evidence "))
          (some [⟨str "entity-reference",
                  some ⟨some (str "a"), some (str "evidence"), some (str "evidence")⟩⟩]) none,
        RNode.mk (str "text") (some (str "supports"))
          (some [⟨str "entity-reference",
                  some ⟨some (str "a"), some (str "evidence"), some (str "evidence")⟩⟩,
                 ⟨str "entity-reference",
                  some ⟨some (str "b"), some (str "claim"), some (str "claim")⟩⟩]) none,
        RNode.mk (str "text") (some (str " claims.")) none none ])]⟩ := by
  decide

/-- Claim C4 (code bug): the two position conventions disagree. The annotator
locates `"world"` in the flattened paragraph text `"Hello world"` at index 6
(and indeed produces a document whose marked node starts after `"Hello "`),
but the extractor, run on that very output, reports `startIndex 0` for the
marked span, because `processNode` returns length 0 for unmarked text nodes
(they fall through to the `content` branch). -/
theorem c4_position_mismatch :
    (extractHighlightsFromContentMarks [] []
        (createDocumentWithMarks ⟨some [para [textNode "Hello world"]]⟩
          [mkHL "x" "claim" "world"])).1 =
      [⟨str "x", str "claim", str "world", some 0, some 5⟩] ∧
    idxOf? (str "world") (paragraphText (para [textNode "Hello world"])) = some 6 := by
  constructor
  · decide
  · decide

/-- Claim C8 (counterexample): the claimed normalized tier does not exist. The
code's only locator is exact substring search; on the claim's own example the
needle `"the Earth is round"` is not found in `"The earth   is round."`
(`indexOf` returns nothing rather than a normalized match) and the highlight
is not applied: the document comes back unchanged, with no mark. -/
theorem c8_counterexample :
    idxOf? (str "the Earth is round") (str "The earth   is round.") = none ∧
    createDocumentWithMarks ⟨some [para [textNode "The earth   is round."]]⟩
        [mkHL "n" "claim" "the Earth is round"] =
      ⟨some [para [textNode "The earth   is round."]]⟩ := by
  constructor
  · decide
  · decide

/-- Claim C5: `deleteHighlight` removes the highlight with the given id and
every relationship mentioning it (as source or target), leaves all other
highlights and relationships unchanged and in order (sublists of the
originals), and delivers both removals in one single store update (the single
`.ok` result record). -/
theorem c5_cascade_delete (highlightId : Str) (record : EditorContent) (hmap : HMap)
    (n : Nat) (hid : record.id = some n) (hn : n ≠ 0) :
    ∃ updated hmap',
      deleteHighlight highlightId record hmap = .ok (updated, hmap') ∧
      updated.id = record.id ∧
      (∀ h, h ∈ updated.highlights ↔ h ∈ record.highlights ∧ h.id ≠ highlightId) ∧
      updated.highlights.Sublist record.highlights ∧
      (∀ r, r ∈ updated.relationships ↔ r ∈ record.relationships ∧
        r.sourceHighlightId ≠ highlightId ∧ r.targetHighlightId ≠ highlightId) ∧
      updated.relationships.Sublist record.relationships ∧
      hmap' = hmDelete hmap highlightId := by
  have hn' : (n == 0) = false := by simpa using hn
  refine ⟨{ record with
            highlights := record.highlights.filter (fun h => h.id != highlightId)
            relationships := record.relationships.filter (fun r =>
              r.sourceHighlightId != highlightId && r.targetHighlightId != highlightId) },
          hmDelete hmap highlightId, ?_, rfl, ?_, ?_, ?_, ?_, rfl⟩
  · unfold deleteHighlight
    rw [hid]
    simp [hn']
  · intro h
    simp [List.mem_filter, bne_iff_ne]
  · exact List.filter_sublist _
  · intro r
    simp [List.mem_filter, bne_iff_ne, and_assoc]
  · exact List.filter_sublist _

/-- Claim C5 witness: concrete cascade delete of highlight `"a"`. -/
theorem c5_witness :
    ∃ updated hmap',
      deleteHighlight (str "a")
          ⟨some 1, [mkHL "a" "claim" "t", mkHL "b" "evidence" "u"],
            [⟨str "a", str "b"⟩, ⟨str "b", str "a"⟩, ⟨str "b", str "b"⟩]⟩ [] =
        .ok (updated, hmap') ∧
      updated.id = some 1 ∧
      (∀ h, h ∈ updated.highlights ↔
        h ∈ [mkHL "a" "claim" "t", mkHL "b" "evidence" "u"] ∧ h.id ≠ str "a") ∧
      updated.highlights.Sublist [mkHL "a" "claim" "t", mkHL "b" "evidence" "u"] ∧
      (∀ r, r ∈ updated.relationships ↔
        r ∈ [(⟨str "a", str "b"⟩ : Relationship), ⟨str "b", str "a"⟩, ⟨str "b", str "b"⟩] ∧
        r.sourceHighlightId ≠ str "a" ∧ r.targetHighlightId ≠ str "a") ∧
      updated.relationships.Sublist
        [⟨str "a", str "b"⟩, ⟨str "b", str "a"⟩, ⟨str "b", str "b"⟩] ∧
      hmap' = hmDelete [] (str "a") :=
  c5_cascade_delete (str "a")
    ⟨some 1, [mkHL "a" "claim" "t", mkHL "b" "evidence" "u"],
      [⟨str "a", str "b"⟩, ⟨str "b", str "a"⟩, ⟨str "b", str "b"⟩]⟩ [] 1 rfl (by decide)

/-- Claim C6: on a content change in analysis mode with no explicit highlight
list, when extraction over the new document yields zero highlights, the handler
persists the previously known highlight list (never an empty list): extraction
returning nothing is not treated as deliberate clearing. -/
theorem c6_fallback_on_extraction_failure (json : RemirrorDoc)
    (jsonHighlights contentHighlights : Option (List HighlightWithText))
    (ac : AnalysedContent) (removed : List Str) (hmap : HMap)
    (hjh : jsonHighlights.getD [] = [])
    (hcontent : isEmptyUpdate json = false)
    (hex : (extractHighlightsFromContentMarks removed hmap json).1 = [])
    (hprev : ac.highlights ≠ []) :
    handleEditorChange .analysis json jsonHighlights contentHighlights (some ac)
        removed hmap =
      (.updateAnalysed json ac.highlights ac.relationships,
       (extractHighlightsFromContentMarks removed hmap json).2) := by
  unfold handleEditorChange
  simp [hcontent, hjh, hex]

/-- Claim C6 witness: a mark-free one-paragraph document extracts to zero
highlights, and the handler persists the previous (non-empty) highlight list. -/
theorem c6_witness :
    handleEditorChange .analysis ⟨some [para [textNode "Hello world"]]⟩ none none
        (some ⟨[mkHL "p" "claim" "Hello"], [⟨str "p", str "p"⟩]⟩) [] [] =
      (.updateAnalysed ⟨some [para [textNode "Hello world"]]⟩
        [mkHL "p" "claim" "Hello"] [⟨str "p", str "p"⟩],
       (extractHighlightsFromContentMarks [] [] ⟨some [para [textNode "Hello world"]]⟩).2) :=
  c6_fallback_on_extraction_failure ⟨some [para [textNode "Hello world"]]⟩ none none
    ⟨[mkHL "p" "claim" "Hello"], [⟨str "p", str "p"⟩]⟩ [] []
    rfl (by decide) (by decide) (by decide)

/-- Claim C9: for a mark reaching the extraction step (attrs present, truthy id,
not seen, not recently removed), under the registry invariant that stored
labels are non-empty, the produced highlight's label follows exactly the
claimed order — (a) the mark's `labelType` attribute if non-empty, (b) its
`type` attribute if non-empty, (c) the highlight-map entry for the id if
present, (d) the fixed fallback `"claim"` — and the registry ends up holding
that resolved label for the id. -/
theorem c9_label_resolution (removed : List Str) (t : Str) (pos : Nat) (st : EState)
    (m : Mark) (attrs : MarkAttrs)
    (hm : m.attrs = some attrs)
    (hid : truthy attrs.id = true)
    (hseen : st.seenIds.contains (attrs.id.getD []) = false)
    (hrem : removed.contains (attrs.id.getD []) = false)
    (hmapok : ∀ p ∈ st.hmap, p.2 ≠ []) :
    (processMark removed t pos st m).highlights =
      st.highlights ++ [⟨attrs.id.getD [],
        (if truthy attrs.labelType then attrs.labelType.getD []
         else if truthy attrs.type then attrs.type.getD []
         else match getHighlight st.hmap (attrs.id.getD []) with
              | some saved => saved
              | none => str "claim"),
        t, some pos, some (pos + t.length)⟩] ∧
    hmGet (processMark removed t pos st m).hmap (attrs.id.getD []) =
      some (if truthy attrs.labelType then attrs.labelType.getD []
            else if truthy attrs.type then attrs.type.getD []
            else match getHighlight st.hmap (attrs.id.getD []) with
                 | some saved => saved
                 | none => str "claim") := by
  have hres : resolveLabel attrs (attrs.id.getD []) st.hmap =
      (if truthy attrs.labelType then attrs.labelType.getD []
       else if truthy attrs.type then attrs.type.getD []
       else match getHighlight st.hmap (attrs.id.getD []) with
            | some saved => saved
            | none => str "claim") := by
    unfold resolveLabel
    by_cases h1 : truthy attrs.labelType = true
    · simp [h1]
    · by_cases h2 : truthy attrs.type = true
      · simp [h1, h2]
      · simp only [h1, h2, Bool.false_eq_true, if_false]
        cases hg : getHighlight st.hmap (attrs.id.getD []) with
        | none => rfl
        | some saved =>
          have hsne : saved ≠ [] := by
            have : (st.hmap.find? (fun p => p.1 == attrs.id.getD [])).map
                (fun p => p.2) = some saved := by
              unfold getHighlight at hg
              by_cases hie : (attrs.id.getD []).isEmpty
              · rw [if_pos hie] at hg
                exact absurd hg (by simp)
              · rw [if_neg hie] at hg
                exact hg
            obtain ⟨p, hp, hp2⟩ := Option.map_eq_some'.mp this
            exact hp2 ▸ hmapok p (List.mem_of_find?_eq_some hp)
          simp [List.isEmpty_iff, hsne]
  have hguard : (!truthy attrs.id || st.seenIds.contains (attrs.id.getD [])
      || removed.contains (attrs.id.getD [])) = false := by
    rw [hid, hseen, hrem]
    rfl
  have hstep : processMark removed t pos st m =
      ⟨st.highlights ++ [⟨attrs.id.getD [], resolveLabel attrs (attrs.id.getD []) st.hmap,
          t, some pos, some (pos + t.length)⟩],
        st.seenIds ++ [attrs.id.getD []],
        setHighlight st.hmap (attrs.id.getD [])
          (resolveLabel attrs (attrs.id.getD []) st.hmap)⟩ := by
    unfold processMark
    rw [hm]
    simp only [hguard, Bool.false_eq_true, if_false]
  have hidne : (attrs.id.getD []).isEmpty = false := by
    cases hia : attrs.id with
    | none => rw [hia] at hid; simp [truthy] at hid
    | some s =>
      rw [hia] at hid
      simpa [truthy] using hid
  have hlblne : (resolveLabel attrs (attrs.id.getD []) st.hmap).isEmpty = false := by
    rw [hres]
    by_cases h1 : truthy attrs.labelType = true
    · cases hla : attrs.labelType with
      | none => rw [hla] at h1; simp [truthy] at h1
      | some s => rw [hla] at h1; simp [h1]; simpa [truthy, hla] using h1
    · by_cases h2 : truthy attrs.type = true
      · cases hta : attrs.type with
        | none => rw [hta] at h2; simp [truthy] at h2
        | some s => rw [hta] at h2; simp [h1, h2]; simpa [truthy, hta] using h2
      · simp only [h1, h2, Bool.false_eq_true, if_false]
        cases hg : getHighlight st.hmap (attrs.id.getD []) with
        | none => decide
        | some saved =>
          have hsne : saved ≠ [] := by
            have : (st.hmap.find? (fun p => p.1 == attrs.id.getD [])).map
                (fun p => p.2) = some saved := by
              unfold getHighlight at hg
              rw [if_neg (by simp [hidne])] at hg
              exact hg
            obtain ⟨p, hp, hp2⟩ := Option.map_eq_some'.mp this
            exact hp2 ▸ hmapok p (List.mem_of_find?_eq_some hp)
          simpa [List.isEmpty_iff] using hsne
  constructor
  · rw [hstep, hres]
  · rw [hstep]
    show hmGet (setHighlight st.hmap (attrs.id.getD [])
        (resolveLabel attrs (attrs.id.getD []) st.hmap)) (attrs.id.getD []) = _
    unfold setHighlight
    rw [if_neg (by simp [hidne]), if_neg (by simp [hlblne]), hmGet_hmSet, hres]

/-- Claim C9 witness: a mark with no label metadata resolves via the registry
entry for its id, and the registry keeps that label. -/
theorem c9_witness :
    (processMark [] (str "hello") 0 ⟨[], [], [(str "z", str "evidence")]⟩
        ⟨str "entity-reference", some ⟨some (str "z"), none, none⟩⟩).highlights =
      [⟨str "z", str "evidence", str "hello", some 0, some 5⟩] ∧
    hmGet (processMark [] (str "hello") 0 ⟨[], [], [(str "z", str "evidence")]⟩
        ⟨str "entity-reference", some ⟨some (str "z"), none, none⟩⟩).hmap (str "z") =
      some (str "evidence") := by
  have h := c9_label_resolution [] (str "hello") 0 ⟨[], [], [(str "z", str "evidence")]⟩
    ⟨str "entity-reference", some ⟨some (str "z"), none, none⟩⟩
    ⟨some (str "z"), none, none⟩ rfl (by decide) (by decide) (by decide) (by decide)
  obtain ⟨h1, h2⟩ := h
  exact ⟨h1, h2⟩

/-- Claim C7: after `markHighlightAsRemoved x`, while the grace window lasts
(i.e. while the recently-removed set still contains `x`), every run of
`extractHighlightsFromContentMarks` over any document — including one still
containing a stale mark with id `x` — omits `x` from its result, so a removed
highlight is never reintroduced by a racing extraction pass. -/
theorem c7_race_safety (content : RemirrorDoc) (hmap : HMap) (removed : List Str)
    (x : Str) :
    ∀ hh ∈ (extractHighlightsFromContentMarks (markHighlightAsRemoved removed x)
        hmap content).1, hh.id ≠ x := by
  have hx : x ∈ markHighlightAsRemoved removed x := by
    unfold markHighlightAsRemoved
    by_cases h : removed.contains x = true
    · rw [if_pos h]
      simpa using h
    · rw [if_neg (by simpa using h)]
      simp
  unfold extractHighlightsFromContentMarks
  cases hc : content.content with
  | none => simp
  | some nodes =>
    dsimp only []
    have main : ∀ (ns : List RNode) (st : EState), (∀ hh ∈ st.highlights, hh.id ≠ x) →
        ∀ hh ∈ (ns.foldl
            (fun st n => (processNode (markHighlightAsRemoved removed x) n 0 st).2)
            st).highlights, hh.id ≠ x := by
      intro ns
      induction ns with
      | nil => intro st h; simpa using h
      | cons n ns ih =>
        intro st h
        exact ih _ (processNode_keeps (markHighlightAsRemoved removed x) x n hx 0 st h)
    exact main nodes ⟨[], [], hmap⟩ (by simp)

/-- Claim C7 witness: extraction over a document holding a stale mark `"x"` and
a live mark `"y"`, with `"x"` freshly marked as removed, yields only `"y"` —
the theorem applied to that extracted highlight shows its id differs from
`"x"`. -/
theorem c7_witness :
    (extractHighlightsFromContentMarks (markHighlightAsRemoved [] (str "x")) []
        ⟨some [para [markedNode "ab" "x" "claim", markedNode "cd" "y" "claim"]]⟩).1 =
      [⟨str "y", str "claim", str "cd", some 2, some 4⟩] ∧
    (⟨str "y", str "claim", str "cd", some 2, some 4⟩ : HighlightWithText).id ≠ str "x" :=
  ⟨by decide,
   c7_race_safety ⟨some [para [markedNode "ab" "x" "claim", markedNode "cd" "y" "claim"]]⟩
     [] [] (str "x") ⟨str "y", str "claim", str "cd", some 2, some 4⟩ (by decide)⟩

/-- Claim C8 (amended): span location in the code is exact-only. An exact
substring (`"earth   is"`) is located and its highlight applied; a needle that
matches only after case/whitespace normalization (`"the Earth is round"`) is
not located and leaves the document unchanged; completely absent text likewise
yields no match and no change. -/
theorem c8_exact_only :
    (idxOf? (str "earth   is") (str "The earth   is round.") = some 4 ∧
      createDocumentWithMarks ⟨some [para [textNode "The earth   is round."]]⟩
          [mkHL "e" "claim" "earth   is"] =
        ⟨some [RNode.mk (str "paragraph") none none (some
          [ textNode "The ",
            RNode.mk (str "text") (some (str "earth   is"))
              (some [⟨str "entity-reference",
                      some ⟨some (str "e"), some (str "claim"), some (str "claim")⟩⟩]) none,
            textNode " round." ])]⟩) ∧
    (idxOf? (str "the Earth is round") (str "The earth   is round.") = none ∧
      createDocumentWithMarks ⟨some [para [textNode "The earth   is round."]]⟩
          [mkHL "n" "claim" "the Earth is round"] =
        ⟨some [para [textNode "The earth   is round."]]⟩) ∧
    (idxOf? (str "completely made up text") (str "The earth   is round.") = none ∧
      createDocumentWithMarks ⟨some [para [textNode "The earth   is round."]]⟩
          [mkHL "m" "claim" "completely made up text"] =
        ⟨some [para [textNode "The earth   is round."]]⟩) := by
  refine ⟨⟨by decide, by decide⟩, ⟨by decide, by decide⟩, ⟨by decide, by decide⟩⟩

/-! ### Round-trip helper lemmas (claim C3) -/

theorem processMark_cases (removed : List Str) (t : Str) (pos : Nat) (st : EState)
    (m : Mark) :
    processMark removed t pos st m = st ∨
    ∃ attrs, m.attrs = some attrs ∧ truthy attrs.id = true ∧
      (attrs.id.getD []) ∉ st.seenIds ∧ (attrs.id.getD []) ∉ removed ∧
      processMark removed t pos st m =
        ⟨st.highlights ++ [⟨attrs.id.getD [],
           resolveLabel attrs (attrs.id.getD []) st.hmap, t, some pos,
           some (pos + t.length)⟩],
         st.seenIds ++ [attrs.id.getD []],
         setHighlight st.hmap (attrs.id.getD [])
           (resolveLabel attrs (attrs.id.getD []) st.hmap)⟩ := by
  unfold processMark
  cases hma : m.attrs with
  | none => exact Or.inl rfl
  | some attrs =>
    dsimp only []
    by_cases hg : (!truthy attrs.id || st.seenIds.contains (attrs.id.getD [])
        || removed.contains (attrs.id.getD [])) = true
    · rw [if_pos hg]
      exact Or.inl rfl
    · rw [if_neg hg]
      simp only [Bool.or_eq_true, Bool.not_eq_true'] at hg
      push_neg at hg
      obtain ⟨⟨h1, h2⟩, h3⟩ := hg
      refine Or.inr ⟨attrs, rfl, ?_, ?_, ?_, rfl⟩
      · cases htt : truthy attrs.id with
        | false => exact absurd htt h1
        | true => rfl
      · intro hmem
        exact h2 (by simpa using hmem)
      · intro hmem
        exact h3 (by simpa using hmem)

theorem processMark_stInv (removed : List Str) (t : Str) (pos : Nat) (st : EState)
    (m : Mark) (h : stInv st) : stInv (processMark removed t pos st m) := by
  rcases processMark_cases removed t pos st m with he | ⟨attrs, _, _, hns, _, he⟩
  · rw [he]; exact h
  · rw [he]
    obtain ⟨h1, h2⟩ := h
    constructor
    · show st.seenIds ++ [attrs.id.getD []] =
        (st.highlights ++ [(⟨attrs.id.getD [],
          resolveLabel attrs (attrs.id.getD []) st.hmap, t, some pos,
          some (pos + t.length)⟩ : HighlightWithText)]).map (fun hh => hh.id)
      rw [List.map_append, ← h1]
      rfl

    · show (st.seenIds ++ [attrs.id.getD []]).Nodup
      rw [List.nodup_append]
      refine ⟨h2, List.nodup_singleton _, ?_⟩
      intro a ha hmem
      rw [List.mem_singleton] at hmem
      subst hmem
      exact hns ha

theorem foldl_processMark_stInv (removed : List Str) (t : Str) (pos : Nat) :
    ∀ (marks : List Mark) (st : EState), stInv st →
      stInv (marks.foldl (processMark removed t pos) st) := by
  intro marks
  induction marks with
  | nil => intro st h; simpa using h
  | cons m ms ih =>
    intro st h
    rw [List.foldl_cons]
    exact ih _ (processMark_stInv removed t pos st m h)

theorem processMark_seen_mono (removed : List Str) (t : Str) (pos : Nat)
    (st : EState) (m : Mark) (x : Str) (hx : x ∈ st.seenIds) :
    x ∈ (processMark removed t pos st m).seenIds := by
  rcases processMark_cases removed t pos st m with he | ⟨attrs, _, _, _, _, he⟩
  · rw [he]; exact hx
  · rw [he]
    exact List.mem_append_left _ hx

theorem foldl_processMark_seen_mono (removed : List Str) (t : Str) (pos : Nat)
    (x : Str) : ∀ (marks : List Mark) (st : EState), x ∈ st.seenIds →
      x ∈ (marks.foldl (processMark removed t pos) st).seenIds := by
  intro marks
  induction marks with
  | nil => intro st h; simpa using h
  | cons m ms ih =>
    intro st h
    rw [List.foldl_cons]
    exact ih _ (processMark_seen_mono removed t pos st m x h)

theorem processMark_complete (removed : List Str) (t : Str) (pos : Nat)
    (st : EState) (m : Mark) (attrs : MarkAttrs) (hma : m.attrs = some attrs)
    (hid : truthy attrs.id = true) (hxr : attrs.id.getD [] ∉ removed) :
    attrs.id.getD [] ∈ (processMark removed t pos st m).seenIds := by
  unfold processMark
  rw [hma]
  dsimp only []
  by_cases hg : (!truthy attrs.id || st.seenIds.contains (attrs.id.getD [])
      || removed.contains (attrs.id.getD [])) = true
  · rw [if_pos hg]
    simp only [Bool.or_eq_true, Bool.not_eq_true'] at hg
    rcases hg with (h1 | h2) | h3
    · rw [hid] at h1
      exact absurd h1 (by simp)
    · simpa using h2
    · exact absurd (by simpa using h3) hxr
  · rw [if_neg hg]
    show attrs.id.getD [] ∈ st.seenIds ++ [attrs.id.getD []]
    exact List.mem_append_right _ (by simp)

theorem foldl_processMark_complete (removed : List Str) (t : Str) (pos : Nat)
    (x : Str) (hxr : x ∉ removed) :
    ∀ (marks : List Mark) (st : EState),
    (∃ m ∈ marks, ∃ attrs, m.attrs = some attrs ∧ truthy attrs.id = true ∧
      attrs.id.getD [] = x) →
    x ∈ (marks.foldl (processMark removed t pos) st).seenIds := by
  intro marks
  induction marks with
  | nil =>
    intro st h
    obtain ⟨m, hm, _⟩ := h
    exact absurd hm (List.not_mem_nil m)
  | cons m ms ih =>
    intro st h
    rw [List.foldl_cons]
    obtain ⟨m', hm', attrs, hma, hid, hix⟩ := h
    rcases List.mem_cons.mp hm' with heq | htail
    · subst heq
      apply foldl_processMark_seen_mono removed t pos x ms
      rw [← hix]
      exact processMark_complete removed t pos st m' attrs hma hid (hix ▸ hxr)
    · exact ih _ ⟨m', htail, attrs, hma, hid, hix⟩

theorem foldl_processMark_sound (removed : List Str) (t : Str) (pos : Nat)
    (S : List (Str × Str × Str)) :
    ∀ (marks : List Mark) (st : EState),
    (∀ m ∈ marks, ∀ attrs, m.attrs = some attrs → truthy attrs.id = true →
      truthy attrs.labelType = true ∧
        (attrs.id.getD [], attrs.labelType.getD [], t) ∈ S) →
    (∀ hh ∈ st.highlights, (hh.id, hh.labelType, hh.text) ∈ S) →
    ∀ hh ∈ (marks.foldl (processMark removed t pos) st).highlights,
      (hh.id, hh.labelType, hh.text) ∈ S := by
  intro marks
  induction marks with
  | nil => intro st _ hst; simpa using hst
  | cons m ms ih =>
    intro st hmk hst
    rw [List.foldl_cons]
    apply ih _ (fun m' hm' => hmk m' (List.mem_cons_of_mem _ hm'))
    rcases processMark_cases removed t pos st m with he | ⟨attrs, hma, hid, _, _, he⟩
    · rw [he]; exact hst
    · rw [he]
      intro hh hmem
      rcases List.mem_append.mp hmem with hl | hr
      · exact hst hh hl
      · obtain ⟨hlbl, hinS⟩ := hmk m (List.mem_cons_self _ _) attrs hma hid
        have hres : resolveLabel attrs (attrs.id.getD []) st.hmap =
            attrs.labelType.getD [] := by
          unfold resolveLabel
          rw [if_pos hlbl]
        have hhe : hh = ⟨attrs.id.getD [],
            resolveLabel attrs (attrs.id.getD []) st.hmap, t, some pos,
            some (pos + t.length)⟩ := by simpa using hr
        rw [hhe]
        show (attrs.id.getD [], resolveLabel attrs (attrs.id.getD []) st.hmap, t) ∈ S
        rw [hres]
        exact hinS

mutual

theorem processNode_stInv (removed : List Str) (node : RNode) :
    ∀ (pos : Nat) (st : EState), stInv st →
      stInv (processNode removed node pos st).2 := by
  intro pos st h
  cases node with
  | mk ntype ntext nmarks ncontent =>
    rw [processNode.eq_def]
    by_cases h1 : (truthy ntext && nmarks.isSome) = true
    · simp only [h1, if_true]
      exact foldl_processMark_stInv removed _ pos _ st h
    · simp only [h1, Bool.false_eq_true, if_false]
      cases ncontent with
      | none => simpa using h
      | some children =>
        by_cases h2 : (!ntype.isEmpty &&
            (ntype == str "paragraph" || ntype == str "heading")) = true
        · simp only [h2, if_true]
          exact processChildren_stInv removed children pos st h
        · simp only [h2, Bool.false_eq_true, if_false]
          exact processChildren_stInv removed children pos st h

theorem processChildren_stInv (removed : List Str) (children : List RNode) :
    ∀ (pos : Nat) (st : EState), stInv st →
      stInv (processChildren removed children pos st).2 := by
  intro pos st h
  cases children with
  | nil => rw [processChildren.eq_def]; simpa using h
  | cons c cs =>
    rw [processChildren.eq_def]
    exact processChildren_stInv removed cs _ _ (processNode_stInv removed c pos st h)

end

mutual

theorem processNode_seen_mono (removed : List Str) (node : RNode) :
    ∀ (pos : Nat) (st : EState) (x : Str), x ∈ st.seenIds →
      x ∈ (processNode removed node pos st).2.seenIds := by
  intro pos st x h
  cases node with
  | mk ntype ntext nmarks ncontent =>
    rw [processNode.eq_def]
    by_cases h1 : (truthy ntext && nmarks.isSome) = true
    · simp only [h1, if_true]
      exact foldl_processMark_seen_mono removed _ pos x _ st h
    · simp only [h1, Bool.false_eq_true, if_false]
      cases ncontent with
      | none => simpa using h
      | some children =>
        by_cases h2 : (!ntype.isEmpty &&
            (ntype == str "paragraph" || ntype == str "heading")) = true
        · simp only [h2, if_true]
          exact processChildren_seen_mono removed children pos st x h
        · simp only [h2, Bool.false_eq_true, if_false]
          exact processChildren_seen_mono removed children pos st x h

theorem processChildren_seen_mono (removed : List Str) (children : List RNode) :
    ∀ (pos : Nat) (st : EState) (x : Str), x ∈ st.seenIds →
      x ∈ (processChildren removed children pos st).2.seenIds := by
  intro pos st x h
  cases children with
  | nil => rw [processChildren.eq_def]; simpa using h
  | cons c cs =>
    rw [processChildren.eq_def]
    exact processChildren_seen_mono removed cs _ _ x
      (processNode_seen_mono removed c pos st x h)

end

mutual

theorem noMarks_good (S : List (Str × Str × Str)) (node : RNode) :
    noMarksNode node = true → goodNode S node = true := by
  intro h
  cases node with
  | mk ntype ntext nmarks ncontent =>
    have h' : (nmarks.isNone && noMarksOpt ncontent) = true := h
    rw [Bool.and_eq_true] at h'
    obtain ⟨hm, hc⟩ := h'
    have hmn : nmarks = none := Option.isNone_iff_eq_none.mp hm
    subst hmn
    rw [goodNode.eq_def]
    have hcond : (truthy ntext && (none : Option (List Mark)).isSome) = false := by
      simp
    simp only [hcond, Bool.false_eq_true, if_false]
    cases ncontent with
    | none => rfl
    | some l =>
      have hcl : noMarksList l = true := hc
      show goodList S l = true
      exact noMarks_goodList S l hcl

theorem noMarks_goodList (S : List (Str × Str × Str)) (l : List RNode) :
    noMarksList l = true → goodList S l = true := by
  intro h
  cases l with
  | nil => rfl
  | cons n ns =>
    have h' : (noMarksNode n && noMarksList ns) = true := h
    rw [Bool.and_eq_true] at h'
    show (goodNode S n && goodList S ns) = true
    rw [Bool.and_eq_true]
    exact ⟨noMarks_good S n h'.1, noMarks_goodList S ns h'.2⟩

end

mutual

theorem processNode_sound (removed : List Str) (S : List (Str × Str × Str))
    (node : RNode) :
    ∀ (pos : Nat) (st : EState), goodNode S node = true →
      (∀ hh ∈ st.highlights, (hh.id, hh.labelType, hh.text) ∈ S) →
      ∀ hh ∈ (processNode removed node pos st).2.highlights,
        (hh.id, hh.labelType, hh.text) ∈ S := by
  intro pos st hg hst
  cases node with
  | mk ntype ntext nmarks ncontent =>
    rw [processNode.eq_def]
    rw [goodNode.eq_def] at hg
    by_cases h1 : (truthy ntext && nmarks.isSome) = true
    · simp only [h1, if_true] at hg ⊢
      refine foldl_processMark_sound removed (ntext.getD []) pos S _ st ?_ hst
      intro m hm attrs hma hid
      have hm' : m ∈ nmarks.getD [] := (List.mem_filter.mp hm).1
      have hent : (m.type == str "entity-reference" && m.attrs.isSome) = true :=
        (List.mem_filter.mp hm).2
      have hall := List.all_eq_true.mp hg m hm'
      rw [hma] at hall hent
      dsimp only [] at hall
      rw [hent, hid] at hall
      simp only [Bool.and_self, Bool.not_true, Bool.false_or, Bool.and_eq_true,
        decide_eq_true_eq] at hall
      exact hall
    · simp only [h1, Bool.false_eq_true, if_false] at hg ⊢
      cases ncontent with
      | none => simpa using hst
      | some children =>
        have hg' : goodList S children = true := hg
        by_cases h2 : (!ntype.isEmpty &&
            (ntype == str "paragraph" || ntype == str "heading")) = true
        · simp only [h2, if_true]
          exact processChildren_sound removed S children pos st hg' hst
        · simp only [h2, Bool.false_eq_true, if_false]
          exact processChildren_sound removed S children pos st hg' hst

theorem processChildren_sound (removed : List Str) (S : List (Str × Str × Str))
    (children : List RNode) :
    ∀ (pos : Nat) (st : EState), goodList S children = true →
      (∀ hh ∈ st.highlights, (hh.id, hh.labelType, hh.text) ∈ S) →
      ∀ hh ∈ (processChildren removed children pos st).2.highlights,
        (hh.id, hh.labelType, hh.text) ∈ S := by
  intro pos st hg hst
  cases children with
  | nil => rw [processChildren.eq_def]; simpa using hst
  | cons c cs =>
    rw [processChildren.eq_def]
    have hgc : (goodNode S c && goodList S cs) = true := hg
    rw [Bool.and_eq_true] at hgc
    exact processChildren_sound removed S cs _ _ hgc.2
      (processNode_sound removed S c pos st hgc.1 hst)

end

mutual

theorem processNode_complete (removed : List Str) (x : Str) (node : RNode) :
    ∀ (pos : Nat) (st : EState), hasIdNode x node = true → x ∉ removed →
      x ∈ (processNode removed node pos st).2.seenIds := by
  intro pos st hg hxr
  cases node with
  | mk ntype ntext nmarks ncontent =>
    rw [processNode.eq_def]
    rw [hasIdNode.eq_def] at hg
    by_cases h1 : (truthy ntext && nmarks.isSome) = true
    · simp only [h1, if_true] at hg ⊢
      obtain ⟨m, hm, hp⟩ := List.any_eq_true.mp hg
      rw [Bool.and_eq_true] at hp
      obtain ⟨hent, hattr⟩ := hp
      cases hma : m.attrs with
      | none => rw [hma] at hattr; simp at hattr
      | some attrs =>
        rw [hma] at hattr
        dsimp only [] at hattr
        rw [Bool.and_eq_true] at hattr
        obtain ⟨hid, heq⟩ := hattr
        have hxeq : attrs.id.getD [] = x := by simpa using heq
        refine foldl_processMark_complete removed (ntext.getD []) pos x hxr _ st ?_
        exact ⟨m, List.mem_filter.mpr ⟨hm, hent⟩, attrs, hma, hid, hxeq⟩
    · simp only [h1, Bool.false_eq_true, if_false] at hg ⊢
      cases ncontent with
      | none => simp [hasIdOpt] at hg
      | some children =>
        have hg' : hasIdList x children = true := hg
        by_cases h2 : (!ntype.isEmpty &&
            (ntype == str "paragraph" || ntype == str "heading")) = true
        · simp only [h2, if_true]
          exact processChildren_complete removed x children pos st hg' hxr
        · simp only [h2, Bool.false_eq_true, if_false]
          exact processChildren_complete removed x children pos st hg' hxr

theorem processChildren_complete (removed : List Str) (x : Str)
    (children : List RNode) :
    ∀ (pos : Nat) (st : EState), hasIdList x children = true → x ∉ removed →
      x ∈ (processChildren removed children pos st).2.seenIds := by
  intro pos st hg hxr
  cases children with
  | nil => simp [hasIdList] at hg
  | cons c cs =>
    rw [processChildren.eq_def]
    have hgc : (hasIdNode x c || hasIdList x cs) = true := hg
    rw [Bool.or_eq_true] at hgc
    rcases hgc with hc | hcs
    · exact processChildren_seen_mono removed cs _ _ x
        (processNode_complete removed x c pos st hc hxr)
    · exact processChildren_complete removed x cs _ _ hcs hxr

end

theorem foldl_processNode_stInv (removed : List Str) :
    ∀ (nodes : List RNode) (st : EState), stInv st →
      stInv (nodes.foldl (fun st n => (processNode removed n 0 st).2) st) := by
  intro nodes
  induction nodes with
  | nil => intro st h; simpa using h
  | cons n ns ih =>
    intro st h
    rw [List.foldl_cons]
    exact ih _ (processNode_stInv removed n 0 st h)

theorem foldl_processNode_seen_mono (removed : List Str) (x : Str) :
    ∀ (nodes : List RNode) (st : EState), x ∈ st.seenIds →
      x ∈ (nodes.foldl (fun st n => (processNode removed n 0 st).2) st).seenIds := by
  intro nodes
  induction nodes with
  | nil => intro st h; simpa using h
  | cons n ns ih =>
    intro st h
    rw [List.foldl_cons]
    exact ih _ (processNode_seen_mono removed n 0 st x h)

theorem foldl_processNode_sound (removed : List Str) (S : List (Str × Str × Str)) :
    ∀ (nodes : List RNode) (st : EState),
    (∀ n ∈ nodes, goodNode S n = true) →
    (∀ hh ∈ st.highlights, (hh.id, hh.labelType, hh.text) ∈ S) →
    ∀ hh ∈ (nodes.foldl (fun st n => (processNode removed n 0 st).2) st).highlights,
      (hh.id, hh.labelType, hh.text) ∈ S := by
  intro nodes
  induction nodes with
  | nil => intro st _ hst; simpa using hst
  | cons n ns ih =>
    intro st hg hst
    rw [List.foldl_cons]
    exact ih _ (fun n' hn' => hg n' (List.mem_cons_of_mem _ hn'))
      (processNode_sound removed S n 0 st (hg n (List.mem_cons_self _ _)) hst)

theorem foldl_processNode_complete (removed : List Str) (x : Str) (hxr : x ∉ removed) :
    ∀ (nodes : List RNode) (st : EState),
    (∃ n ∈ nodes, hasIdNode x n = true) →
    x ∈ (nodes.foldl (fun st n => (processNode removed n 0 st).2) st).seenIds := by
  intro nodes
  induction nodes with
  | nil =>
    intro st h
    obtain ⟨n, hn, _⟩ := h
    exact absurd hn (List.not_mem_nil n)
  | cons n ns ih =>
    intro st h
    rw [List.foldl_cons]
    obtain ⟨n', hn', hid⟩ := h
    rcases List.mem_cons.mp hn' with heq | htail
    · subst heq
      exact foldl_processNode_seen_mono removed x ns _
        (processNode_complete removed x n' 0 st hid hxr)
    · exact ih _ ⟨n', htail, hid⟩

theorem existingOfNode_noMarks (pos : Nat) (n : RNode)
    (h : noMarksNode n = true) : existingOfNode pos n = [] := by
  cases n with
  | mk ty tx mks co =>
    have h' : (mks.isNone && noMarksOpt co) = true := h
    rw [Bool.and_eq_true] at h'
    have hmn : mks = none := Option.isNone_iff_eq_none.mp h'.1
    subst hmn
    rfl

theorem existingFrom_noMarks : ∀ (ns : List RNode) (pos : Nat),
    noMarksList ns = true → existingFrom pos ns = [] := by
  intro ns
  induction ns with
  | nil => intro pos _; rfl
  | cons n rest ih =>
    intro pos h
    have h' : (noMarksNode n && noMarksList rest) = true := h
    rw [Bool.and_eq_true] at h'
    unfold existingFrom
    rw [existingOfNode_noMarks pos n h'.1, ih _ h'.2]
    rfl

theorem goodList_of_forall (S : List (Str × Str × Str)) : ∀ (l : List RNode),
    (∀ n ∈ l, goodNode S n = true) → goodList S l = true := by
  intro l
  induction l with
  | nil => intro _; rfl
  | cons n ns ih =>
    intro h
    show (goodNode S n && goodList S ns) = true
    rw [Bool.and_eq_true]
    exact ⟨h n (List.mem_cons_self _ _), ih (fun n' hn' => h n' (List.mem_cons_of_mem _ hn'))⟩

theorem hasIdList_of_mem (x : Str) (n : RNode) : ∀ (l : List RNode), n ∈ l →
    hasIdNode x n = true → hasIdList x l = true := by
  intro l
  induction l with
  | nil => intro hn _; exact absurd hn (List.not_mem_nil n)
  | cons m ms ih =>
    intro hn hx
    show (hasIdNode x m || hasIdList x ms) = true
    rw [Bool.or_eq_true]
    rcases List.mem_cons.mp hn with heq | htail
    · subst heq; exact Or.inl hx
    · exact Or.inr (ih htail hx)

theorem contiguousFrom_ne_nil : ∀ (l : List TextSegment) (o : Nat),
    contiguousFrom o l → ∀ s ∈ l, s.text ≠ [] := by
  intro l
  induction l with
  | nil => intro o _ s hs; exact absurd hs (List.not_mem_nil s)
  | cons a rest ih =>
    intro o h s hs
    obtain ⟨_, hane, hrest⟩ := h
    rcases List.mem_cons.mp hs with heq | htail
    · subst heq; exact hane
    · exact ih _ hrest s htail

theorem locEntry_some (pText : Str) (a : HighlightWithText) (e : LocatedHL)
    (h : locEntry pText a = some e) :
    ∃ i, idxOf? a.text pText = some i ∧ e.id = a.id ∧ e.labelType = a.labelType ∧
      e.text = a.text ∧ e.startIndex = i ∧ e.endIndex = i + a.text.length := by
  unfold locEntry at h
  obtain ⟨i, hi, he⟩ := Option.map_eq_some'.mp h
  subst he
  exact ⟨i, hi, rfl, rfl, rfl, rfl, rfl⟩

theorem addNewHLs_filterMap (pText : Str) : ∀ (anns : List HighlightWithText)
    (acc : List LocatedHL),
    (anns.map (fun a => a.id)).Nodup →
    (∀ a ∈ anns, acc.any (fun hh => hh.id == a.id) = false) →
    addNewHLs pText acc anns = acc ++ anns.filterMap (locEntry pText) := by
  intro anns
  induction anns with
  | nil => intro acc _ _; simp [addNewHLs]
  | cons a as ih =>
    intro acc hnd hacc
    have hnd' : (as.map (fun a => a.id)).Nodup := by
      rw [List.map_cons, List.nodup_cons] at hnd
      exact hnd.2
    have haid : a.id ∉ as.map (fun a => a.id) := by
      rw [List.map_cons, List.nodup_cons] at hnd
      exact hnd.1
    unfold addNewHLs
    rw [List.foldl_cons]
    rw [if_neg (by rw [hacc a (List.mem_cons_self _ _)]; exact Bool.false_ne_true)]
    cases hidx : idxOf? a.text pText with
    | none =>
      have hle : locEntry pText a = none := by
        unfold locEntry
        rw [hidx]
        rfl
      rw [List.filterMap_cons, hle]
      exact ih acc hnd' (fun b hb => hacc b (List.mem_cons_of_mem _ hb))
    | some i =>
      have hle : locEntry pText a =
          some ⟨a.id, a.labelType, a.text, i, i + a.text.length⟩ := by
        unfold locEntry
        rw [hidx]
        rfl
      rw [List.filterMap_cons, hle]
      dsimp only []
      have hacc' : ∀ b ∈ as, ((acc ++
          [(⟨a.id, a.labelType, a.text, i, i + a.text.length⟩ : LocatedHL)]).any
            (fun hh => hh.id == b.id)) = false := by
        intro b hb
        rw [List.any_append]
        have h1 : acc.any (fun hh => hh.id == b.id) = false :=
          hacc b (List.mem_cons_of_mem _ hb)
        have h2 : ([(⟨a.id, a.labelType, a.text, i, i + a.text.length⟩ :
            LocatedHL)].any (fun hh => hh.id == b.id)) = false := by
          simp only [List.any_cons, List.any_nil, Bool.or_false]
          rw [beq_eq_false_iff_ne]
          intro hcontra
          exact haid (hcontra ▸ List.mem_map_of_mem (fun a => a.id) hb)
        rw [h1, h2]
        rfl
      show addNewHLs pText (acc ++
          [(⟨a.id, a.labelType, a.text, i, i + a.text.length⟩ : LocatedHL)]) as =
        acc ++ ((⟨a.id, a.labelType, a.text, i, i + a.text.length⟩ : LocatedHL) ::
          List.filterMap (locEntry pText) as)
      rw [ih _ hnd' hacc', List.append_assoc]
      rfl

theorem pairwise_locEntry (pText : Str) : ∀ (l : List HighlightWithText),
    l.Pairwise (fun a b => annsDisjoint pText a b = true) →
    (l.filterMap (locEntry pText)).Pairwise
      (fun e1 e2 => e1.endIndex ≤ e2.startIndex ∨ e2.endIndex ≤ e1.startIndex) := by
  intro l
  induction l with
  | nil => intro _; simp
  | cons a as ih =>
    intro h
    rw [List.pairwise_cons] at h
    obtain ⟨ha, has⟩ := h
    rw [List.filterMap_cons]
    cases hle : locEntry pText a with
    | none => exact ih has
    | some e =>
      rw [List.pairwise_cons]
      refine ⟨?_, ih has⟩
      intro e2 he2
      obtain ⟨b, hb, hlb⟩ := List.mem_filterMap.mp he2
      have hd := ha b hb
      obtain ⟨i, hi, _, _, _, hs1, he1⟩ := locEntry_some pText a e hle
      obtain ⟨j, hj, _, _, _, hs2, he2'⟩ := locEntry_some pText b e2 hlb
      unfold annsDisjoint at hd
      rw [hi, hj] at hd
      dsimp only [] at hd
      have hd' := of_decide_eq_true hd
      rw [he1, hs2, he2', hs1]
      exact hd'

theorem entries_wf (pText : Str) (anns : List HighlightWithText)
    (hgood : ∀ a ∈ anns, a.text ≠ []) :
    ∀ e ∈ anns.filterMap (locEntry pText),
      e.startIndex < e.endIndex ∧ e.endIndex ≤ pText.length ∧
      (pText.drop e.startIndex).take (e.endIndex - e.startIndex) = e.text := by
  intro e he
  obtain ⟨a, ha, hla⟩ := List.mem_filterMap.mp he
  obtain ⟨i, hi, _, _, ht, hs, hend⟩ := locEntry_some pText a e hla
  obtain ⟨hle, hslice⟩ := idxOf?_spec pText a.text i hi
  have hpos : 0 < a.text.length := List.length_pos.mpr (hgood a ha)
  rw [hs, hend, ht]
  refine ⟨by omega, by omega, ?_⟩
  have harith : i + a.text.length - i = a.text.length := by omega
  rw [harith]
  exact hslice

theorem insertHL_perm (x : LocatedHL) : ∀ (l : List LocatedHL),
    List.Perm (insertHL x l) (x :: l) := by
  intro l
  induction l with
  | nil => exact List.Perm.refl _
  | cons y ys ih =>
    unfold insertHL
    by_cases hc : y.startIndex < x.startIndex
    · rw [if_pos hc]
      exact (List.Perm.cons y ih).trans (List.Perm.swap x y ys)
    · rw [if_neg hc]

theorem sortHLs_perm : ∀ (l : List LocatedHL), List.Perm (sortHLs l) l := by
  intro l
  induction l with
  | nil => exact List.Perm.refl _
  | cons x xs ih =>
    show List.Perm (insertHL x (sortHLs xs)) (x :: xs)
    exact (insertHL_perm x (sortHLs xs)).trans (List.Perm.cons x ih)

theorem insertHL_pairwise_le (x : LocatedHL) : ∀ (l : List LocatedHL),
    l.Pairwise (fun a b => a.startIndex ≤ b.startIndex) →
    (insertHL x l).Pairwise (fun a b => a.startIndex ≤ b.startIndex) := by
  intro l
  induction l with
  | nil => intro _; exact List.pairwise_singleton _ _
  | cons y ys ih =>
    intro h
    rw [List.pairwise_cons] at h
    obtain ⟨hy, hys⟩ := h
    unfold insertHL
    by_cases hc : y.startIndex < x.startIndex
    · rw [if_pos hc]
      rw [List.pairwise_cons]
      refine ⟨?_, ih hys⟩
      intro z hz
      rcases (mem_insertHL x z ys).mp hz with heq | hzys
      · subst heq; exact le_of_lt hc
      · exact hy z hzys
    · rw [if_neg hc]
      rw [List.pairwise_cons]
      refine ⟨?_, List.pairwise_cons.mpr ⟨hy, hys⟩⟩
      intro z hz
      rcases List.mem_cons.mp hz with heq | hzys
      · subst heq; omega
      · exact le_trans (by omega) (hy z hzys)

theorem sortHLs_pairwise_le : ∀ (l : List LocatedHL),
    (sortHLs l).Pairwise (fun a b => a.startIndex ≤ b.startIndex) := by
  intro l
  induction l with
  | nil => simp [sortHLs]
  | cons x xs ih =>
    show (insertHL x (sortHLs xs)).Pairwise _
    exact insertHL_pairwise_le x (sortHLs xs) ih

theorem sortHLs_pairwise_disj (l : List LocatedHL)
    (h : l.Pairwise
      (fun e1 e2 => e1.endIndex ≤ e2.startIndex ∨ e2.endIndex ≤ e1.startIndex)) :
    (sortHLs l).Pairwise
      (fun e1 e2 => e1.endIndex ≤ e2.startIndex ∨ e2.endIndex ≤ e1.startIndex) := by
  have hsym : ∀ {x y : LocatedHL},
      (x.endIndex ≤ y.startIndex ∨ y.endIndex ≤ x.startIndex) →
      (y.endIndex ≤ x.startIndex ∨ x.endIndex ≤ y.startIndex) := fun hxy => hxy.symm
  exact ((sortHLs_perm l).pairwise_iff hsym).mpr h

theorem disjChain_of : ∀ (l : List LocatedHL) (cur : Nat),
    (∀ e ∈ l, e.startIndex < e.endIndex) →
    l.Pairwise
      (fun e1 e2 => e1.endIndex ≤ e2.startIndex ∨ e2.endIndex ≤ e1.startIndex) →
    l.Pairwise (fun a b => a.startIndex ≤ b.startIndex) →
    (∀ e ∈ l, cur ≤ e.startIndex) →
    disjChain cur l := by
  intro l
  induction l with
  | nil => intro cur _ _ _ _; trivial
  | cons e rest ih =>
    intro cur hpos hdisj hle hcur
    refine ⟨hcur e (List.mem_cons_self _ _), ?_⟩
    refine ih e.endIndex (fun e' he' => hpos e' (List.mem_cons_of_mem _ he'))
      (List.pairwise_cons.mp hdisj).2 (List.pairwise_cons.mp hle).2 ?_
    intro e' he'
    rcases (List.pairwise_cons.mp hdisj).1 e' he' with h1 | h2
    · exact h1
    · have h3 := (List.pairwise_cons.mp hle).1 e' he'
      have h4 := hpos e' (List.mem_cons_of_mem _ he')
      omega

theorem disjoint_split (E0 : List LocatedHL) (pText : Str)
    (hE0 : ∀ e ∈ E0,
      (pText.drop e.startIndex).take (e.endIndex - e.startIndex) = e.text) :
    ∀ (entries : List LocatedHL) (done : List TextSegment) (cur : Nat),
    (∀ e ∈ entries, e ∈ E0) →
    (∀ e ∈ entries, e.startIndex < e.endIndex ∧ e.endIndex ≤ pText.length) →
    disjChain cur entries →
    cur ≤ pText.length →
    (∀ seg ∈ done, seg.startPos + seg.text.length ≤ cur) →
    (∀ seg ∈ done, seg.highlights = [] ∨ ∃ e ∈ E0, seg.text = e.text ∧
      seg.highlights = [⟨e.id, e.labelType⟩]) →
    ∀ seg ∈ applySplits entries (done ++ [⟨pText.drop cur, [], cur⟩]),
      seg.highlights = [] ∨ ∃ e ∈ E0, seg.text = e.text ∧
        seg.highlights = [⟨e.id, e.labelType⟩] := by
  intro entries
  induction entries with
  | nil =>
    intro done cur _ _ _ _ _ hdoneP seg hseg
    have happ : applySplits [] (done ++ [(⟨pText.drop cur, [], cur⟩ : TextSegment)]) =
        done ++ [⟨pText.drop cur, [], cur⟩] := rfl
    rw [happ] at hseg
    rcases List.mem_append.mp hseg with h1 | h2
    · exact hdoneP seg h1
    · left
      have heq : seg = ⟨pText.drop cur, [], cur⟩ := by simpa using h2
      rw [heq]
  | cons e rest ih =>
    intro done cur hsub hwf hchain hcur hdone hdoneP seg hseg
    obtain ⟨hce, hchain'⟩ := hchain
    obtain ⟨hlt, hub⟩ := hwf e (List.mem_cons_self _ _)
    rw [applySplits_cons] at hseg
    have hskip : ∀ s ∈ done, ¬ segContains s e.startIndex := by
      intro s hs
      exact not_segContains_of_left s _ (by have := hdone s hs; omega)
    rw [splitSegs_append_left e done _ hskip] at hseg
    have hlen : (pText.drop cur).length = pText.length - cur := List.length_drop cur pText
    have hcont : segContains (⟨pText.drop cur, [], cur⟩ : TextSegment) e.startIndex := by
      refine ⟨?_, ?_⟩
      · show cur ≤ e.startIndex
        exact hce
      · show e.startIndex - cur < (pText.drop cur).length
        rw [hlen]
        omega
    have hsplit : splitSegs e [(⟨pText.drop cur, [], cur⟩ : TextSegment)] =
        segPieces ⟨pText.drop cur, [], cur⟩ e ++ [] := by
      conv_lhs => unfold splitSegs
      rw [if_pos hcont]
    rw [hsplit, List.append_nil] at hseg
    have hetext : e.text.length = e.endIndex - e.startIndex := by
      rw [← hE0 e (hsub e (List.mem_cons_self _ _))]
      rw [List.length_take, List.length_drop]
      exact min_eq_left (by omega)
    have hmarked_text : ((pText.drop cur).take
        (min (e.endIndex - cur) (pText.drop cur).length)).drop (e.startIndex - cur) =
        e.text := by
      have hminre : min (e.endIndex - cur) (pText.drop cur).length =
          e.endIndex - cur := by
        rw [hlen]
        exact min_eq_left (by omega)
      rw [hminre, List.drop_take, List.drop_drop]
      have h1 : cur + (e.startIndex - cur) = e.startIndex := by omega
      have h2 : e.endIndex - cur - (e.startIndex - cur) = e.endIndex - e.startIndex := by
        omega
      rw [h1, h2]
      exact hE0 e (hsub e (List.mem_cons_self _ _))
    have hexp : segPieces (⟨pText.drop cur, [], cur⟩ : TextSegment) e =
        (if 0 < e.startIndex - cur then
          [(⟨(pText.drop cur).take (e.startIndex - cur), [], cur⟩ : TextSegment)]
         else []) ++
        [(⟨e.text, [⟨e.id, e.labelType⟩], cur + (e.startIndex - cur)⟩ : TextSegment)] ++
        (if e.endIndex - cur < (pText.drop cur).length then
          [(⟨(pText.drop cur).drop (e.endIndex - cur), [],
            cur + (e.endIndex - cur)⟩ : TextSegment)]
         else []) := by
      unfold segPieces
      dsimp only []
      simp only [List.nil_append]
      rw [hmarked_text]
    rw [hexp] at hseg
    by_cases hpost : e.endIndex - cur < (pText.drop cur).length
    · rw [if_pos hpost] at hseg
      have hpost_eq : (⟨(pText.drop cur).drop (e.endIndex - cur), [],
          cur + (e.endIndex - cur)⟩ : TextSegment) =
          ⟨pText.drop e.endIndex, [], e.endIndex⟩ := by
        rw [List.drop_drop]
        have h1 : cur + (e.endIndex - cur) = e.endIndex := by omega
        rw [h1]
      rw [hpost_eq] at hseg
      have hassoc : done ++ ((if 0 < e.startIndex - cur then
            [(⟨(pText.drop cur).take (e.startIndex - cur), [], cur⟩ : TextSegment)]
          else []) ++
          [(⟨e.text, [⟨e.id, e.labelType⟩], cur + (e.startIndex - cur)⟩ : TextSegment)] ++
          [(⟨pText.drop e.endIndex, [], e.endIndex⟩ : TextSegment)]) =
          (done ++ (if 0 < e.startIndex - cur then
            [(⟨(pText.drop cur).take (e.startIndex - cur), [], cur⟩ : TextSegment)]
          else []) ++
          [(⟨e.text, [⟨e.id, e.labelType⟩], cur + (e.startIndex - cur)⟩ : TextSegment)]) ++
          [(⟨pText.drop e.endIndex, [], e.endIndex⟩ : TextSegment)] := by
        simp [List.append_assoc]
      rw [hassoc] at hseg
      refine ih (done ++ (if 0 < e.startIndex - cur then
          [(⟨(pText.drop cur).take (e.startIndex - cur), [], cur⟩ : TextSegment)]
        else []) ++
        [(⟨e.text, [⟨e.id, e.labelType⟩], cur + (e.startIndex - cur)⟩ : TextSegment)])
        e.endIndex
        (fun e' he' => hsub e' (List.mem_cons_of_mem _ he'))
        (fun e' he' => hwf e' (List.mem_cons_of_mem _ he'))
        hchain' hub ?_ ?_ seg hseg
      · intro s hs
        rcases List.mem_append.mp hs with hs1 | hs2
        · rcases List.mem_append.mp hs1 with hs3 | hs4
          · have := hdone s hs3
            omega
          · by_cases h0 : 0 < e.startIndex - cur
            · rw [if_pos h0] at hs4
              have heq : s = ⟨(pText.drop cur).take (e.startIndex - cur), [], cur⟩ := by
                simpa using hs4
              rw [heq]
              show cur + ((pText.drop cur).take (e.startIndex - cur)).length ≤ e.endIndex
              rw [List.length_take, hlen]
              have hm : min (e.startIndex - cur) (pText.length - cur) =
                  e.startIndex - cur := min_eq_left (by omega)
              rw [hm]
              omega
            · rw [if_neg h0] at hs4
              exact absurd hs4 (List.not_mem_nil s)
        · have heq : s = ⟨e.text, [⟨e.id, e.labelType⟩], cur + (e.startIndex - cur)⟩ := by
            simpa using hs2
          rw [heq]
          show cur + (e.startIndex - cur) + e.text.length ≤ e.endIndex
          rw [hetext]
          omega
      · intro s hs
        rcases List.mem_append.mp hs with hs1 | hs2
        · rcases List.mem_append.mp hs1 with hs3 | hs4
          · exact hdoneP s hs3
          · by_cases h0 : 0 < e.startIndex - cur
            · rw [if_pos h0] at hs4
              have heq : s = ⟨(pText.drop cur).take (e.startIndex - cur), [], cur⟩ := by
                simpa using hs4
              rw [heq]
              exact Or.inl rfl
            · rw [if_neg h0] at hs4
              exact absurd hs4 (List.not_mem_nil s)
        · have heq : s = ⟨e.text, [⟨e.id, e.labelType⟩], cur + (e.startIndex - cur)⟩ := by
            simpa using hs2
          rw [heq]
          exact Or.inr ⟨e, hsub e (List.mem_cons_self _ _), rfl, rfl⟩
    · rw [if_neg hpost] at hseg
      cases rest with
      | cons e2 rest2 =>
        exfalso
        obtain ⟨hce2, _⟩ := hchain'
        obtain ⟨hlt2, hub2⟩ := hwf e2 (List.mem_cons_of_mem _ (List.mem_cons_self _ _))
        rw [hlen] at hpost
        omega
      | nil =>
        rw [List.append_nil] at hseg
        have happ : applySplits ([] : List LocatedHL)
            (done ++ ((if 0 < e.startIndex - cur then
              [(⟨(pText.drop cur).take (e.startIndex - cur), [], cur⟩ : TextSegment)]
            else []) ++
            [(⟨e.text, [⟨e.id, e.labelType⟩],
              cur + (e.startIndex - cur)⟩ : TextSegment)])) =
            done ++ ((if 0 < e.startIndex - cur then
              [(⟨(pText.drop cur).take (e.startIndex - cur), [], cur⟩ : TextSegment)]
            else []) ++
            [(⟨e.text, [⟨e.id, e.labelType⟩],
              cur + (e.startIndex - cur)⟩ : TextSegment)]) := rfl
        rw [happ] at hseg
        rcases List.mem_append.mp hseg with hs1 | hs2
        · exact hdoneP seg hs1
        · rcases List.mem_append.mp hs2 with hs3 | hs4
          · by_cases h0 : 0 < e.startIndex - cur
            · rw [if_pos h0] at hs3
              have heq : seg = ⟨(pText.drop cur).take (e.startIndex - cur), [], cur⟩ := by
                simpa using hs3
              rw [heq]
              exact Or.inl rfl
            · rw [if_neg h0] at hs3
              exact absurd hs3 (List.not_mem_nil seg)
          · have heq : seg = ⟨e.text, [⟨e.id, e.labelType⟩],
                cur + (e.startIndex - cur)⟩ := by
              simpa using hs4
            rw [heq]
            exact Or.inr ⟨e, hsub e (List.mem_cons_self _ _), rfl, rfl⟩

theorem isEmpty_false_of_ne {α : Type} (l : List α) (h : l ≠ []) :
    l.isEmpty = false := by
  cases l with
  | nil => exact absurd rfl h
  | cons x xs => rfl

theorem truthy_some (s : Str) (h : s ≠ []) : truthy (some s) = true := by
  cases s with
  | nil => exact absurd rfl h
  | cons c cs => rfl

theorem noMarksNode_marks (n : RNode) (h : noMarksNode n = true) : n.marks = none := by
  cases n with
  | mk ty tx mks co =>
    have h' : (mks.isNone && noMarksOpt co) = true := h
    rw [Bool.and_eq_true] at h'
    exact Option.isNone_iff_eq_none.mp h'.1

theorem noMarksNode_content (n : RNode) (h : noMarksNode n = true) :
    noMarksOpt n.content = true := by
  cases n with
  | mk ty tx mks co =>
    have h' : (mks.isNone && noMarksOpt co) = true := h
    rw [Bool.and_eq_true] at h'
    exact h'.2

theorem clean_segs_marked (nodes : List RNode) (pAnns : List HighlightWithText)
    (hclean : noMarksList nodes = true)
    (hids : (pAnns.map (fun a => a.id)).Nodup)
    (htxt : ∀ a ∈ pAnns, a.text ≠ [])
    (hdisj : pAnns.Pairwise (fun a b => annsDisjoint (textOfNodes nodes) a b = true)) :
    ∀ seg ∈ applySplits
        (sortHLs (addNewHLs (textOfNodes nodes) (existingHighlights nodes) pAnns))
        [⟨textOfNodes nodes, [], 0⟩],
      seg.highlights = [] ∨ ∃ a ∈ pAnns, seg.text = a.text ∧
        seg.highlights = [⟨a.id, a.labelType⟩] := by
  intro seg hseg
  have hex : existingHighlights nodes = [] := by
    rw [existingHighlights_eq]
    exact existingFrom_noMarks nodes 0 hclean
  rw [hex] at hseg
  have hadd : addNewHLs (textOfNodes nodes) [] pAnns =
      pAnns.filterMap (locEntry (textOfNodes nodes)) := by
    rw [addNewHLs_filterMap (textOfNodes nodes) pAnns [] hids (fun a _ => rfl)]
    rw [List.nil_append]
  rw [hadd] at hseg
  have hE0wf := entries_wf (textOfNodes nodes) pAnns htxt
  have hwf' : ∀ e ∈ sortHLs (pAnns.filterMap (locEntry (textOfNodes nodes))),
      e.startIndex < e.endIndex ∧ e.endIndex ≤ (textOfNodes nodes).length := by
    intro e he
    have hm := (mem_sortHLs e _).mp he
    exact ⟨(hE0wf e hm).1, (hE0wf e hm).2.1⟩
  have hchain : disjChain 0
      (sortHLs (pAnns.filterMap (locEntry (textOfNodes nodes)))) := by
    refine disjChain_of _ 0 (fun e he => (hwf' e he).1) ?_ (sortHLs_pairwise_le _)
      (fun e _ => Nat.zero_le _)
    exact sortHLs_pairwise_disj _ (pairwise_locEntry (textOfNodes nodes) pAnns hdisj)
  have hseg' : seg ∈ applySplits
      (sortHLs (pAnns.filterMap (locEntry (textOfNodes nodes))))
      ([] ++ [(⟨(textOfNodes nodes).drop 0, [], 0⟩ : TextSegment)]) := by
    rw [List.nil_append, List.drop_zero]
    exact hseg
  have hmain := disjoint_split (pAnns.filterMap (locEntry (textOfNodes nodes)))
    (textOfNodes nodes) (fun e he => (hE0wf e he).2.2)
    (sortHLs (pAnns.filterMap (locEntry (textOfNodes nodes)))) [] 0
    (fun e he => (mem_sortHLs e _).mp he) hwf' hchain (Nat.zero_le _)
    (fun s hs => absurd hs (List.not_mem_nil s))
    (fun s hs => absurd hs (List.not_mem_nil s))
    seg hseg'
  rcases hmain with h | ⟨e, he, ht, hh⟩
  · exact Or.inl h
  · obtain ⟨a, ha, hla⟩ := List.mem_filterMap.mp he
    obtain ⟨i, _, hid, hlbl, htext, _, _⟩ := locEntry_some _ a e hla
    exact Or.inr ⟨a, ha, by rw [ht, htext], by rw [hh, hid, hlbl]⟩

theorem goodNode_segToNode (S : List (Str × Str × Str)) (seg : TextSegment)
    (anns : List HighlightWithText)
    (hchar : seg.highlights = [] ∨ ∃ a ∈ anns, seg.text = a.text ∧
      seg.highlights = [⟨a.id, a.labelType⟩])
    (hgood : ∀ a ∈ anns, a.id ≠ [] ∧ a.labelType ≠ [] ∧ a.text ≠ [])
    (hS : ∀ a ∈ anns, (a.id, a.labelType, a.text) ∈ S) :
    goodNode S (segToNode seg) = true := by
  rcases hchar with h0 | ⟨a, ha, htx, hhl⟩
  · have hnode : segToNode seg = RNode.mk (str "text") (some seg.text) none none := by
      unfold segToNode
      rw [h0]
      rfl
    rw [hnode, goodNode.eq_def]
    have hcond : (truthy (some seg.text) && (none : Option (List Mark)).isSome) =
        false := by simp
    simp only [hcond, Bool.false_eq_true, if_false]
    rfl
  · have hid : a.id ≠ [] := (hgood a ha).1
    have hlbl : a.labelType ≠ [] := (hgood a ha).2.1
    have htne : a.text ≠ [] := (hgood a ha).2.2
    have hnode : segToNode seg = RNode.mk (str "text") (some a.text)
        (some [⟨str "entity-reference",
          some ⟨some a.id, some a.labelType, some a.labelType⟩⟩]) none := by
      unfold segToNode
      rw [hhl, htx]
      rfl
    rw [hnode, goodNode.eq_def]
    have hcond : (truthy (some a.text) && (some [(⟨str "entity-reference",
        some ⟨some a.id, some a.labelType, some a.labelType⟩⟩ : Mark)]).isSome) =
        true := by
      rw [truthy_some a.text htne]
      rfl
    simp only [hcond, if_true]
    simp only [Option.getD_some, List.all_cons, List.all_nil, Bool.and_true]
    dsimp only []
    rw [truthy_some a.labelType hlbl]
    rw [decide_eq_true (hS a ha), Bool.true_and]
    simp

theorem goodNode_processPara (anns : List HighlightWithText) (p : RNode)
    (hp : noMarksNode p = true)
    (hids : (anns.map (fun a => a.id)).Nodup)
    (hgood : ∀ a ∈ anns, a.id ≠ [] ∧ a.labelType ≠ [] ∧ a.text ≠ [])
    (hdisj : p.type = str "paragraph" →
      (paraAnns (paragraphText p) anns).Pairwise
        (fun a b => annsDisjoint (paragraphText p) a b = true)) :
    goodNode (anns.map tripleOf) (processPara anns p) = true := by
  by_cases h1 : p.type = str "paragraph"
  · by_cases h2 : (paraAnns (paragraphText p) anns).isEmpty
    · have hfix : processPara anns p = p := by
        unfold processPara
        rw [if_neg (by simpa using h1), if_pos h2]
      rw [hfix]
      exact noMarks_good _ p hp
    · cases hc : p.content with
      | none =>
        have hfix : processPara anns p = p := by
          unfold processPara
          rw [if_neg (by simpa using h1), if_neg h2, hc]
        rw [hfix]
        exact noMarks_good _ p hp
      | some nodes =>
        have hone : processPara anns p = RNode.mk p.type p.text p.marks
            (some (processParagraph nodes (paraAnns (paragraphText p) anns))) := by
          unfold processPara
          rw [if_neg (by simpa using h1), if_neg h2, hc]
        rw [hone]
        have hptext : paragraphText p = textOfNodes nodes := by
          unfold paragraphText
          rw [hc]
          rfl
        have hcleanNodes : noMarksList nodes = true := by
          have h := noMarksNode_content p hp
          rw [hc] at h
          exact h
        rw [goodNode.eq_def]
        have hmk : p.marks = none := noMarksNode_marks p hp
        rw [hmk]
        have hcond : (truthy p.text && (none : Option (List Mark)).isSome) =
            false := by simp
        simp only [hcond, Bool.false_eq_true, if_false]
        show goodList (anns.map tripleOf)
          (processParagraph nodes (paraAnns (paragraphText p) anns)) = true
        apply goodList_of_forall
        intro n hn
        obtain ⟨sg, hsg, hsgn⟩ := List.mem_map.mp hn
        rw [← hsgn]
        have hids' : ((paraAnns (paragraphText p) anns).map
            (fun a => a.id)).Nodup := by
          refine List.Nodup.sublist ?_ hids
          exact List.Sublist.map _ (List.filter_sublist anns)
        have htxt' : ∀ a ∈ paraAnns (paragraphText p) anns, a.text ≠ [] :=
          fun a ha => (paraAnns_mem _ anns a ha).2.1
        have hdisj' : (paraAnns (paragraphText p) anns).Pairwise
            (fun a b => annsDisjoint (textOfNodes nodes) a b = true) := by
          rw [← hptext]
          exact hdisj h1
        refine goodNode_segToNode _ sg (paraAnns (paragraphText p) anns) ?_ ?_ ?_
        · exact clean_segs_marked nodes (paraAnns (paragraphText p) anns)
            hcleanNodes hids' htxt' hdisj' sg hsg
        · intro a ha
          exact hgood a (paraAnns_mem _ anns a ha).1
        · intro a ha
          exact List.mem_map_of_mem tripleOf (paraAnns_mem _ anns a ha).1
  · have hfix : processPara anns p = p := by
      unfold processPara
      rw [if_pos (by simpa using h1)]
    rw [hfix]
    exact noMarks_good _ p hp

theorem hasIdNode_processPara (anns : List HighlightWithText)
    (a : HighlightWithText) (p : RNode) (ha : a ∈ anns)
    (hp : noMarksNode p = true)
    (hgood : ∀ b ∈ anns, b.id ≠ [] ∧ b.labelType ≠ [] ∧ b.text ≠ [])
    (h1 : p.type = str "paragraph")
    (hinc : includesStr (paragraphText p) a.text = true) :
    hasIdNode a.id (processPara anns p) = true := by
  have hatext : a.text ≠ [] := (hgood a ha).2.2
  have hmem : a ∈ paraAnns (paragraphText p) anns := by
    unfold paraAnns
    rw [List.mem_filter]
    refine ⟨ha, ?_⟩
    rw [Bool.and_eq_true]
    constructor
    · rw [Bool.not_eq_true']
      exact isEmpty_false_of_ne a.text hatext
    · exact hinc
  have h2 : ¬ (paraAnns (paragraphText p) anns).isEmpty = true := by
    intro hcon
    rw [List.isEmpty_iff] at hcon
    rw [hcon] at hmem
    exact absurd hmem (List.not_mem_nil a)
  cases hc : p.content with
  | none =>
    exfalso
    have hpt : paragraphText p = [] := by
      unfold paragraphText
      rw [hc]
      rfl
    rw [hpt] at hinc
    obtain ⟨i, hi⟩ := includesStr_idx [] a.text hinc
    obtain ⟨hle, _⟩ := idxOf?_spec [] a.text i hi
    have := List.length_pos.mpr hatext
    simp only [List.length_nil] at hle
    omega
  | some nodes =>
    have hone : processPara anns p = RNode.mk p.type p.text p.marks
        (some (processParagraph nodes (paraAnns (paragraphText p) anns))) := by
      unfold processPara
      rw [if_neg (by simpa using h1), if_neg h2, hc]
    rw [hone]
    have hptext : paragraphText p = textOfNodes nodes := by
      unfold paragraphText
      rw [hc]
      rfl
    have hptne : textOfNodes nodes ≠ [] := by
      rw [← hptext]
      refine paraAnns_pText_ne (paragraphText p) anns ?_
      intro hcon
      rw [hcon] at h2
      exact h2 rfl
    have hpanns : ∀ b ∈ paraAnns (paragraphText p) anns,
        b.id ≠ [] ∧ b.labelType ≠ [] ∧ b.text ≠ [] ∧
        includesStr (textOfNodes nodes) b.text = true := by
      intro b hb
      obtain ⟨hbm, hbne, hbinc⟩ := paraAnns_mem _ anns b hb
      obtain ⟨w1, w2, _⟩ := hgood b hbm
      exact ⟨w1, w2, hbne, hptext ▸ hbinc⟩
    obtain ⟨p1, _, _, _, _, p6⟩ := pass1_inv nodes
      (paraAnns (paragraphText p) anns) hpanns hptne
    obtain ⟨seg, hseg, sh, hsh, hshid⟩ := p6 a hmem
    have hsegne : seg.text ≠ [] := contiguousFrom_ne_nil _ 0 p1 seg hseg
    have hshidne : sh.id ≠ [] := by
      rw [hshid]
      exact (hgood a ha).1
    rw [hasIdNode.eq_def]
    have hmk : p.marks = none := noMarksNode_marks p hp
    rw [hmk]
    have hcond : (truthy p.text && (none : Option (List Mark)).isSome) =
        false := by simp
    simp only [hcond, Bool.false_eq_true, if_false]
    show hasIdList a.id
      (processParagraph nodes (paraAnns (paragraphText p) anns)) = true
    refine hasIdList_of_mem a.id (segToNode seg) _
      (List.mem_map_of_mem segToNode hseg) ?_
    have hnode : segToNode seg = RNode.mk (str "text") (some seg.text)
        (some (seg.highlights.map (fun h2 => ⟨str "entity-reference",
          some ⟨some h2.id, some h2.labelType, some h2.labelType⟩⟩))) none := by
      unfold segToNode
      rw [isEmpty_false_of_ne seg.highlights (List.ne_nil_of_mem hsh)]
      rfl
    rw [hnode, hasIdNode.eq_def]
    have hcond2 : (truthy (some seg.text) &&
        (some (seg.highlights.map (fun h2 => (⟨str "entity-reference",
          some ⟨some h2.id, some h2.labelType, some h2.labelType⟩⟩ : Mark)))).isSome) =
        true := by
      rw [truthy_some seg.text hsegne]
      rfl
    simp only [hcond2, if_true]
    rw [List.any_eq_true]
    refine ⟨⟨str "entity-reference",
      some ⟨some sh.id, some sh.labelType, some sh.labelType⟩⟩, ?_, ?_⟩
    · show _ ∈ (some (seg.highlights.map (fun h2 => (⟨str "entity-reference",
        some ⟨some h2.id, some h2.labelType, some h2.labelType⟩⟩ : Mark)))).getD []
      rw [Option.getD_some]
      exact List.mem_map_of_mem _ hsh
    · dsimp only []
      rw [truthy_some sh.id hshidne]
      simp only [Option.getD_some, Option.isSome_some, Bool.and_true, Bool.true_and]
      rw [hshid]
      simp

theorem nodup_triples (l : List HighlightWithText)
    (h : (l.map (fun hh => hh.id)).Nodup) : (l.map tripleOf).Nodup := by
  have heq : l.map (fun hh => hh.id) = (l.map tripleOf).map (fun t => t.1) := by
    rw [List.map_map]
    rfl
  rw [heq] at h
  exact List.Nodup.of_map _ h

theorem extract_clean_nil (removed : List Str) (hmap : HMap) (d : RemirrorDoc)
    (hclean : ∀ p ∈ d.content.getD [], noMarksNode p = true) :
    (extractHighlightsFromContentMarks removed hmap d).1 = [] := by
  unfold extractHighlightsFromContentMarks
  cases hdc : d.content with
  | none => rfl
  | some nodes =>
    dsimp only []
    have hsound := foldl_processNode_sound removed [] nodes ⟨[], [], hmap⟩
      (fun n hn => noMarks_good [] n (hclean n (by rw [hdc]; exact hn)))
      (fun hh hmem => absurd hmem (List.not_mem_nil hh))
    refine List.eq_nil_iff_forall_not_mem.mpr ?_
    intro hh hmem
    exact absurd (hsound hh hmem) (List.not_mem_nil _)

/-- Claim C3 (amended): round trip of annotate-then-extract holds for clean
documents. For every document none of whose nodes carries marks, and every
highlight list with locatable non-empty texts, pairwise non-overlapping located
ranges, distinct non-empty ids and non-empty labels, none recently removed,
the (id, labelType, text) triples extracted from the annotated document are a
permutation of the input's triples — only the position fields are recomputed.
(On documents that already carry entity marks the extractor also returns the
pre-existing marks, so the unrestricted claim fails; see the counterexample.) -/
theorem c3_round_trip (d : RemirrorDoc) (h : List HighlightWithText)
    (removed : List Str) (hmap : HMap)
    (hclean : ∀ p ∈ d.content.getD [], noMarksNode p = true)
    (hgood : ∀ a ∈ h, a.id ≠ [] ∧ a.labelType ≠ [] ∧ a.text ≠ [])
    (hnodup : (h.map (fun a => a.id)).Nodup)
    (hloc : ∀ a ∈ h, locatableIn d a)
    (hrem : ∀ a ∈ h, a.id ∉ removed)
    (hdisj : disjointIn d h) :
    List.Perm
      (((extractHighlightsFromContentMarks removed hmap
          (createDocumentWithMarks d h)).1).map tripleOf)
      (h.map tripleOf) := by
  by_cases hhe : h.isEmpty = true
  · have hh : h = [] := List.isEmpty_iff.mp hhe
    subst hh
    have hcd : createDocumentWithMarks d [] = d := rfl
    rw [hcd, extract_clean_nil removed hmap d hclean]
  · cases hdc : d.content with
    | none =>
      exfalso
      obtain ⟨a0, h0, hh0⟩ := List.exists_cons_of_ne_nil
        (fun hcon : h = [] => hhe (by rw [hcon]; rfl))
      obtain ⟨_, p, hp, _⟩ := hloc a0 (by rw [hh0]; exact List.mem_cons_self _ _)
      rw [hdc] at hp
      exact absurd hp (List.not_mem_nil p)
    | some ps =>
      have hcd : createDocumentWithMarks d h =
          ⟨some (ps.map (processPara h))⟩ := by
        unfold createDocumentWithMarks
        rw [if_neg hhe, hdc]
      rw [hcd]
      have hExtr : (extractHighlightsFromContentMarks removed hmap
          ⟨some (ps.map (processPara h))⟩).1 =
          ((ps.map (processPara h)).foldl
            (fun st n => (processNode removed n 0 st).2)
            ⟨[], [], hmap⟩).highlights := rfl
      rw [hExtr]
      have hcleanPs : ∀ p ∈ ps, noMarksNode p = true := by
        intro p hp
        apply hclean
        rw [hdc]
        exact hp
      have hstInv : stInv ((ps.map (processPara h)).foldl
          (fun st n => (processNode removed n 0 st).2) ⟨[], [], hmap⟩) :=
        foldl_processNode_stInv removed _ _ ⟨rfl, List.nodup_nil⟩
      have hsound : ∀ hh ∈ ((ps.map (processPara h)).foldl
          (fun st n => (processNode removed n 0 st).2)
          ⟨[], [], hmap⟩).highlights,
          (hh.id, hh.labelType, hh.text) ∈ h.map tripleOf := by
        refine foldl_processNode_sound removed (h.map tripleOf) _ _ ?_
          (fun hh hm => absurd hm (List.not_mem_nil hh))
        intro n hn
        obtain ⟨p, hp, hpn⟩ := List.mem_map.mp hn
        rw [← hpn]
        refine goodNode_processPara h p (hcleanPs p hp) hnodup hgood ?_
        intro hptype
        refine hdisj p ?_ hptype
        rw [hdc]
        exact hp
      have hcomp : ∀ a ∈ h, ∃ hh ∈ ((ps.map (processPara h)).foldl
          (fun st n => (processNode removed n 0 st).2)
          ⟨[], [], hmap⟩).highlights, hh.id = a.id := by
        intro a ha
        have hseen : a.id ∈ ((ps.map (processPara h)).foldl
            (fun st n => (processNode removed n 0 st).2)
            ⟨[], [], hmap⟩).seenIds := by
          refine foldl_processNode_complete removed a.id (hrem a ha) _ _ ?_
          obtain ⟨hane, p, hp, hptype, hinc⟩ := hloc a ha
          refine ⟨processPara h p, ?_, ?_⟩
          · refine List.mem_map_of_mem _ ?_
            rw [hdc] at hp
            exact hp
          · exact hasIdNode_processPara h a p ha (hclean p hp) hgood hptype hinc
        obtain ⟨hseq, _⟩ := hstInv
        rw [hseq] at hseen
        obtain ⟨hh, hhm, hhid⟩ := List.mem_map.mp hseen
        exact ⟨hh, hhm, hhid⟩
      obtain ⟨hseq, hsnd⟩ := hstInv
      have hnodupE : ((((ps.map (processPara h)).foldl
          (fun st n => (processNode removed n 0 st).2)
          ⟨[], [], hmap⟩).highlights).map (fun hh => hh.id)).Nodup := by
        rw [← hseq]
        exact hsnd
      refine (List.perm_ext_iff_of_nodup (nodup_triples _ hnodupE)
        (nodup_triples h hnodup)).mpr ?_
      intro t
      constructor
      · intro ht
        obtain ⟨hh, hhm, hht⟩ := List.mem_map.mp ht
        rw [← hht]
        exact hsound hh hhm
      · intro ht
        obtain ⟨a, ham, hat⟩ := List.mem_map.mp ht
        obtain ⟨hh, hhm, hhid⟩ := hcomp a ham
        have htr := hsound hh hhm
        obtain ⟨b, hbm, hbt⟩ := List.mem_map.mp htr
        have hbid : b.id = a.id := by
          have h1 : (tripleOf b).1 = hh.id := by rw [hbt]
          rw [← hhid]
          exact h1
        have hba : b = a := List.inj_on_of_nodup_map hnodup hbm ham hbid
        rw [← hat, ← hba, hbt]
        exact List.mem_map_of_mem tripleOf hhm

/-- Claim C3 (counterexample): the round trip fails on a document that already
carries an entity mark. The single highlight has a locatable, trivially
non-overlapping text and a distinct id not in the removed set — all the claim's
hypotheses — yet extracting the annotated document also returns the
pre-existing mark's (id, label, text) triple, so the result is not the input
highlight list, not even up to order. -/
theorem c3_counterexample :
    (∀ a ∈ [mkHL "a" "claim" "cd"], locatableIn
      ⟨some [para [markedNode "xy" "z" "L", textNode " cd"]]⟩ a) ∧
    ([mkHL "a" "claim" "cd"].map (fun a => a.id)).Nodup ∧
    disjointIn ⟨some [para [markedNode "xy" "z" "L", textNode " cd"]]⟩
      [mkHL "a" "claim" "cd"] ∧
    (∀ a ∈ [mkHL "a" "claim" "cd"], a.id ∉ ([] : List Str)) ∧
    ¬ List.Perm
      (((extractHighlightsFromContentMarks [] []
          (createDocumentWithMarks
            ⟨some [para [markedNode "xy" "z" "L", textNode " cd"]]⟩
            [mkHL "a" "claim" "cd"])).1).map tripleOf)
      ([mkHL "a" "claim" "cd"].map tripleOf) := by
  refine ⟨?_, by decide, by decide, by decide, by decide⟩
  intro a ha
  have haa : a = mkHL "a" "claim" "cd" := by simpa using ha
  subst haa
  exact ⟨by decide, para [markedNode "xy" "z" "L", textNode " cd"],
    by decide, by decide, by decide⟩

/-- Claim C3 (witness): the amended round-trip theorem applied to the clean
one-paragraph document "ab cd" with two disjoint highlights "ab" and "cd". -/
theorem c3_witness :
    (∀ p ∈ (⟨some [para [textNode "ab cd"]]⟩ : RemirrorDoc).content.getD [],
      noMarksNode p = true) ∧
    (∀ a ∈ [mkHL "i" "claim" "ab", mkHL "j" "evidence" "cd"],
      a.id ≠ [] ∧ a.labelType ≠ [] ∧ a.text ≠ []) ∧
    ([mkHL "i" "claim" "ab", mkHL "j" "evidence" "cd"].map
      (fun a => a.id)).Nodup ∧
    (∀ a ∈ [mkHL "i" "claim" "ab", mkHL "j" "evidence" "cd"],
      locatableIn ⟨some [para [textNode "ab cd"]]⟩ a) ∧
    (∀ a ∈ [mkHL "i" "claim" "ab", mkHL "j" "evidence" "cd"],
      a.id ∉ [str "gone"]) ∧
    disjointIn ⟨some [para [textNode "ab cd"]]⟩
      [mkHL "i" "claim" "ab", mkHL "j" "evidence" "cd"] ∧
    List.Perm
      (((extractHighlightsFromContentMarks [str "gone"] []
          (createDocumentWithMarks ⟨some [para [textNode "ab cd"]]⟩
            [mkHL "i" "claim" "ab", mkHL "j" "evidence" "cd"])).1).map tripleOf)
      ([mkHL "i" "claim" "ab", mkHL "j" "evidence" "cd"].map tripleOf) := by
  have hloc : ∀ a ∈ [mkHL "i" "claim" "ab", mkHL "j" "evidence" "cd"],
      locatableIn ⟨some [para [textNode "ab cd"]]⟩ a := by
    intro a ha
    rcases List.mem_cons.mp ha with h1 | h1
    · subst h1
      exact ⟨by decide, para [textNode "ab cd"], by decide, by decide, by decide⟩
    · have h2 : a = mkHL "j" "evidence" "cd" := by simpa using h1
      subst h2
      exact ⟨by decide, para [textNode "ab cd"], by decide, by decide, by decide⟩
  exact ⟨by decide, by decide, by decide, hloc, by decide, by decide,
    c3_round_trip ⟨some [para [textNode "ab cd"]]⟩
      [mkHL "i" "claim" "ab", mkHL "j" "evidence" "cd"] [str "gone"] []
      (by decide) (by decide) (by decide) hloc (by decide) (by decide)⟩

end Lodestone
